import Mathlib

/-!
DoublyLinkedList: a shallow embedding of `LL<T>` (src/DLL.hpp, src/dll.cpp)

Pointers are modelled as `Option Nat` (`none` is `nullptr`), the free store as a
list of slots indexed by address.  `new` takes the first address past the end of
the store, `delete` empties a slot.  Every member function that dereferences a
pointer returns `none` when the pointer is null or dangling (undefined behaviour
in C++), so a result `some _` means the call ran to completion.
-/

namespace DLL

/-- The `struct Node` of `DLL.hpp`: one element and the two links. -/
structure Node (T : Type) where
  data : T
  prev : Option Nat
  next : Option Nat
deriving DecidableEq, Repr

/-- The free store: slot `a` holds the node allocated at address `a`, or `none`
once that node has been deleted. -/
abbrev Mem (T : Type) := List (Option (Node T))

/-- The data members of `class LL` (`count`, `head`, `tail`) together with the
store its nodes live in.  `count` is a `size_t` in the source; it is kept as a
natural number, `count++` being `+ 1` and `count--` truncated `- 1`, which is
size_t arithmetic as long as `count` is the number of nodes of the list.  The
two part where `count--` runs at `count == 0`: the source wraps to `2^64 - 1`,
the truncated `- 1` stays at 0.  That takes an `erase` or `pop_front` on a list
whose `count` is 0 although the call finds a node to remove. -/
structure LL (T : Type) where
  count : Nat
  head : Option Nat
  tail : Option Nat
  mem : Mem T
deriving DecidableEq, Repr

variable {T : Type}

/-- Reading `*p` for a non-null `p`: the node stored at address `a`, if any. -/
def load (m : Mem T) (a : Nat) : Option (Node T) :=
  match m[a]? with
  | some (some n) => some n
  | _ => none

/-- Reading through a pointer that may be null. -/
def deref (m : Mem T) : Option Nat → Option (Node T)
  | none => none
  | some a => load m a

/-- The assignment `p->next = x`. -/
def setNext (m : Mem T) (p : Option Nat) (x : Option Nat) : Option (Mem T) :=
  match p with
  | none => none
  | some a =>
    match load m a with
    | none => none
    | some n => some (m.set a (some { n with next := x }))

/-- The assignment `p->prev = x`. -/
def setPrev (m : Mem T) (p : Option Nat) (x : Option Nat) : Option (Mem T) :=
  match p with
  | none => none
  | some a =>
    match load m a with
    | none => none
    | some n => some (m.set a (some { n with prev := x }))

/-- The expression `new Node{value}`: a fresh node with both links null, placed
at the first unused address. -/
def alloc (m : Mem T) (v : T) : Mem T × Nat :=
  (m ++ [some { data := v, prev := none, next := none }], m.length)

/-- The statement `delete p`: nothing for a null pointer, otherwise the node
must exist and its slot is emptied. -/
def delete (m : Mem T) : Option Nat → Option (Mem T)
  | none => some m
  | some a =>
    match load m a with
    | none => none
    | some _ => some (m.set a none)

/-- The default constructor `LL()` in an empty store. -/
def empty_list : LL T := { count := 0, head := none, tail := none, mem := [] }

/-- The member `size()`. -/
def size (s : LL T) : Nat := s.count

/-- The member `empty()`: `size() == 0`. -/
def empty (s : LL T) : Bool := size s == 0

/-- The member `end()`: the iterator wrapping `nullptr`. -/
def «end» (_s : LL T) : Option Nat := none

/-- The member `begin()`: the null iterator on an empty list, otherwise `head`. -/
def «begin» (s : LL T) : Option Nat :=
  if empty s then none else s.head

/-- The operator `Iterator::operator*`: the data of the node the iterator wraps. -/
def star (s : LL T) (it : Option Nat) : Option T :=
  (deref s.mem it).map Node.data

/-- The member `insert(pos, value)` of dll.cpp; the result is the new list and the
returned iterator. -/
def insert (s : LL T) (pos : Option Nat) (value : T) : Option (LL T × Option Nat) :=
  let current := pos
  let (m0, a) := alloc s.mem value
  let newNode : Option Nat := some a
  if empty s then
    some ({ s with head := newNode, tail := newNode, count := s.count + 1, mem := m0 }, newNode)
  else if current = none then do
    let m1 ← setNext m0 s.tail newNode
    let m2 ← setPrev m1 newNode s.tail
    some ({ s with tail := newNode, count := s.count + 1, mem := m2 }, newNode)
  else if current = s.head then do
    let m1 ← setPrev m0 s.head newNode
    let m2 ← setNext m1 newNode s.head
    some ({ s with head := newNode, count := s.count + 1, mem := m2 }, newNode)
  else do
    let q := (← deref m0 current).prev
    let m1 ← setPrev m0 newNode q
    let m2 ← setNext m1 newNode current
    let m3 ← setNext m2 q newNode
    let m4 ← setPrev m3 current newNode
    some ({ s with count := s.count + 1, mem := m4 }, newNode)

/-- The member `erase(pos)` of dll.cpp; the result is the new list and the returned
iterator. -/
def erase (s : LL T) (pos : Option Nat) : Option (LL T × Option Nat) :=
  if pos = «end» s then
    some (s, pos)
  else
    let current := pos
    if current = s.head then do
      let head1 := (← deref s.mem s.head).next
      let (m1, tail1) ←
        (if head1 ≠ none then (setPrev s.mem head1 none).map (fun m => (m, s.tail))
         else some (s.mem, none))
      let m2 ← delete m1 current
      some ({ count := s.count - 1, head := head1, tail := tail1, mem := m2 }, head1)
    else if current = s.tail then do
      let tail1 := (← deref s.mem s.tail).prev
      let m1 ← setNext s.mem tail1 none
      let m2 ← delete m1 current
      let s1 : LL T := { count := s.count - 1, head := s.head, tail := tail1, mem := m2 }
      some (s1, «end» s1)
    else do
      let m1 ← setNext s.mem (← deref s.mem current).prev (← deref s.mem current).next
      let m2 ← setPrev m1 (← deref m1 current).next (← deref m1 current).prev
      let nextNode := (← deref m2 current).next
      let m3 ← delete m2 current
      some ({ s with count := s.count - 1, mem := m3 }, nextNode)

/-- The member `push_back(value)` of dll.cpp. -/
def push_back (s : LL T) (value : T) : Option (LL T) :=
  let (m0, a) := alloc s.mem value
  let newNode : Option Nat := some a
  if empty s then
    some { s with head := newNode, tail := newNode, count := s.count + 1, mem := m0 }
  else do
    let m1 ← setNext m0 s.tail newNode
    let m2 ← setPrev m1 newNode s.tail
    some { s with tail := newNode, count := s.count + 1, mem := m2 }

/-- The member `pop_back()` of dll.cpp; on an empty list it only writes a message to
`std::cerr` and returns. -/
def pop_back (s : LL T) : Option (LL T) :=
  if empty s then
    some s
  else if s.head = s.tail ∧ s.count = 1 then do
    let m1 ← delete s.mem s.head
    some { count := s.count - 1, head := none, tail := none, mem := m1 }
  else do
    let p := (← deref s.mem s.tail).prev
    let m1 ← setNext s.mem p none
    let m2 ← delete m1 s.tail
    some { s with count := s.count - 1, tail := p, mem := m2 }

/-- The member `push_front(value)` of dll.cpp. -/
def push_front (s : LL T) (value : T) : Option (LL T) := do
  let (m0, a) := alloc s.mem value
  let new_node : Option Nat := some a
  let m1 ← setPrev m0 new_node none
  let m2 ← setNext m1 new_node s.head
  let m3 ← (if s.head ≠ none then setPrev m2 s.head new_node else some m2)
  some { s with head := new_node, count := s.count + 1, mem := m3 }

/-- The member `pop_front()` of dll.cpp; on a list without head it only writes a message
to `std::cerr` and returns. -/
def pop_front (s : LL T) : Option (LL T) :=
  if s.head = none then
    some s
  else do
    let p := s.head
    let head1 := (← deref s.mem s.head).next
    let (m1, tail1) ←
      (if head1 ≠ none then (setPrev s.mem head1 none).map (fun m => (m, s.tail))
       else some (s.mem, none))
    let m2 ← delete m1 p
    some { count := s.count - 1, head := head1, tail := tail1, mem := m2 }

/-- The loop of `clear()`: while `head` is not null, step to `head->next` and
delete the node left behind.  Every round deletes a node, so a store with
`fuel` slots allows at most `fuel` rounds. -/
def clearLoop : Nat → Mem T → Option Nat → Option (Mem T)
  | _, m, none => some m
  | 0, _, some _ => none
  | fuel + 1, m, some a => do
    let tmp := some a
    let head1 := (← load m a).next
    let m1 ← delete m tmp
    clearLoop fuel m1 head1

/-- The member `clear()` of dll.cpp. -/
def clear (s : LL T) : Option (LL T) := do
  let m1 ← clearLoop s.mem.length s.mem s.head
  some { count := 0, head := none, tail := none, mem := m1 }

/-- What a call of `front()` or `back()` can come to, apart from a value. -/
inductive Failure where
  | out_of_range
  | undefined
deriving DecidableEq, Repr

/-- The member `front()` of dll.cpp: throws `std::out_of_range` when `head` is null. -/
def front (s : LL T) : Except Failure T :=
  if s.head = none then
    .error .out_of_range
  else
    match deref s.mem s.head with
    | some n => .ok n.data
    | none => .error .undefined

/-- The member `back()` of dll.cpp: throws `std::out_of_range` when `tail` is null. -/
def back (s : LL T) : Except Failure T :=
  if s.tail = none then
    .error .out_of_range
  else
    match deref s.mem s.tail with
    | some n => .ok n.data
    | none => .error .undefined

/-! Section: the abstract view of a list. -/

/-- The address a segment starts at: that of its first cell, or `q` when it has
none. -/
def headOr (cs : List (Nat × T)) (q : Option Nat) : Option Nat :=
  match cs with
  | [] => q
  | c :: _ => some c.1

/-- The address a segment stops at: that of its last cell, or `p` when it has
none. -/
def lastOr : List (Nat × T) → Option Nat → Option Nat
  | [], p => p
  | c :: cs, _ => lastOr cs (some c.1)

/-- The cells `cs` (address and element of each node, in order) form a doubly
linked segment of the store: each node exists, holds its element, its `prev` is
the node before it (`p` for the first) and its `next` the node after it (`q`
for the last). -/
def Seg (m : Mem T) : Option Nat → List (Nat × T) → Option Nat → Prop
  | _, [], _ => True
  | p, c :: cs, q =>
    load m c.1 = some { data := c.2, prev := p, next := headOr cs q } ∧ Seg m (some c.1) cs q

/-- The forward chain of the list: the nodes reached from `head` via `next` are
exactly the cells `cs`, pairwise distinct, linked in both directions, with
`head->prev` and the last `next` null, and `count` of them. -/
def Chain (s : LL T) (cs : List (Nat × T)) : Prop :=
  (cs.map Prod.fst).Nodup ∧ Seg s.mem none cs none ∧
    s.head = headOr cs none ∧ s.count = cs.length

/-- The data-model invariants of the list, with `cs` its cells in iteration
order: `cs` is the forward chain from `head`, and `tail` references the last
node of the sequence.  Hence `head` and `tail` are null exactly when `count` is
0, `head->prev` and `tail->next` are null, `n->next->prev` is `n` along the
chain, and `count` steps along `next` from `head`, or along `prev` from `tail`,
reach null. -/
def Inv (s : LL T) (cs : List (Nat × T)) : Prop :=
  Chain s cs ∧ s.tail = lastOr cs none

/-- Following `next` from `p` for at most `fuel` nodes: the cells met before
null, or `none` when a node is missing or `fuel` runs out. -/
def walk (m : Mem T) : Nat → Option Nat → Option (List (Nat × T))
  | _, none => some []
  | 0, some _ => none
  | fuel + 1, some a => do
    let n ← load m a
    let rest ← walk m fuel n.next
    some ((a, n.data) :: rest)

/-- The cells read from `head` via `next`.  A chain that ends has no node twice,
hence no more nodes than the store has slots. -/
def cells (s : LL T) : Option (List (Nat × T)) :=
  walk s.mem s.mem.length s.head

/-- The element sequence of the list, read from `head` via `next`. -/
def toList (s : LL T) : Option (List T) :=
  (cells s).map (List.map Prod.snd)

/-- Following `prev` from `p` for at most `fuel` nodes, as `walk` follows
`next`. -/
def walkBack (m : Mem T) : Nat → Option Nat → Option (List (Nat × T))
  | _, none => some []
  | 0, some _ => none
  | fuel + 1, some a => do
    let n ← load m a
    let rest ← walkBack m fuel n.prev
    some ((a, n.data) :: rest)

/-- The number of nodes reached by following `next` from `head` until null. -/
def forwardCount (s : LL T) : Option Nat :=
  (cells s).map List.length

/-- The number of nodes reached by following `prev` from `tail` until null. -/
def backwardCount (s : LL T) : Option Nat :=
  (walkBack s.mem s.mem.length s.tail).map List.length

/-- The calls of the public mutators. -/
inductive Op (T : Type) where
  | push_back (v : T)
  | push_front (v : T)
  | pop_back
  | pop_front
  | insert (pos : Option Nat) (v : T)
  | erase (pos : Option Nat)
  | clear

/-- One call on the list; the iterator returned by `insert` and `erase` is
dropped. -/
def step (s : LL T) : Op T → Option (LL T)
  | .push_back v => push_back s v
  | .push_front v => push_front s v
  | .pop_back => pop_back s
  | .pop_front => pop_front s
  | .insert pos v => (insert s pos v).map Prod.fst
  | .erase pos => (erase s pos).map Prod.fst
  | .clear => clear s

/-- The lists reached from a default-constructed one, alone in its store, by a
finite sequence of mutator calls, each run to completion (a call that
dereferences a null or dangling pointer has no resulting list).  The store
holds no node of another list, so an iterator argument that refers to a node at
all refers to one of this list; calls handed an iterator to a node of another
list are those of `wstep` on a `World`. -/
inductive Reach : LL T → Prop
  | init : Reach empty_list
  | next {s s' : LL T} (op : Op T) : Reach s → step s op = some s' → Reach s'

/-- Whether a node is stored at address `a`. -/
def allocated (m : Mem T) (a : Nat) : Bool := (load m a).isSome

/-- What every completed call keeps of the invariants: the forward chain with
cells `cs` is intact, `tail` is null or the last node of that chain, and the
store holds no node besides those of the chain. -/
def ChainInv (s : LL T) (cs : List (Nat × T)) : Prop :=
  Chain s cs ∧ (s.tail = none ∨ s.tail = lastOr cs none) ∧
    ∀ b, allocated s.mem b = true → b ∈ cs.map Prod.fst

/-- The list after `push_back(5)` on a default-constructed list. -/
def ex1 : LL Nat :=
  { count := 1, head := some 0, tail := some 0,
    mem := [some { data := 5, prev := none, next := none }] }

/-- A two-element list `[10, 20]` with its nodes at addresses 0 and 1. -/
def ex2 : LL Nat :=
  { count := 2, head := some 0, tail := some 1,
    mem := [some { data := 10, prev := none, next := some 1 },
            some { data := 20, prev := some 0, next := none }] }

/-- The default constructor `LL()` for an object created while the store is
`m`. -/
def ctor_default (m : Mem T) : LL T :=
  { count := 0, head := none, tail := none, mem := m }

/-- The constructor `LL(const std::initializer_list<T>&)`: a default-constructed
list, then `push_back` of each element in order. -/
def ctor_ilist (m : Mem T) (ilist : List T) : Option (LL T) :=
  ilist.foldlM push_back (ctor_default m)

/-- Modelled from the spec: `Stack<T>` derives from `List<T>`, a class the
repository does not declare; following the spec it is the linked list `LL<T>`,
so that a stack is a list and `back`, `push_back`, `pop_back` are those of
dll.cpp. -/
abbrev Stack (T : Type) := LL T

/-- The constructor `Stack()`, which only runs the default constructor of the
list. -/
def Stack.ctor : Stack T := empty_list

/-- The member `Stack::empty()` of stack.hpp.  Its body is `return empty();`,
and inside `Stack` the name `empty` is `Stack::empty` itself: the function only
calls itself.  Each call spends one unit of `fuel`; the result is `none` when
the fuel runs out before a value is returned. -/
def Stack.empty : Nat → Stack T → Option Bool
  | 0, _ => none
  | fuel + 1, s => Stack.empty fuel s

/-- The member `Stack::top()` of stack.hpp: `return back();`. -/
def Stack.top (s : Stack T) : Except Failure T := back s

/-- The member `Stack::push(value)` of stack.hpp: `push_back(value);`. -/
def Stack.push (s : Stack T) (value : T) : Option (Stack T) := push_back s value

/-- The member `Stack::pop()` of stack.hpp: `pop_back();`. -/
def Stack.pop (s : Stack T) : Option (Stack T) := pop_back s

/-- The stacks built from an empty `Stack` by pushes and pops. -/
inductive Stack.Built : Stack T → Prop
  | ctor : Stack.Built Stack.ctor
  | push {s s' : Stack T} (v : T) : Stack.Built s → Stack.push s v = some s' → Stack.Built s'
  | pop {s s' : Stack T} : Stack.Built s → Stack.pop s = some s' → Stack.Built s'

/-- The loop of `operator==`: `lhs_itr` runs over the left list until null and
`rhs_itr` is advanced with it; the first pair of unequal elements ends the loop
with `false`.  The fuel bounds the number of rounds. -/
def eqLoop [DecidableEq T] (ml mr : Mem T) : Nat → Option Nat → Option Nat → Option Bool
  | _, none, _ => some true
  | 0, some _, _ => none
  | fuel + 1, some a, rhs_itr => do
    let x ← load ml a
    let y ← deref mr rhs_itr
    if x.data ≠ y.data then some false
    else eqLoop ml mr fuel x.next y.next

/-- The free function `operator==` of dll.cpp.  Each list is read in the store
it lives in; for two lists of one program that is the same store.  The left
chain has no more nodes than its store has slots, which bounds the loop. -/
def equal [DecidableEq T] (lhs rhs : LL T) : Option Bool :=
  if size lhs ≠ size rhs then some false
  else if size lhs = size rhs then
    eqLoop lhs.mem rhs.mem lhs.mem.length («begin» lhs) («begin» rhs)
  else some false

/-- The free function `operator!=` of dll.cpp: `!(lhs == rhs)`. -/
def not_equal [DecidableEq T] (lhs rhs : LL T) : Option Bool :=
  (equal lhs rhs).map (fun b => !b)

/-- An iterator argument the caller may pass to `insert` or `erase`: `end()`,
or an iterator to a node of the list (one reached from `head` via `next`). -/
def validPos (s : LL T) (pos : Option Nat) : Prop :=
  pos = «end» s ∨ ∃ cs, cells s = some cs ∧ ∃ c ∈ cs, pos = some c.1

/-- The iterator argument of a call, if it has one, is valid. -/
def validOp (s : LL T) : Op T → Prop
  | .insert pos _ => validPos s pos
  | .erase pos => validPos s pos
  | _ => True

/-- The node a call takes out of the list: the one at `pos` for `erase`, the
last for `pop_back`, the first for `pop_front`, none for the calls that add a
node. -/
def removed (s : LL T) : Op T → Option Nat
  | .erase pos => pos
  | .pop_back => s.tail
  | .pop_front => s.head
  | _ => none

/-- The move constructor `LL(LL&& other)`: the new list takes `count`, `head`
and `tail` of `other`, which is left with 0 and two null pointers.  The result
is the new list and `other` after the call. -/
def ctor_move (other : LL T) : LL T × LL T :=
  ({ count := other.count, head := other.head, tail := other.tail, mem := other.mem },
   { count := 0, head := none, tail := none, mem := other.mem })

/-- The move assignment `operator=(LL&& rhs)`; `same` tells whether `rhs` is the
object `*this`, in which case nothing happens.  Both objects live in the store
of `this`.  The result is `*this` and `rhs` after the call. -/
def assign_move (this rhs : LL T) (same : Bool) : Option (LL T × LL T) :=
  if same then
    some (this, this)
  else do
    let c ← clear this
    some ({ count := rhs.count, head := rhs.head, tail := rhs.tail, mem := c.mem },
          { count := 0, head := none, tail := none, mem := c.mem })

/-- A three-element list `[1, 2, 3]` with its nodes at addresses 0, 1 and 2. -/
def ex3 : LL Nat :=
  { count := 3, head := some 0, tail := some 2,
    mem := [some { data := 1, prev := none, next := some 1 },
            some { data := 2, prev := some 0, next := some 2 },
            some { data := 3, prev := some 1, next := none }] }

/-- An empty list and the list `[10, 20]` in one store: the empty one. -/
def ex2_target : LL Nat :=
  { count := 0, head := none, tail := none, mem := ex2.mem }

/-- The lists obtained from `s` by a finite sequence of mutator calls, each with
a valid iterator argument and run to completion. -/
inductive Steps (s : LL T) : LL T → Prop
  | refl : Steps s s
  | next {s₁ s₂ : LL T} (op : Op T) :
      Steps s s₁ → validOp s₁ op → step s₁ op = some s₂ → Steps s s₂

/-- The member `swap(other)` of dll.cpp: `count`, `head` and `tail` of the two
lists are exchanged, no node is touched.  Both objects live in the store of
`this`.  The result is `*this` and `other` after the call. -/
def swap (this other : LL T) : LL T × LL T :=
  ({ count := other.count, head := other.head, tail := other.tail, mem := this.mem },
   { count := this.count, head := this.head, tail := this.tail, mem := this.mem })

/-- Two list objects of one program; they live in the same store, which each of
them carries. -/
structure World (T : Type) where
  this : LL T
  other : LL T

/-- The public operations on two lists: a mutator call on either, `swap`, a move
assignment in either direction, and a move construction of either from the
other (the object constructed takes the place of the one followed so far). -/
inductive WOp (T : Type) where
  | on_this (op : Op T)
  | on_other (op : Op T)
  | swap
  | move_assign_this
  | move_assign_other
  | move_ctor_this
  | move_ctor_other

/-- One operation on two lists. -/
def wstep (w : World T) : WOp T → Option (World T)
  | .on_this op => (step w.this op).map fun s => ⟨s, { w.other with mem := s.mem }⟩
  | .on_other op => (step w.other op).map fun s => ⟨{ w.this with mem := s.mem }, s⟩
  | .swap => some ⟨(swap w.this w.other).1, (swap w.this w.other).2⟩
  | .move_assign_this => (assign_move w.this w.other false).map fun r => ⟨r.1, r.2⟩
  | .move_assign_other => (assign_move w.other w.this false).map fun r => ⟨r.2, r.1⟩
  | .move_ctor_this => some ⟨(ctor_move w.other).1, (ctor_move w.other).2⟩
  | .move_ctor_other => some ⟨(ctor_move w.this).2, (ctor_move w.this).1⟩

/-- The iterator argument of an operation, if it has one, is `end()` or an
iterator to a node of the list the call is made on. -/
def wvalid (w : World T) : WOp T → Prop
  | .on_this op => validOp w.this op
  | .on_other op => validOp w.other op
  | _ => True

/-- The pairs of lists reached from two default-constructed lists by a finite
sequence of public operations, each with a valid iterator argument and run to
completion. -/
inductive WReach : World T → Prop
  | init : WReach ⟨empty_list, empty_list⟩
  | next {w w' : World T} (op : WOp T) : WReach w → wvalid w op → wstep w op = some w' → WReach w'

/-- What every operation keeps of the invariants of two lists of one store: the
forward chain of each is intact, the `tail` of each is null or the last node of
its chain, and no node belongs to both. -/
def WInv (w : World T) (as bs : List (Nat × T)) : Prop :=
  w.other.mem = w.this.mem ∧
  Chain w.this as ∧ (w.this.tail = none ∨ w.this.tail = lastOr as none) ∧
  Chain w.other bs ∧ (w.other.tail = none ∨ w.other.tail = lastOr bs none) ∧
  ∀ x ∈ bs, x.1 ∉ as.map Prod.fst

/-- The forward chain of the list is doubly linked, with cells `cs`: as `Chain`,
but with nothing said of `count` (nor of `tail`). -/
def SymChain (s : LL T) (cs : List (Nat × T)) : Prop :=
  (cs.map Prod.fst).Nodup ∧ Seg s.mem none cs none ∧ s.head = headOr cs none

/-- The node at address `a` is reached from `head` by following `next`. -/
inductive Reachable (s : LL T) : Nat → Prop
  | head {a : Nat} : s.head = some a → Reachable s a
  | next {a b : Nat} {n : Node T} :
      Reachable s a → load s.mem a = some n → n.next = some b → Reachable s b

/-- Doubly-linked symmetry: the head node has `prev == nullptr`, and every node
`n` reached from `head` via `next` whose `next` is not null satisfies
`n->next->prev == n`. -/
def Symmetric (s : LL T) : Prop :=
  (∀ a, s.head = some a → ∃ n, load s.mem a = some n ∧ n.prev = none) ∧
  ∀ a b n, Reachable s a → load s.mem a = some n → n.next = some b →
    ∃ n', load s.mem b = some n' ∧ n'.prev = some a

/-- The forward chain agrees with `count` and `tail`: following `next` from
`head` ends after exactly `count` nodes, and `tail` is null or references the
last node of that chain, whose `next` is null. -/
def CountTail (s : LL T) : Prop :=
  ∃ cs, cells s = some cs ∧ forwardCount s = some (size s) ∧
    (s.tail = none ∨
      ∃ c n, cs.getLast? = some c ∧ s.tail = some c.1 ∧
        load s.mem c.1 = some n ∧ n.next = none)

/-- A finite sequence of operations on two lists, run from `w` one after the
other; `none` when one of them dereferences a null or dangling pointer.  No
condition is put on the iterator arguments. -/
def wrun (w : World T) (ops : List (WOp T)) : Option (World T) :=
  ops.foldlM wstep w

/-- Two default-constructed lists `a` (`this`) and `b` (`other`), then
`b.push_back(1); b.push_back(2); b.push_back(3); a.push_back(5)`: the nodes of
`b` are at addresses 0, 1, 2 and the node of `a` at address 3. -/
def foreign_setup : List (WOp Nat) :=
  [.on_other (.push_back 1), .on_other (.push_back 2), .on_other (.push_back 3),
   .on_this (.push_back 5)]

/-- Two default-constructed lists `a` (`this`) and `b` (`other`), then
`b.push_back(1); b.push_back(2); b.push_back(3)` and `a.push_back(1);
a.push_back(3); a.push_back(99); a.push_back(0)`: the nodes of `b` are at
addresses 0, 1, 2 and those of `a` at addresses 3, 4, 5, 6. -/
def foreign_setup_equal : List (WOp Nat) :=
  [.on_other (.push_back 1), .on_other (.push_back 2), .on_other (.push_back 3),
   .on_this (.push_back 1), .on_this (.push_back 3), .on_this (.push_back 99),
   .on_this (.push_back 0)]

/-! Section: the store. -/

theorem load_lt {m : Mem T} {a : Nat} {n : Node T} (h : load m a = some n) : a < m.length := by
  unfold load at h
  by_contra hlt
  rw [List.getElem?_eq_none (by omega)] at h
  simp at h

theorem load_set (m : Mem T) (a b : Nat) (x : Option (Node T)) :
    load (m.set a x) b = if b = a ∧ a < m.length then x else load m b := by
  unfold load
  by_cases hab : b = a
  · subst hab
    by_cases hlt : b < m.length
    · simp [hlt]
      cases x <;> rfl
    · simp only [hlt, and_false, if_false]
      rw [List.getElem?_eq_none (by simp; omega), List.getElem?_eq_none (by omega)]
  · have : a ≠ b := fun h => hab h.symm
    simp [hab, List.getElem?_set_ne this]

theorem load_append_single (m : Mem T) (b : Nat) (x : Option (Node T)) :
    load (m ++ [x]) b = if b = m.length then x else load m b := by
  unfold load
  by_cases hb : b = m.length
  · subst hb
    simp
    cases x <;> rfl
  · simp only [hb, if_false]
    by_cases hlt : b < m.length
    · rw [List.getElem?_append_left hlt]
    · rw [List.getElem?_eq_none (by simp; omega), List.getElem?_eq_none (by omega)]

/-! Section: segments. -/

theorem Seg_append (m : Mem T) (l₁ l₂ : List (Nat × T)) (p q : Option Nat) :
    Seg m p (l₁ ++ l₂) q ↔ Seg m p l₁ (headOr l₂ q) ∧ Seg m (lastOr l₁ p) l₂ q := by
  induction l₁ generalizing p with
  | nil => simp [Seg, lastOr]
  | cons c l₁ ih =>
    have h1 : headOr (l₁ ++ l₂) q = headOr l₁ (headOr l₂ q) := by
      cases l₁ <;> simp [headOr]
    show (load m c.1 = some ⟨c.2, p, headOr (l₁ ++ l₂) q⟩ ∧ Seg m (some c.1) (l₁ ++ l₂) q) ↔
      (load m c.1 = some ⟨c.2, p, headOr l₁ (headOr l₂ q)⟩ ∧ Seg m (some c.1) l₁ (headOr l₂ q)) ∧
        Seg m (lastOr l₁ (some c.1)) l₂ q
    rw [ih, h1, and_assoc]

theorem Seg_congr {m m' : Mem T} {cs : List (Nat × T)} {p q : Option Nat}
    (h : ∀ c ∈ cs, load m' c.1 = load m c.1) (hs : Seg m p cs q) : Seg m' p cs q := by
  induction cs generalizing p with
  | nil => trivial
  | cons c cs ih =>
    refine ⟨?_, ih (fun d hd => h d (List.mem_cons_of_mem _ hd)) hs.2⟩
    rw [h c (List.mem_cons_self _ _)]
    exact hs.1

theorem Seg_lt {m : Mem T} {cs : List (Nat × T)} {p q : Option Nat}
    (hs : Seg m p cs q) : ∀ c ∈ cs, c.1 < m.length := by
  induction cs generalizing p with
  | nil => simp
  | cons c cs ih =>
    intro d hd
    rcases List.mem_cons.1 hd with rfl | hd
    · exact load_lt hs.1
    · exact ih hs.2 d hd

theorem insert_mid (s : LL T) (l₀ l₂ : List (Nat × T)) (q c : Nat × T) (v : T)
    (h : Chain s (l₀ ++ q :: c :: l₂)) :
    ∃ s', insert s (some c.1) v = some (s', some s.mem.length) ∧
      Chain s' (l₀ ++ q :: (s.mem.length, v) :: c :: l₂) ∧ s'.tail = s.tail := by
  obtain ⟨hnd, hseg, hhead, hcount⟩ := h
  have hlt := Seg_lt hseg
  rw [Seg_append] at hseg
  simp only [Seg, headOr] at hseg
  obtain ⟨hs0, hq, hc, hs2⟩ := hseg
  have hne : s.count ≠ 0 := by simp [hcount]
  have hqlt : q.1 < s.mem.length := hlt q (by simp)
  have hclt : c.1 < s.mem.length := hlt c (by simp)
  have hnd' := hnd
  simp only [List.Nodup, List.pairwise_map, List.pairwise_append, List.pairwise_cons,
    List.mem_cons, forall_eq_or_imp] at hnd
  obtain ⟨hn0, ⟨⟨hqc, hq2⟩, hc2, hn2⟩, h0⟩ := hnd
  have hch : some c.1 ≠ s.head := by
    rw [hhead]
    cases l₀ with
    | nil => simpa [headOr] using Ne.symm hqc
    | cons d l => simpa [headOr] using Ne.symm (h0 d (by simp)).2.1
  simp [insert, alloc, empty, size, hne, hch, deref, load_append_single, hclt.ne, hc, setPrev, setNext,
    load_set, hqlt.ne, hq, hqc, Ne.symm hqc]
  refine ⟨?_, ?_, ?_, ?_⟩
  · simp only [List.Nodup, List.pairwise_map, List.pairwise_append, List.pairwise_cons,
      List.mem_cons, forall_eq_or_imp]
    refine ⟨hn0, ⟨⟨hqlt.ne, hqc, hq2⟩, ⟨hclt.ne', fun d hd => ?_⟩, hc2, hn2⟩, fun d hd => ?_⟩
    · exact (hlt d (by simp [hd])).ne'
    · exact ⟨(h0 d hd).1, (hlt d (by simp [hd])).ne, (h0 d hd).2⟩
  · rw [Seg_append]
    simp only [Seg, headOr]
    refine ⟨?_, ?_, ?_, ?_, ?_⟩
    · refine Seg_congr (fun d hd => ?_) hs0
      have := hlt d (by simp [hd])
      simp [load_set, load_append_single, (h0 d hd).1, (h0 d hd).2.1, this.ne]
    · simp [load_set, load_append_single, hqc, hqlt, hqlt.ne]
    · simp [load_set, load_append_single, Ne.symm hqc, hqlt, hqlt.ne, hclt, hclt.ne, hqlt.ne', hclt.ne']
    · simp [load_set, load_append_single, hqc, hqlt, hqlt.ne, hclt, hclt.ne]
    · refine Seg_congr (fun d hd => ?_) hs2
      have := hlt d (by simp [hd])
      simp [load_set, load_append_single, Ne.symm (hq2 d hd), Ne.symm (hc2 d hd), this.ne]
  · simp [hhead]
    cases l₀ <;> simp [headOr]
  · simp [hcount]
    omega

theorem insert_front (s : LL T) (l₂ : List (Nat × T)) (c : Nat × T) (v : T)
    (h : Chain s (c :: l₂)) :
    ∃ s', insert s (some c.1) v = some (s', some s.mem.length) ∧
      Chain s' ((s.mem.length, v) :: c :: l₂) ∧ s'.tail = s.tail := by
  obtain ⟨hnd, hseg, hhead, hcount⟩ := h
  have hlt := Seg_lt hseg
  simp only [Seg, headOr] at hseg hhead
  obtain ⟨hc, hs2⟩ := hseg
  have hne : s.count ≠ 0 := by simp [hcount]
  have hclt : c.1 < s.mem.length := hlt c (by simp)
  simp only [List.Nodup, List.pairwise_map, List.pairwise_cons] at hnd
  obtain ⟨hc2, hn2⟩ := hnd
  simp [insert, alloc, empty, size, hne, hhead, deref, load_append_single, hclt.ne, hc, setPrev,
    setNext, load_set, hclt]
  refine ⟨?_, ?_, ?_, ?_⟩
  · simp only [List.Nodup, List.pairwise_map, List.pairwise_cons, List.mem_cons, forall_eq_or_imp]
    exact ⟨⟨hclt.ne', fun d hd => (hlt d (by simp [hd])).ne'⟩, hc2, hn2⟩
  · simp only [Seg, headOr]
    refine ⟨?_, ?_, ?_⟩
    · simp [load_set, load_append_single, hclt]
    · simp [load_set, load_append_single, hclt, hclt.ne, hclt.ne']
    · refine Seg_congr (fun d hd => ?_) hs2
      have := hlt d (by simp [hd])
      simp [load_set, load_append_single, Ne.symm (hc2 d hd), this.ne]
  · simp [headOr]
  · simp [hcount]

theorem insert_back (s : LL T) (l₀ : List (Nat × T)) (t : Nat × T) (v : T)
    (h : Chain s (l₀ ++ [t])) (htail : s.tail = some t.1) :
    ∃ s', insert s none v = some (s', some s.mem.length) ∧
      Chain s' (l₀ ++ [t, (s.mem.length, v)]) ∧ s'.tail = some s.mem.length := by
  obtain ⟨hnd, hseg, hhead, hcount⟩ := h
  have hlt := Seg_lt hseg
  rw [Seg_append] at hseg
  simp only [Seg, headOr] at hseg
  obtain ⟨hs0, ht, -⟩ := hseg
  have hne : s.count ≠ 0 := by simp [hcount]
  have htlt : t.1 < s.mem.length := hlt t (by simp)
  simp only [List.Nodup, List.pairwise_map, List.pairwise_append, List.pairwise_cons,
    List.mem_cons, forall_eq_or_imp] at hnd
  obtain ⟨hn0, -, h0⟩ := hnd
  simp [insert, alloc, empty, size, hne, htail, deref, load_append_single, htlt.ne, ht, setPrev,
    setNext, load_set, htlt]
  refine ⟨?_, ?_, ?_, ?_⟩
  · simp only [List.Nodup, List.pairwise_map, List.pairwise_append, List.pairwise_cons,
      List.mem_cons, forall_eq_or_imp]
    simp only [List.not_mem_nil, false_imp_iff, implies_true, List.Pairwise.nil, and_true,
      true_and, IsEmpty.forall_iff] at h0 ⊢
    exact ⟨hn0, htlt.ne, fun d hd => ⟨h0 d hd, (hlt d (by simp [hd])).ne⟩⟩
  · rw [Seg_append]
    simp only [Seg, headOr]
    refine ⟨?_, ?_, ?_, trivial⟩
    · refine Seg_congr (fun d hd => ?_) hs0
      have := hlt d (by simp [hd])
      have hdt : d.1 ≠ t.1 := by simpa using h0 d hd
      simp [load_set, load_append_single, hdt, this.ne]
    · simp [load_set, load_append_single, htlt, htlt.ne, htlt.ne']
    · simp [load_set, load_append_single, htlt]
  · simp [hhead]
    cases l₀ <;> simp [headOr]
  · simp [hcount]

theorem insert_empty (s : LL T) (pos : Option Nat) (v : T) (h : Chain s []) :
    ∃ s', insert s pos v = some (s', some s.mem.length) ∧
      Chain s' [(s.mem.length, v)] ∧ s'.tail = some s.mem.length := by
  obtain ⟨-, -, -, hcount⟩ := h
  simp [insert, alloc, empty, size, hcount, Chain, Seg, headOr, load_append_single]

theorem erase_head (s : LL T) (l₂ : List (Nat × T)) (c : Nat × T) (h : Chain s (c :: l₂)) :
    ∃ s', erase s (some c.1) = some (s', headOr l₂ none) ∧ Chain s' l₂ ∧
      s'.tail = (if l₂.isEmpty then none else s.tail) := by
  obtain ⟨hnd, hseg, hhead, hcount⟩ := h
  have hlt := Seg_lt hseg
  simp only [Seg, headOr] at hseg hhead
  obtain ⟨hc, hs2⟩ := hseg
  have hclt : c.1 < s.mem.length := hlt c (by simp)
  simp only [List.Nodup, List.pairwise_map, List.pairwise_cons] at hnd
  obtain ⟨hc2, hn2⟩ := hnd
  cases l₂ with
  | nil =>
    simp [erase, «end», hhead, deref, hc, delete, Chain, Seg, headOr, hcount]
  | cons d l₃ =>
    obtain ⟨hd, hs3⟩ := hs2
    have hdlt : d.1 < s.mem.length := hlt d (by simp)
    have hcd : c.1 ≠ d.1 := hc2 d (by simp)
    simp only [List.pairwise_cons] at hn2
    simp [erase, «end», hhead, deref, hc, hd, delete, setPrev, load_set, hcd, hdlt, headOr]
    refine ⟨?_, ?_, ?_, ?_⟩
    · simp only [List.Nodup, List.pairwise_map, List.pairwise_cons]
      exact hn2
    · refine ⟨?_, ?_⟩
      · simp [load_set, hcd, Ne.symm hcd, hdlt, hclt, headOr]
      · refine Seg_congr (fun e he => ?_) hs3
        simp [load_set, Ne.symm (hc2 e (by simp [he])), Ne.symm (hn2.1 e he)]
    · simp [headOr]
    · simp [hcount]

theorem erase_last (s : LL T) (l₀ : List (Nat × T)) (q c : Nat × T)
    (h : Chain s (l₀ ++ [q, c])) (htail : s.tail = some c.1) :
    ∃ s', erase s (some c.1) = some (s', none) ∧ Chain s' (l₀ ++ [q]) ∧
      s'.tail = some q.1 := by
  obtain ⟨hnd, hseg, hhead, hcount⟩ := h
  have hlt := Seg_lt hseg
  rw [Seg_append] at hseg
  simp only [Seg, headOr] at hseg
  obtain ⟨hs0, hq, hc, -⟩ := hseg
  have hqlt : q.1 < s.mem.length := hlt q (by simp)
  have hclt : c.1 < s.mem.length := hlt c (by simp)
  simp only [List.Nodup, List.pairwise_map, List.pairwise_append, List.pairwise_cons,
    List.mem_cons, forall_eq_or_imp] at hnd
  obtain ⟨hn0, ⟨⟨hqc, -⟩, -⟩, h0⟩ := hnd
  have hch : some c.1 ≠ s.head := by
    rw [hhead]
    cases l₀ with
    | nil => simpa [headOr] using Ne.symm hqc
    | cons d l => simpa [headOr] using Ne.symm (h0 d (by simp)).2.1
  simp [erase, «end», hch, htail, deref, hc, hq, delete, setNext, load_set, hqc, Ne.symm hqc]
  refine ⟨?_, ?_, ?_, ?_⟩
  · simp only [List.Nodup, List.pairwise_map, List.pairwise_append, List.pairwise_cons,
      List.mem_cons, forall_eq_or_imp]
    simp only [List.not_mem_nil, false_imp_iff, implies_true, List.Pairwise.nil, and_true,
      true_and, IsEmpty.forall_iff]
    exact ⟨hn0, fun d hd => (h0 d hd).1⟩
  · rw [Seg_append]
    simp only [Seg, headOr]
    refine ⟨?_, ?_, trivial⟩
    · refine Seg_congr (fun d hd => ?_) hs0
      simp [load_set, (h0 d hd).1, (h0 d hd).2.1]
    · simp [load_set, hqc, hqlt]
  · simp [hhead]
    cases l₀ <;> simp [headOr]
  · simp [hcount]

theorem erase_mid (s : LL T) (l₀ l₃ : List (Nat × T)) (q c d : Nat × T)
    (h : Chain s (l₀ ++ q :: c :: d :: l₃)) (htail : s.tail ≠ some c.1) :
    ∃ s', erase s (some c.1) = some (s', some d.1) ∧ Chain s' (l₀ ++ q :: d :: l₃) ∧
      s'.tail = s.tail := by
  obtain ⟨hnd, hseg, hhead, hcount⟩ := h
  have hlt := Seg_lt hseg
  rw [Seg_append] at hseg
  simp only [Seg, headOr] at hseg
  obtain ⟨hs0, hq, hc, hd, hs3⟩ := hseg
  have hqlt : q.1 < s.mem.length := hlt q (by simp)
  have hclt : c.1 < s.mem.length := hlt c (by simp)
  have hdlt : d.1 < s.mem.length := hlt d (by simp)
  simp only [List.Nodup, List.pairwise_map, List.pairwise_append, List.pairwise_cons,
    List.mem_cons, forall_eq_or_imp] at hnd
  obtain ⟨hn0, ⟨⟨hqc, hqd, hq3⟩, ⟨hcd, hc3⟩, hd3, hn3⟩, h0⟩ := hnd
  have hch : some c.1 ≠ s.head := by
    rw [hhead]
    cases l₀ with
    | nil => simpa [headOr] using Ne.symm hqc
    | cons d l => simpa [headOr] using Ne.symm (h0 d (by simp)).2.1
  simp [erase, «end», hch, Ne.symm htail, deref, hc, hq, hd, delete, setNext, setPrev, load_set, hqc,
    Ne.symm hqc, hcd, Ne.symm hcd, hqd, Ne.symm hqd]
  refine ⟨?_, ?_, ?_, ?_⟩
  · simp only [List.Nodup, List.pairwise_map, List.pairwise_append, List.pairwise_cons,
      List.mem_cons, forall_eq_or_imp]
    exact ⟨hn0, ⟨⟨hqd, hq3⟩, hd3, hn3⟩, fun e he => ⟨(h0 e he).1, (h0 e he).2.2⟩⟩
  · rw [Seg_append]
    simp only [Seg, headOr]
    refine ⟨?_, ?_, ?_, ?_⟩
    · refine Seg_congr (fun e he => ?_) hs0
      simp [load_set, (h0 e he).1, (h0 e he).2.1, (h0 e he).2.2.1]
    · simp [load_set, hqc, hqd, hqlt]
    · simp [load_set, Ne.symm hcd, hdlt]
    · refine Seg_congr (fun e he => ?_) hs3
      simp [load_set, Ne.symm (hq3 e he), Ne.symm (hc3 e he), Ne.symm (hd3 e he)]
  · simp [hhead]
    cases l₀ <;> simp [headOr]
  · simp [hcount]

/-! Section: reading the list back. -/

theorem headOr_eq (cs : List (Nat × T)) (q : Option Nat) :
    headOr cs none = cs.head?.map Prod.fst ∧ (cs ≠ [] → headOr cs q = headOr cs none) := by
  cases cs <;> simp [headOr]

theorem lastOr_append (l₁ l₂ : List (Nat × T)) (p : Option Nat) :
    lastOr (l₁ ++ l₂) p = lastOr l₂ (lastOr l₁ p) := by
  induction l₁ generalizing p with
  | nil => rfl
  | cons c l ih => exact ih (some c.1)

theorem lastOr_mem (l : List (Nat × T)) (p : Option Nat) :
    lastOr l p = p ∨ ∃ e ∈ l, lastOr l p = some e.1 := by
  induction l generalizing p with
  | nil => exact Or.inl rfl
  | cons c l ih =>
    rcases ih (some c.1) with h | ⟨e, he, h⟩
    · exact Or.inr ⟨c, by simp, h⟩
    · exact Or.inr ⟨e, by simp [he], h⟩

theorem walk_of_Seg (m : Mem T) (cs : List (Nat × T)) (p : Option Nat) (k : Nat)
    (hs : Seg m p cs none) (hk : cs.length ≤ k) : walk m k (headOr cs none) = some cs := by
  induction cs generalizing p k with
  | nil => cases k <;> rfl
  | cons c cs ih =>
    cases k with
    | zero => simp at hk
    | succ k =>
      have h := ih (some c.1) k hs.2 (by simpa using hk)
      show walk m (k + 1) (some c.1) = some (c :: cs)
      simp [walk, hs.1, h]

theorem length_le_of_nodup_lt (l : List Nat) (n : Nat) (hnd : l.Nodup) (hlt : ∀ a ∈ l, a < n) :
    l.length ≤ n := by
  have h1 : l.toFinset ⊆ Finset.range n := by
    intro a ha
    exact Finset.mem_range.2 (hlt a (List.mem_toFinset.1 ha))
  have h2 := Finset.card_le_card h1
  rwa [List.toFinset_card_of_nodup hnd, Finset.card_range] at h2

theorem cells_of_Chain {s : LL T} {cs : List (Nat × T)} (h : Chain s cs) : cells s = some cs := by
  obtain ⟨hnd, hseg, hhead, -⟩ := h
  have hlen : cs.length ≤ s.mem.length := by
    have := length_le_of_nodup_lt (cs.map Prod.fst) s.mem.length hnd (by
      intro a ha
      obtain ⟨c, hc, rfl⟩ := List.mem_map.1 ha
      exact Seg_lt hseg c hc)
    simpa using this
  unfold cells
  rw [hhead]
  exact walk_of_Seg s.mem cs none _ hseg hlen

theorem toList_of_Chain {s : LL T} {cs : List (Nat × T)} (h : Chain s cs) :
    toList s = some (cs.map Prod.snd) := by
  simp [toList, cells_of_Chain h]

theorem Seg_data {m : Mem T} {cs : List (Nat × T)} {p q : Option Nat} (hs : Seg m p cs q) :
    ∀ c ∈ cs, (load m c.1).map Node.data = some c.2 := by
  induction cs generalizing p with
  | nil => simp
  | cons c cs ih =>
    intro d hd
    rcases List.mem_cons.1 hd with rfl | hd
    · simp [hs.1]
    · exact ih hs.2 d hd

/-! Section: `insert` and `erase` at a position given by a split of the cells. -/

theorem insert_split (s : LL T) (l₁ l₂ : List (Nat × T)) (v : T) (h : Inv s (l₁ ++ l₂)) :
    ∃ s', insert s (headOr l₂ none) v = some (s', some s.mem.length) ∧
      Inv s' (l₁ ++ (s.mem.length, v) :: l₂) := by
  obtain ⟨hch, htail⟩ := h
  cases l₂ with
  | nil =>
    rcases List.eq_nil_or_concat l₁ with rfl | ⟨l₀, t, rfl⟩
    · obtain ⟨s', h1, h2, h3⟩ := insert_empty s none v hch
      exact ⟨s', h1, h2, by simpa [lastOr] using h3⟩
    · simp only [List.concat_eq_append, List.append_nil] at hch htail ⊢
      obtain ⟨s', h1, h2, h3⟩ := insert_back s l₀ t v hch (by simpa [lastOr_append, lastOr] using htail)
      refine ⟨s', h1, by simpa using h2, ?_⟩
      simpa [lastOr_append, lastOr] using h3
  | cons c l₂ =>
    rcases List.eq_nil_or_concat l₁ with rfl | ⟨l₀, q, rfl⟩
    · obtain ⟨s', h1, h2, h3⟩ := insert_front s l₂ c v hch
      exact ⟨s', h1, h2, by rw [h3, htail]; rfl⟩
    · simp only [List.concat_eq_append, List.append_assoc, List.singleton_append] at hch htail ⊢
      obtain ⟨s', h1, h2, h3⟩ := insert_mid s l₀ l₂ q c v hch
      refine ⟨s', h1, h2, ?_⟩
      rw [h3, htail]
      simp [lastOr_append, lastOr]

theorem erase_split (s : LL T) (l₁ l₂ : List (Nat × T)) (c : Nat × T)
    (h : Inv s (l₁ ++ c :: l₂)) :
    ∃ s', erase s (some c.1) = some (s', headOr l₂ none) ∧ Inv s' (l₁ ++ l₂) := by
  obtain ⟨hch, htail⟩ := h
  rcases List.eq_nil_or_concat l₁ with rfl | ⟨l₀, q, rfl⟩
  · obtain ⟨s', h1, h2, h3⟩ := erase_head s l₂ c hch
    refine ⟨s', h1, h2, ?_⟩
    rw [h3, htail]
    cases l₂ <;> simp [lastOr]
  · simp only [List.concat_eq_append, List.append_assoc, List.singleton_append] at hch htail ⊢
    cases l₂ with
    | nil =>
      obtain ⟨s', h1, h2, h3⟩ := erase_last s l₀ q c hch (by simpa [lastOr_append, lastOr] using htail)
      exact ⟨s', h1, h2, by simpa [lastOr_append, lastOr] using h3⟩
    | cons d l₃ =>
      have hne : s.tail ≠ some c.1 := by
        rw [htail]
        have hnd := hch.1
        simp only [List.Nodup, List.pairwise_map, List.pairwise_append, List.pairwise_cons,
          List.mem_cons, forall_eq_or_imp] at hnd
        obtain ⟨-, ⟨-, ⟨hcd, hc3⟩, -⟩, -⟩ := hnd
        simp only [lastOr_append, lastOr]
        rcases lastOr_mem l₃ (some d.1) with h | ⟨e, he, h⟩
        · rw [h]; simpa using Ne.symm hcd
        · rw [h]; simpa using Ne.symm (hc3 e he)
      obtain ⟨s', h1, h2, h3⟩ := erase_mid s l₀ l₃ q c d hch hne
      refine ⟨s', h1, h2, ?_⟩
      rw [h3, htail]
      simp [lastOr_append, lastOr]

theorem headOr_drop (cs : List (Nat × T)) (i : Nat) :
    headOr (cs.drop i) none = cs[i]?.map Prod.fst := by
  rw [(headOr_eq _ none).1, List.head?_drop]

theorem Inv_begin {s : LL T} {cs : List (Nat × T)} (h : Inv s cs) :
    «begin» s = headOr cs none := by
  obtain ⟨⟨-, -, hhead, hcount⟩, -⟩ := h
  cases cs with
  | nil => simp [«begin», empty, size, hcount, headOr]
  | cons c cs => simp [«begin», empty, size, hcount, hhead]

theorem ex2_Inv : Inv ex2 [(0, 10), (1, 20)] := by
  simp [Inv, Chain, Seg, headOr, lastOr, load, ex2]

/-- C1: on a list satisfying the invariants with cells `cs` (elements
`cs.map Prod.snd`, read from head via next), `insert(pos, v)` with `pos` either
`end()` or the iterator to the node at index `i` runs to completion, leaves a
list satisfying the invariants whose element sequence has `v` inserted before
index `i` (at the end for `end()`), has size one larger, and returns an iterator
to a node that did not exist before and now holds `v`. -/
theorem insert_correct (s : LL T) (cs : List (Nat × T)) (i : Nat) (pos : Option Nat) (v : T)
    (hinv : Inv s cs)
    (hpos : (pos = «end» s ∧ i = cs.length) ∨ (i < cs.length ∧ pos = cs[i]?.map Prod.fst)) :
    toList s = some (cs.map Prod.snd) ∧
    ∃ s' a, insert s pos v = some (s', some a) ∧
      Inv s' (cs.take i ++ (a, v) :: cs.drop i) ∧
      toList s' = some ((cs.map Prod.snd).take i ++ v :: (cs.map Prod.snd).drop i) ∧
      size s' = size s + 1 ∧ load s.mem a = none ∧ star s' (some a) = some v := by
  refine ⟨toList_of_Chain hinv.1, ?_⟩
  have hp : pos = headOr (cs.drop i) none := by
    rw [headOr_drop]
    rcases hpos with ⟨h1, h2⟩ | ⟨-, h2⟩
    · rw [h1, h2]; simp [«end»]
    · exact h2
  have hsplit : Inv s (cs.take i ++ cs.drop i) := by rwa [List.take_append_drop]
  obtain ⟨s', h1, h2⟩ := insert_split s (cs.take i) (cs.drop i) v hsplit
  refine ⟨s', s.mem.length, by rw [hp]; exact h1, h2, ?_, ?_, ?_, ?_⟩
  · rw [toList_of_Chain h2.1]
    simp [List.map_take, List.map_drop]
  · have hc := h2.1.2.2.2
    have hc0 := hinv.1.2.2.2
    have hlen : (cs.take i).length + (cs.drop i).length = cs.length := by
      rw [← List.length_append, List.take_append_drop]
    simp only [size, hc, hc0, List.length_append, List.length_cons]
    omega
  · unfold load
    simp
  · have := Seg_data h2.1.2.1 (s.mem.length, v) (by simp)
    simpa [star, deref] using this

theorem insert_correct_witness :
    Inv ex2 [(0, 10), (1, 20)] ∧
    ∃ s' a, insert ex2 (some 1) 15 = some (s', some a) ∧ toList s' = some [10, 15, 20] ∧
      star s' (some a) = some 15 := by
  obtain ⟨-, s', a, h1, -, h3, -, -, h6⟩ :=
    insert_correct ex2 [(0, 10), (1, 20)] 1 (some 1) 15 ex2_Inv (Or.inr ⟨by decide, rfl⟩)
  exact ⟨ex2_Inv, s', a, h1, h3, h6⟩

/-- C2: on a list satisfying the invariants with cells `cs`, `erase(pos)` with
`pos` the iterator to the node at index `i` runs to completion, leaves a list
satisfying the invariants whose element sequence is the old one without index
`i`, has size one smaller, and returns the iterator to the node that followed
the erased one: `end()` when the last node was erased, and `begin()` of the
resulting list when the head was erased. -/
theorem erase_correct (s : LL T) (cs : List (Nat × T)) (i : Nat) (pos : Option Nat)
    (hinv : Inv s cs) (hi : i < cs.length) (hpos : pos = cs[i]?.map Prod.fst) :
    toList s = some (cs.map Prod.snd) ∧ pos ≠ «end» s ∧
    ∃ s', erase s pos = some (s', cs[i + 1]?.map Prod.fst) ∧
      Inv s' (cs.eraseIdx i) ∧
      toList s' = some ((cs.map Prod.snd).eraseIdx i) ∧
      size s' + 1 = size s ∧
      (i + 1 = cs.length → cs[i + 1]?.map Prod.fst = «end» s') ∧
      (i = 0 → cs[i + 1]?.map Prod.fst = «begin» s') := by
  refine ⟨toList_of_Chain hinv.1, by simp [hpos, «end», hi], ?_⟩
  have hsplit : Inv s (cs.take i ++ cs[i] :: cs.drop (i + 1)) := by
    rwa [← List.drop_eq_getElem_cons hi, List.take_append_drop]
  obtain ⟨s', h1, h2⟩ := erase_split s (cs.take i) (cs.drop (i + 1)) cs[i] hsplit
  rw [← List.eraseIdx_eq_take_drop_succ] at h2
  have hp : pos = some cs[i].1 := by simp [hpos, hi]
  refine ⟨s', by rw [hp, ← headOr_drop]; exact h1, h2, ?_, ?_, ?_, ?_⟩
  · rw [toList_of_Chain h2.1]
    simp [List.eraseIdx_eq_take_drop_succ, List.map_take, List.map_drop]
  · have hc := h2.1.2.2.2
    have hc0 := hinv.1.2.2.2
    simp only [size, hc, hc0, List.length_eraseIdx, hi, if_true]
    omega
  · intro h
    rw [List.getElem?_eq_none (by omega)]
    rfl
  · intro h
    subst h
    rw [Inv_begin h2, ← headOr_drop]
    simp [List.eraseIdx_eq_take_drop_succ]

theorem erase_correct_witness :
    Inv ex2 [(0, 10), (1, 20)] ∧
    ∃ s', erase ex2 (some 0) = some (s', some 1) ∧ toList s' = some [20] ∧
      star s' (some 1) = some 20 := by
  obtain ⟨-, -, s', h1, h2, h3, -⟩ :=
    erase_correct ex2 [(0, 10), (1, 20)] 0 (some 0) ex2_Inv (by decide) rfl
  refine ⟨ex2_Inv, s', h1, h3, ?_⟩
  have := Seg_data h2.1.2.1 (1, 20) (by simp)
  simpa [star, deref] using this

/-- C3: on every list, `erase(end())` returns `end()` and the whole state
(count, head, tail, and every node of the store) is the one before the call. -/
theorem erase_end (s : LL T) : erase s («end» s) = some (s, «end» s) := by
  simp [erase]

/-! Section: the pops. -/

theorem pop_front_eq_erase (s : LL T) (h : s.head ≠ none) :
    pop_front s = (erase s s.head).map Prod.fst := by
  unfold pop_front erase «end»
  simp only [h, if_false, if_true]
  cases deref s.mem s.head with
  | none => rfl
  | some n =>
    simp only [Option.bind_eq_bind, Option.some_bind]
    cases (if n.next ≠ none then (setPrev s.mem n.next none).map (fun m => (m, s.tail))
      else some (s.mem, none)) with
    | none => rfl
    | some r =>
      simp only [Option.some_bind]
      cases delete r.1 s.head <;> rfl

theorem pop_back_eq_erase (s : LL T) (h0 : s.count ≠ 0) (h1 : s.count ≠ 1) (h2 : s.tail ≠ none)
    (h3 : s.tail ≠ s.head) : pop_back s = (erase s s.tail).map Prod.fst := by
  unfold pop_back erase «end»
  simp only [empty, size, beq_iff_eq, h0, h1, h2, h3, and_false, if_false, if_true]
  cases deref s.mem s.tail with
  | none => rfl
  | some n =>
    simp only [Option.bind_eq_bind, Option.some_bind]
    cases setNext s.mem n.prev none with
    | none => rfl
    | some m1 =>
      simp only [Option.some_bind]
      cases delete m1 s.tail <;> rfl

theorem pop_back_single (s : LL T) (c : Nat × T) (h : Inv s [c]) :
    ∃ s', pop_back s = some s' ∧ Inv s' [] := by
  obtain ⟨⟨-, hseg, hhead, hcount⟩, htail⟩ := h
  simp only [Seg, headOr, lastOr] at hseg hhead htail
  simp [pop_back, empty, size, hcount, hhead, htail, delete, hseg.1, Inv, Chain, Seg, headOr, lastOr]

/-! Section: lists whose `tail` was left null. -/

theorem insert_end_no_tail (s : LL T) (cs : List (Nat × T)) (v : T) (h : Chain s cs)
    (hne : cs ≠ []) (htail : s.tail = none) : insert s none v = none := by
  have hc : s.count ≠ 0 := by
    rw [h.2.2.2]
    exact fun h0 => hne (List.length_eq_zero.1 h0)
  simp [insert, alloc, empty, size, hc, htail, setNext]

theorem erase_last_no_tail (s : LL T) (l₀ : List (Nat × T)) (q c : Nat × T)
    (h : Chain s (l₀ ++ [q, c])) (htail : s.tail ≠ some c.1) : erase s (some c.1) = none := by
  obtain ⟨hnd, hseg, hhead, hcount⟩ := h
  rw [Seg_append] at hseg
  simp only [Seg, headOr] at hseg
  obtain ⟨hs0, hq, hc, -⟩ := hseg
  simp only [List.Nodup, List.pairwise_map, List.pairwise_append, List.pairwise_cons,
    List.mem_cons, forall_eq_or_imp] at hnd
  obtain ⟨hn0, ⟨⟨hqc, -⟩, -⟩, h0⟩ := hnd
  have hch : some c.1 ≠ s.head := by
    rw [hhead]
    cases l₀ with
    | nil => simpa [headOr] using Ne.symm hqc
    | cons d l => simpa [headOr] using Ne.symm (h0 d (by simp)).2.1
  simp [erase, «end», hch, Ne.symm htail, deref, hc, hq, setNext, setPrev, load_set, hqc,
    Ne.symm hqc]

theorem pop_back_no_tail (s : LL T) (cs : List (Nat × T)) (h : Chain s cs)
    (hne : cs ≠ []) (htail : s.tail = none) : pop_back s = none := by
  have hc : s.count ≠ 0 := by
    rw [h.2.2.2]
    exact fun h0 => hne (List.length_eq_zero.1 h0)
  have hh : s.head ≠ none := by
    rw [h.2.2.1]
    cases cs with
    | nil => exact absurd rfl hne
    | cons c l => simp [headOr]
  simp [pop_back, empty, size, hc, htail, hh, deref]

theorem push_front_chain (s : LL T) (cs : List (Nat × T)) (v : T) (h : Chain s cs) :
    ∃ s', push_front s v = some s' ∧ Chain s' ((s.mem.length, v) :: cs) ∧ s'.tail = s.tail := by
  obtain ⟨hnd, hseg, hhead, hcount⟩ := h
  have hlt := Seg_lt hseg
  cases cs with
  | nil =>
    simp only [headOr] at hhead
    simp [push_front, alloc, setPrev, setNext, load_append_single, load_set, hhead, Chain, Seg,
      headOr, hcount]
  | cons c l₂ =>
    simp only [Seg, headOr] at hseg hhead
    obtain ⟨hc, hs2⟩ := hseg
    have hclt : c.1 < s.mem.length := hlt c (by simp)
    simp only [List.Nodup, List.pairwise_map, List.pairwise_cons] at hnd
    obtain ⟨hc2, hn2⟩ := hnd
    simp [push_front, alloc, hhead, load_append_single, hclt.ne, hc, setPrev, setNext, load_set, hclt]
    refine ⟨?_, ?_, ?_, ?_⟩
    · simp only [List.Nodup, List.pairwise_map, List.pairwise_cons, List.mem_cons, forall_eq_or_imp]
      exact ⟨⟨hclt.ne', fun d hd => (hlt d (by simp [hd])).ne'⟩, hc2, hn2⟩
    · simp only [Seg, headOr]
      refine ⟨?_, ?_, ?_⟩
      · simp [load_set, load_append_single, hclt, hclt.ne']
      · simp [load_set, load_append_single, hclt, hclt.ne, hclt.ne']
      · refine Seg_congr (fun d hd => ?_) hs2
        have := hlt d (by simp [hd])
        simp [load_set, load_append_single, Ne.symm (hc2 d hd), this.ne]
    · simp [headOr]
    · simp [hcount]

theorem push_back_eq_insert (s : LL T) (v : T) :
    push_back s v = (insert s («end» s) v).map Prod.fst := by
  unfold push_back insert «end» alloc
  cases empty s with
  | true => simp
  | false =>
    simp only [Bool.false_eq_true, if_false, if_true]
    cases setNext (s.mem ++ [some { data := v, prev := none, next := none }]) s.tail
        (some s.mem.length) with
    | none => rfl
    | some m1 =>
      simp only [Option.bind_eq_bind, Option.some_bind]
      cases setPrev m1 (some s.mem.length) s.tail <;> rfl

theorem pop_back_Inv (s : LL T) (cs : List (Nat × T)) (hinv : Inv s cs) (hne : cs ≠ []) :
    ∃ s', pop_back s = some s' ∧ Inv s' cs.dropLast := by
  rcases List.eq_nil_or_concat cs with rfl | ⟨l, c, rfl⟩
  · exact absurd rfl hne
  · simp only [List.concat_eq_append, List.dropLast_concat] at hinv ⊢
    rcases List.eq_nil_or_concat l with rfl | ⟨l₀, q, rfl⟩
    · simpa using pop_back_single s c (by simpa using hinv)
    · simp only [List.concat_eq_append, List.append_assoc, List.singleton_append] at hinv ⊢
      have htail : s.tail = some c.1 := by simpa [lastOr_append, lastOr] using hinv.2
      have hcount := hinv.1.2.2.2
      simp only [List.length_append, List.length_cons, List.length_nil] at hcount
      have hth : s.tail ≠ s.head := by
        intro h
        have hnd := hinv.1.1
        simp only [List.Nodup, List.pairwise_map, List.pairwise_append, List.pairwise_cons,
          List.mem_cons, forall_eq_or_imp] at hnd
        obtain ⟨-, ⟨⟨hqc, -⟩, -⟩, h0⟩ := hnd
        rw [htail, hinv.1.2.2.1] at h
        cases l₀ with
        | nil => exact hqc (by simpa [headOr] using h.symm)
        | cons d l => exact (h0 d (by simp)).2.1 (by simpa [headOr] using h.symm)
      obtain ⟨s', h1, h2, h3⟩ := erase_last s l₀ q c hinv.1 htail
      refine ⟨s', ?_, h2, by simpa [lastOr_append, lastOr] using h3⟩
      rw [pop_back_eq_erase s (by omega) (by omega) (by simp [htail]) hth, htail, h1]
      rfl

/-! Section: which addresses hold a node after a call. -/

theorem allocated_set_some (m : Mem T) (a b : Nat) (n n' : Node T) (h : load m a = some n) :
    allocated (m.set a (some n')) b = allocated m b := by
  unfold allocated
  rw [load_set]
  by_cases hb : b = a
  · subst hb
    simp [load_lt h, h]
  · simp [hb]

theorem setNext_allocated {m m' : Mem T} {p x : Option Nat} (h : setNext m p x = some m') (b : Nat) :
    allocated m' b = allocated m b := by
  cases p with
  | none => simp [setNext] at h
  | some a =>
    cases hn : load m a with
    | none => simp [setNext, hn] at h
    | some n =>
      simp only [setNext, hn, Option.some.injEq] at h
      rw [← h]
      exact allocated_set_some m a b n _ hn

theorem setPrev_allocated {m m' : Mem T} {p x : Option Nat} (h : setPrev m p x = some m') (b : Nat) :
    allocated m' b = allocated m b := by
  cases p with
  | none => simp [setPrev] at h
  | some a =>
    cases hn : load m a with
    | none => simp [setPrev, hn] at h
    | some n =>
      simp only [setPrev, hn, Option.some.injEq] at h
      rw [← h]
      exact allocated_set_some m a b n _ hn

theorem delete_allocated {m m' : Mem T} {p : Option Nat} (h : delete m p = some m') (b : Nat) :
    allocated m' b = (allocated m b && decide (some b ≠ p)) := by
  cases p with
  | none =>
    simp only [delete, Option.some.injEq] at h
    simp [h]
  | some a =>
    cases hn : load m a with
    | none => simp [delete, hn] at h
    | some n =>
      simp only [delete, hn, Option.some.injEq] at h
      rw [← h]
      unfold allocated
      rw [load_set]
      by_cases hb : b = a
      · subst hb
        simp [load_lt hn]
      · simp [hb]

theorem alloc_allocated (m : Mem T) (v : T) (b : Nat) :
    allocated (alloc m v).1 b = (allocated m b || decide (b = m.length)) := by
  unfold allocated alloc
  rw [load_append_single]
  by_cases hb : b = m.length
  · simp [hb]
  · simp [hb]

theorem insert_allocated {s s' : LL T} {pos it : Option Nat} {v : T}
    (h : insert s pos v = some (s', it)) (b : Nat) :
    allocated s'.mem b = (allocated s.mem b || decide (b = s.mem.length)) := by
  rw [← alloc_allocated s.mem v b]
  unfold insert at h
  simp only [Option.bind_eq_bind] at h
  split_ifs at h
  · simp only [Option.some.injEq, Prod.mk.injEq] at h
    rw [← h.1]
  · simp only [Option.bind_eq_some, Option.some.injEq, Prod.mk.injEq] at h
    obtain ⟨m1, h1, m2, h2, h3, -⟩ := h
    rw [← h3]
    simp only [setPrev_allocated h2, setNext_allocated h1]
  · simp only [Option.bind_eq_some, Option.some.injEq, Prod.mk.injEq] at h
    obtain ⟨m1, h1, m2, h2, h3, -⟩ := h
    rw [← h3]
    simp only [setNext_allocated h2, setPrev_allocated h1]
  · simp only [Option.bind_eq_some, Option.some.injEq, Prod.mk.injEq] at h
    obtain ⟨n, -, m1, h1, m2, h2, m3, h3, m4, h4, h5, -⟩ := h
    rw [← h5]
    simp only [setPrev_allocated h4, setNext_allocated h3, setNext_allocated h2, setPrev_allocated h1]

theorem erase_allocated {s s' : LL T} {pos it : Option Nat}
    (h : erase s pos = some (s', it)) (b : Nat) :
    allocated s'.mem b = (allocated s.mem b && decide (some b ≠ pos)) := by
  unfold erase at h
  simp only [Option.bind_eq_bind] at h
  split_ifs at h with h1 h2 h3
  · simp only [Option.some.injEq, Prod.mk.injEq] at h
    rw [← h.1, h1]
    simp [«end»]
  · simp only [Option.bind_eq_some, Option.some.injEq, Prod.mk.injEq, Prod.exists] at h
    obtain ⟨n, -, m1, t1, h4, m2, h5, h6, -⟩ := h
    rw [← h6]
    simp only [delete_allocated h5]
    congr 1
    split_ifs at h4 with h7
    · simp only [Option.map_eq_some', Prod.mk.injEq] at h4
      obtain ⟨m, h8, h9, -⟩ := h4
      rw [← h9]
      exact setPrev_allocated h8 b
    · simp only [Option.some.injEq, Prod.mk.injEq] at h4
      rw [← h4.1]
  · simp only [Option.bind_eq_some, Option.some.injEq, Prod.mk.injEq] at h
    obtain ⟨n, -, m1, h4, m2, h5, h6, -⟩ := h
    rw [← h6]
    simp only [delete_allocated h5, setNext_allocated h4]
  · simp only [Option.bind_eq_some, Option.some.injEq, Prod.mk.injEq] at h
    obtain ⟨n1, -, n2, -, m1, h4, n3, -, n4, -, m2, h5, n5, -, m3, h6, h7, -⟩ := h
    rw [← h7]
    simp only [delete_allocated h6, setPrev_allocated h5, setNext_allocated h4]

theorem push_front_allocated {s s' : LL T} {v : T} (h : push_front s v = some s') (b : Nat) :
    allocated s'.mem b = (allocated s.mem b || decide (b = s.mem.length)) := by
  rw [← alloc_allocated s.mem v b]
  unfold push_front at h
  simp only [Option.bind_eq_bind, Option.bind_eq_some, Option.some.injEq] at h
  obtain ⟨m1, h1, m2, h2, m3, h3, h4⟩ := h
  rw [← h4]
  simp only
  rw [← setPrev_allocated h1 b, ← setNext_allocated h2 b]
  split_ifs at h3
  · exact setPrev_allocated h3 b
  · simp only [Option.some.injEq] at h3
    rw [h3]

theorem pop_back_allocated {s s' : LL T} (h : pop_back s = some s') (b : Nat) :
    allocated s'.mem b = (allocated s.mem b && (s.count == 0 || decide (some b ≠ s.tail))) := by
  unfold pop_back at h
  simp only [Option.bind_eq_bind] at h
  split_ifs at h with h1 h2
  · simp only [Option.some.injEq] at h
    simp only [empty, size] at h1
    rw [← h, h1]
    simp
  · simp only [Option.bind_eq_some, Option.some.injEq] at h
    obtain ⟨m1, h3, h4⟩ := h
    rw [← h4]
    simp only [delete_allocated h3, h2.1, h2.2]
    simp
  · simp only [Option.bind_eq_some, Option.some.injEq] at h
    obtain ⟨n, -, m1, h3, m2, h4, h5⟩ := h
    simp only [empty, size, beq_iff_eq] at h1
    rw [← h5]
    have hc : (s.count == 0) = false := by simpa using h1
    simp only [delete_allocated h4, setNext_allocated h3, hc, Bool.false_or]

theorem clearLoop_allocated (k : Nat) (m m' : Mem T) (cs : List (Nat × T)) (p : Option Nat)
    (hs : Seg m p cs none) (hnd : (cs.map Prod.fst).Nodup)
    (h : clearLoop k m (headOr cs none) = some m') (b : Nat) :
    allocated m' b = (allocated m b && decide (b ∉ cs.map Prod.fst)) := by
  induction cs generalizing k m p with
  | nil =>
    cases k <;> simp only [headOr, clearLoop, Option.some.injEq] at h <;> simp [h]
  | cons c cs ih =>
    cases k with
    | zero => simp [headOr, clearLoop] at h
    | succ k =>
      simp only [headOr, clearLoop, hs.1, Option.bind_eq_bind, Option.some_bind,
        Option.bind_eq_some] at h
      obtain ⟨m1, h1, h2⟩ := h
      simp only [List.map_cons, List.nodup_cons] at hnd
      have hs1 : Seg m1 (some c.1) cs none := by
        refine Seg_congr (fun d hd => ?_) hs.2
        have hdc : d.1 ≠ c.1 := fun e => hnd.1 (e ▸ List.mem_map_of_mem Prod.fst hd)
        simp only [delete, hs.1, Option.some.injEq] at h1
        rw [← h1, load_set]
        simp [hdc]
      rw [ih k m1 (some c.1) hs1 hnd.2 h2, delete_allocated h1]
      by_cases hb : b = c.1
      · simp [hb]
      · have hbc : (b == c.1) = false := by simpa using hb
        simp [hb, hbc]

/-! Section: reachable lists. -/

theorem lastOr_cons_ne (l : List (Nat × T)) (c : Nat × T) (p : Option Nat)
    (h : ∀ e ∈ l, c.1 ≠ e.1) (hp : p ≠ some c.1) : lastOr l p ≠ some c.1 := by
  rcases lastOr_mem l p with h1 | ⟨e, he, h1⟩
  · rwa [h1]
  · rw [h1]
    simpa using Ne.symm (h e he)

theorem Chain_count_ne {s : LL T} {cs : List (Nat × T)} (h : Chain s cs) (hne : cs ≠ []) :
    s.count ≠ 0 := by
  rw [h.2.2.2]
  exact fun h0 => hne (List.length_eq_zero.1 h0)

theorem Chain_head_mem {s : LL T} {cs : List (Nat × T)} (h : Chain s cs) (a : Nat)
    (ha : a ∉ cs.map Prod.fst) : some a ≠ s.head := by
  rw [h.2.2.1]
  cases cs with
  | nil => simp [headOr]
  | cons c l =>
    simp only [headOr, ne_eq, Option.some.injEq]
    rintro rfl
    exact ha (by simp)

theorem insert_stray (s : LL T) (cs : List (Nat × T)) (a : Nat) (v : T) (h : Chain s cs)
    (hne : cs ≠ []) (ha : a ∉ cs.map Prod.fst) (hal : allocated s.mem a = false) :
    insert s (some a) v = none := by
  have hc := Chain_count_ne h hne
  have hh := Chain_head_mem h a ha
  have hl : load s.mem a = none := by simpa [allocated] using hal
  by_cases hlen : a = s.mem.length
  · subst hlen
    simp [insert, alloc, empty, size, hc, hh, deref, load_append_single, setPrev, setNext, load_set]
  · simp [insert, alloc, empty, size, hc, hh, deref, load_append_single, hlen, hl]

theorem erase_stray (s : LL T) (cs : List (Nat × T)) (a : Nat) (h : Chain s cs)
    (ht : s.tail = none ∨ s.tail = lastOr cs none) (ha : a ∉ cs.map Prod.fst)
    (hal : allocated s.mem a = false) : erase s (some a) = none := by
  have hh := Chain_head_mem h a ha
  have hl : load s.mem a = none := by simpa [allocated] using hal
  have htl : some a ≠ s.tail := by
    rcases ht with ht | ht
    · simp [ht]
    · rw [ht]
      rcases lastOr_mem cs none with h1 | ⟨e, he, h1⟩
      · simp [h1]
      · rw [h1]
        simp only [ne_eq, Option.some.injEq]
        rintro rfl
        exact ha (List.mem_map_of_mem Prod.fst he)
  simp [erase, «end», hh, htl, deref, hl]

theorem insert_ChainInv (s s' : LL T) (cs : List (Nat × T)) (pos it : Option Nat) (v : T)
    (h : ChainInv s cs) (hs : insert s pos v = some (s', it)) :
    ∃ cs', ChainInv s' cs' := by
  obtain ⟨hch, htail, hfull⟩ := h
  have key : ∃ cs', Chain s' cs' ∧ (s'.tail = none ∨ s'.tail = lastOr cs' none) ∧
      (∀ x ∈ cs.map Prod.fst, x ∈ cs'.map Prod.fst) ∧ s.mem.length ∈ cs'.map Prod.fst := by
    by_cases hnil : cs = []
    · subst hnil
      obtain ⟨s₁, h1, h2, h3⟩ := insert_empty s pos v hch
      simp only [h1, Option.some.injEq, Prod.mk.injEq] at hs
      rw [← hs.1]
      exact ⟨_, h2, Or.inr (by simpa [lastOr] using h3), by simp, by simp⟩
    cases pos with
    | none =>
      rcases List.eq_nil_or_concat cs with rfl | ⟨l₀, t, rfl⟩
      · exact absurd rfl hnil
      · simp only [List.concat_eq_append] at hch htail ⊢
        rcases htail with htail | htail
        · rw [insert_end_no_tail s _ v hch (by simp) htail] at hs
          exact absurd hs (by simp)
        · obtain ⟨s₁, h1, h2, h3⟩ :=
            insert_back s l₀ t v hch (by simpa [lastOr_append, lastOr] using htail)
          simp only [h1, Option.some.injEq, Prod.mk.injEq] at hs
          rw [← hs.1]
          refine ⟨_, h2, Or.inr (by simpa [lastOr_append, lastOr] using h3), ?_, by simp⟩
          intro x hx
          simp only [List.map_append, List.map_cons, List.map_nil, List.mem_append, List.mem_cons,
            List.mem_singleton, List.not_mem_nil, or_false] at hx ⊢
          tauto
    | some a =>
      by_cases hmem : a ∈ cs.map Prod.fst
      · obtain ⟨c, hc, rfl⟩ := List.mem_map.1 hmem
        obtain ⟨l₁, l₂, rfl⟩ := List.append_of_mem hc
        rcases List.eq_nil_or_concat l₁ with rfl | ⟨l₀, q, rfl⟩
        · obtain ⟨s₁, h1, h2, h3⟩ := insert_front s l₂ c v hch
          simp only [h1, Option.some.injEq, Prod.mk.injEq] at hs
          rw [← hs.1]
          refine ⟨_, h2, ?_, ?_, by simp⟩
          · rw [h3]
            simpa [lastOr] using htail
          · intro x hx
            simp only [List.nil_append, List.map_cons, List.mem_cons] at hx ⊢
            tauto
        · simp only [List.concat_eq_append, List.append_assoc, List.singleton_append] at hch htail ⊢
          obtain ⟨s₁, h1, h2, h3⟩ := insert_mid s l₀ l₂ q c v hch
          simp only [h1, Option.some.injEq, Prod.mk.injEq] at hs
          rw [← hs.1]
          refine ⟨_, h2, ?_, ?_, by simp⟩
          · rw [h3]
            simpa [lastOr_append, lastOr] using htail
          · intro x hx
            simp only [List.map_append, List.map_cons, List.mem_append, List.mem_cons] at hx ⊢
            tauto
      · have hal : allocated s.mem a = false := by
          by_contra hal
          exact hmem (hfull a (by simpa using hal))
        rw [insert_stray s cs a v hch hnil hmem hal] at hs
        exact absurd hs (by simp)
  obtain ⟨cs', h1, h2, h3, h4⟩ := key
  refine ⟨cs', h1, h2, fun b hb => ?_⟩
  rw [insert_allocated hs b] at hb
  simp only [Bool.or_eq_true, decide_eq_true_eq] at hb
  rcases hb with hb | rfl
  · exact h3 b (hfull b hb)
  · exact h4

theorem erase_ChainInv (s s' : LL T) (cs : List (Nat × T)) (pos it : Option Nat)
    (h : ChainInv s cs) (hs : erase s pos = some (s', it)) :
    ∃ cs', ChainInv s' cs' := by
  obtain ⟨hch, htail, hfull⟩ := h
  have key : ∃ cs', Chain s' cs' ∧ (s'.tail = none ∨ s'.tail = lastOr cs' none) ∧
      (∀ x ∈ cs.map Prod.fst, some x ≠ pos → x ∈ cs'.map Prod.fst) := by
    cases pos with
    | none =>
      simp only [erase, «end», if_true, Option.some.injEq, Prod.mk.injEq] at hs
      rw [← hs.1]
      exact ⟨cs, hch, htail, fun x hx _ => hx⟩
    | some a =>
      by_cases hmem : a ∈ cs.map Prod.fst
      · obtain ⟨c, hc, rfl⟩ := List.mem_map.1 hmem
        obtain ⟨l₁, l₂, rfl⟩ := List.append_of_mem hc
        have hsub : ∀ x ∈ (l₁ ++ c :: l₂).map Prod.fst, some x ≠ some c.1 →
            x ∈ (l₁ ++ l₂).map Prod.fst := by
          intro x hx hne
          simp only [List.map_append, List.map_cons, List.mem_append, List.mem_cons, ne_eq,
            Option.some.injEq] at hx hne ⊢
          tauto
        rcases List.eq_nil_or_concat l₁ with rfl | ⟨l₀, q, rfl⟩
        · obtain ⟨s₁, h1, h2, h3⟩ := erase_head s l₂ c hch
          simp only [h1, Option.some.injEq, Prod.mk.injEq] at hs
          rw [← hs.1]
          refine ⟨_, h2, ?_, hsub⟩
          rw [h3]
          cases l₂ with
          | nil => simp
          | cons d l₃ => simpa [lastOr] using htail
        · simp only [List.concat_eq_append, List.append_assoc, List.singleton_append]
            at hch htail hsub ⊢
          have hnd := hch.1
          simp only [List.Nodup, List.pairwise_map, List.pairwise_append, List.pairwise_cons,
            List.mem_cons, forall_eq_or_imp] at hnd
          obtain ⟨-, ⟨-, hc2, -⟩, -⟩ := hnd
          cases l₂ with
          | nil =>
            by_cases ht : s.tail = some c.1
            · obtain ⟨s₁, h1, h2, h3⟩ := erase_last s l₀ q c hch ht
              simp only [h1, Option.some.injEq, Prod.mk.injEq] at hs
              rw [← hs.1]
              exact ⟨_, h2, Or.inr (by simpa [lastOr_append, lastOr] using h3), hsub⟩
            · rw [erase_last_no_tail s l₀ q c hch ht] at hs
              exact absurd hs (by simp)
          | cons d l₃ =>
            have ht : s.tail ≠ some c.1 := by
              rcases htail with htail | htail
              · simp [htail]
              · rw [htail]
                simp only [lastOr_append, lastOr]
                simp only [List.mem_cons, forall_eq_or_imp] at hc2
                exact lastOr_cons_ne l₃ c _ hc2.2 (by simpa using Ne.symm hc2.1)
            obtain ⟨s₁, h1, h2, h3⟩ := erase_mid s l₀ l₃ q c d hch ht
            simp only [h1, Option.some.injEq, Prod.mk.injEq] at hs
            rw [← hs.1]
            refine ⟨_, h2, ?_, hsub⟩
            rw [h3]
            simpa [lastOr_append, lastOr] using htail
      · have hal : allocated s.mem a = false := by
          by_contra hal
          exact hmem (hfull a (by simpa using hal))
        rw [erase_stray s cs a hch htail hmem hal] at hs
        exact absurd hs (by simp)
  obtain ⟨cs', h1, h2, h3⟩ := key
  refine ⟨cs', h1, h2, fun b hb => ?_⟩
  rw [erase_allocated hs b] at hb
  simp only [Bool.and_eq_true, decide_eq_true_eq] at hb
  exact h3 b (hfull b hb.1) hb.2

theorem step_ChainInv (s s' : LL T) (cs : List (Nat × T)) (op : Op T)
    (h : ChainInv s cs) (hs : step s op = some s') :
    ∃ cs', ChainInv s' cs' := by
  cases op with
  | push_back v =>
    simp only [step, push_back_eq_insert, Option.map_eq_some', Prod.exists, exists_and_right,
      exists_eq_right] at hs
    obtain ⟨it, hs⟩ := hs
    exact insert_ChainInv s s' cs _ it v h hs
  | push_front v =>
    simp only [step] at hs
    obtain ⟨s₁, h1, h2, h3⟩ := push_front_chain s cs v h.1
    have hal := push_front_allocated hs
    simp only [h1, Option.some.injEq] at hs
    rw [← hs] at hal ⊢
    refine ⟨_, h2, ?_, fun b hb => ?_⟩
    · rw [h3]
      rcases h.2.1 with ht | ht
      · exact Or.inl ht
      · cases cs with
        | nil => exact Or.inl ht
        | cons c l => exact Or.inr ht
    · rw [hal b] at hb
      simp only [Bool.or_eq_true, decide_eq_true_eq] at hb
      rcases hb with hb | rfl
      · simp [h.2.2 b hb]
      · simp
  | pop_back =>
    simp only [step] at hs
    by_cases hne : cs = []
    · subst hne
      have hc : s.count = 0 := h.1.2.2.2
      simp only [pop_back, empty, size, hc, beq_self_eq_true, if_true, Option.some.injEq] at hs
      rw [← hs]
      exact ⟨[], h⟩
    · rcases h.2.1 with ht | ht
      · rw [pop_back_no_tail s cs h.1 hne ht] at hs
        exact absurd hs (by simp)
      · have hal := pop_back_allocated hs
        obtain ⟨s₁, h1, h2⟩ := pop_back_Inv s cs ⟨h.1, ht⟩ hne
        rw [h1, Option.some.injEq] at hs
        rw [← hs] at hal ⊢
        refine ⟨_, h2.1, Or.inr h2.2, fun b hb => ?_⟩
        rw [hal b] at hb
        have hc : (s.count == 0) = false := by simpa using Chain_count_ne h.1 hne
        simp only [hc, Bool.false_or, Bool.and_eq_true, decide_eq_true_eq] at hb
        have hb1 := h.2.2 b hb.1
        rcases List.eq_nil_or_concat cs with rfl | ⟨l, c, rfl⟩
        · exact absurd rfl hne
        · simp only [List.concat_eq_append, List.dropLast_concat, lastOr_append, lastOr,
            List.map_append, List.map_cons, List.map_nil, List.mem_append, List.mem_singleton]
            at ht hb1 ⊢
          rcases hb1 with hb1 | hb1
          · exact hb1
          · exact absurd (by rw [ht, hb1]) hb.2
  | pop_front =>
    simp only [step] at hs
    cases cs with
    | nil =>
      have hh : s.head = none := h.1.2.2.1
      simp only [pop_front, hh, if_true, Option.some.injEq] at hs
      rw [← hs]
      exact ⟨[], h⟩
    | cons c l₂ =>
      have hh : s.head = some c.1 := h.1.2.2.1
      rw [pop_front_eq_erase s (by simp [hh]), hh] at hs
      simp only [Option.map_eq_some', Prod.exists, exists_and_right, exists_eq_right] at hs
      obtain ⟨it, hs⟩ := hs
      exact erase_ChainInv s s' _ _ it h hs
  | insert pos v =>
    simp only [step, Option.map_eq_some', Prod.exists, exists_and_right, exists_eq_right] at hs
    obtain ⟨it, hs⟩ := hs
    exact insert_ChainInv s s' cs pos it v h hs
  | erase pos =>
    simp only [step, Option.map_eq_some', Prod.exists, exists_and_right, exists_eq_right] at hs
    obtain ⟨it, hs⟩ := hs
    exact erase_ChainInv s s' cs pos it h hs
  | clear =>
    simp only [step, clear] at hs
    cases hcl : clearLoop s.mem.length s.mem s.head with
    | none => simp [hcl] at hs
    | some m1 =>
      simp only [hcl, Option.bind_eq_bind, Option.some_bind, Option.some.injEq] at hs
      rw [← hs]
      refine ⟨[], by simp [Chain, Seg, headOr], Or.inl rfl, fun b hb => ?_⟩
      rw [h.1.2.2.1] at hcl
      simp only at hb
      rw [clearLoop_allocated _ _ _ cs none h.1.2.1 h.1.1 hcl b] at hb
      simp only [Bool.and_eq_true, decide_eq_true_eq] at hb
      exact absurd (h.2.2 b hb.1) hb.2

theorem Reach_ChainInv {s : LL T} (h : Reach s) : ∃ cs, ChainInv s cs := by
  induction h with
  | init => exact ⟨[], by simp [ChainInv, Chain, Seg, headOr, empty_list, allocated, load]⟩
  | next op _ hs ih =>
    obtain ⟨cs, hcs⟩ := ih
    exact step_ChainInv _ _ cs op hcs hs

theorem ex1_Reach : Reach ex1 :=
  Reach.next (.push_back 5) Reach.init rfl

/-- C4 (the code departs from it): on the empty list `push_front(7)` leaves
`tail` null, whereas `insert(begin(), 7)` sets `tail` to the new node, so the
two resulting states differ. -/
theorem push_front_empty_ne_insert_begin :
    ∃ s₁ s₂ it, push_front (empty_list : LL Nat) 7 = some s₁ ∧
      insert (empty_list : LL Nat) («begin» (empty_list : LL Nat)) 7 = some (s₂, it) ∧
      s₁.tail = none ∧ s₂.tail = some 0 ∧ s₁.head = s₂.head ∧ s₁.count = s₂.count ∧
      s₁.mem = s₂.mem ∧ s₁ ≠ s₂ := by
  refine ⟨_, _, _, rfl, rfl, rfl, rfl, rfl, rfl, rfl, by decide⟩

/-- C5: on every list `push_back(v)` is the same computation as
`insert(end(), v)` without the returned iterator; on a list satisfying the
invariants with cells `cs` it runs to completion and the element sequence
becomes the old one followed by `v`. -/
theorem push_back_eq_insert_end (s : LL T) (cs : List (Nat × T)) (v : T) (hinv : Inv s cs) :
    push_back s v = (insert s («end» s) v).map Prod.fst ∧
    toList s = some (cs.map Prod.snd) ∧
    ∃ s', push_back s v = some s' ∧ Inv s' (cs ++ [(s.mem.length, v)]) ∧
      toList s' = some (cs.map Prod.snd ++ [v]) := by
  have heq := push_back_eq_insert s v
  refine ⟨heq, toList_of_Chain hinv.1, ?_⟩
  obtain ⟨s', h1, h2⟩ := insert_split s cs [] v (by simpa using hinv)
  refine ⟨s', ?_, h2, ?_⟩
  · rw [heq]
    simp only [headOr] at h1
    simp [«end», h1]
  · rw [toList_of_Chain h2.1]
    simp

theorem push_back_eq_insert_end_witness :
    Inv ex2 [(0, 10), (1, 20)] ∧
    ∃ s', push_back ex2 30 = some s' ∧ toList s' = some [10, 20, 30] := by
  obtain ⟨-, -, s', h1, -, h3⟩ := push_back_eq_insert_end ex2 [(0, 10), (1, 20)] 30 ex2_Inv
  exact ⟨ex2_Inv, s', h1, h3⟩

/-- C6 (the code departs from it): after the single call `push_front(7)` on a
default-constructed list `size()` is 1 and one node is reached from `head` via
`next`, but no node is reached from `tail` via `prev`, `tail` being null. -/
theorem push_front_backward_count :
    ∃ s, step (empty_list : LL Nat) (.push_front 7) = some s ∧ size s = 1 ∧
      forwardCount s = some 1 ∧ backwardCount s = some 0 := by
  exact ⟨_, rfl, rfl, rfl, rfl⟩

/-- C7 (the code departs from it): after the single call `push_front(7)` on a
default-constructed list `empty()` is false, yet `back()` throws the
empty-container error, while the last element in iteration order is 7. -/
theorem back_after_push_front :
    ∃ s, step (empty_list : LL Nat) (.push_front 7) = some s ∧ empty s = false ∧
      back s = .error .out_of_range ∧ toList s = some [7] := by
  exact ⟨_, rfl, rfl, rfl, rfl⟩

/-- C9: on a list satisfying the invariants with a non-empty sequence of cells
`cs`, `pop_back()` runs to completion and leaves the sequence without its last
element, `pop_front()` runs to completion and leaves the sequence without its
first element; either way the size goes down by one, the invariants hold again,
and `head` and `tail` are both null when the only element was removed. -/
theorem pop_correct (s : LL T) (cs : List (Nat × T)) (hinv : Inv s cs) (hne : cs ≠ []) :
    toList s = some (cs.map Prod.snd) ∧
    (∃ s', pop_back s = some s' ∧ Inv s' cs.dropLast ∧
      toList s' = some (cs.map Prod.snd).dropLast ∧ size s' + 1 = size s ∧
      (cs.length = 1 → s'.head = none ∧ s'.tail = none)) ∧
    (∃ s', pop_front s = some s' ∧ Inv s' cs.tail ∧
      toList s' = some (cs.map Prod.snd).tail ∧ size s' + 1 = size s ∧
      (cs.length = 1 → s'.head = none ∧ s'.tail = none)) := by
  have hlen : 0 < cs.length := List.length_pos.2 hne
  have fin : ∀ (s' : LL T) (cs' : List (Nat × T)), Inv s' cs' → cs'.length + 1 = cs.length →
      size s' + 1 = size s ∧ (cs.length = 1 → s'.head = none ∧ s'.tail = none) := by
    intro s' cs' h' hl
    refine ⟨by simp only [size, h'.1.2.2.2, hinv.1.2.2.2, hl], fun h1 => ?_⟩
    have : cs' = [] := List.length_eq_zero.1 (by omega)
    subst this
    exact ⟨h'.1.2.2.1, h'.2⟩
  refine ⟨toList_of_Chain hinv.1, ?_, ?_⟩
  · have hback := pop_back_Inv s cs hinv hne
    obtain ⟨s', h1, h2⟩ := hback
    refine ⟨s', h1, h2, ?_, fin s' _ h2 (by simp; omega)⟩
    rw [toList_of_Chain h2.1]
    simp [List.map_dropLast]
  · cases cs with
    | nil => exact absurd rfl hne
    | cons c l₂ =>
      obtain ⟨s', h1, h2⟩ := erase_split s [] l₂ c (by simpa using hinv)
      have hhead : s.head = some c.1 := hinv.1.2.2.1
      refine ⟨s', ?_, by simpa using h2, ?_, fin s' _ (by simpa using h2) (by simp)⟩
      · rw [pop_front_eq_erase s (by simp [hhead]), hhead, h1]
        rfl
      · rw [toList_of_Chain h2.1]
        simp

theorem pop_correct_witness :
    Inv ex2 [(0, 10), (1, 20)] ∧
    (∃ s', pop_back ex2 = some s' ∧ toList s' = some [10]) ∧
    (∃ s', pop_front ex2 = some s' ∧ toList s' = some [20]) := by
  obtain ⟨-, ⟨s₁, h1, -, h2, -⟩, ⟨s₂, h3, -, h4, -⟩⟩ :=
    pop_correct ex2 [(0, 10), (1, 20)] ex2_Inv (by decide)
  exact ⟨ex2_Inv, ⟨s₁, h1, h2⟩, ⟨s₂, h3, h4⟩⟩

/-- C10: on an empty list (count 0, head and tail null) `pop_back()` and
`pop_front()` both return normally and leave the state as it was. -/
theorem pop_empty (s : LL T) (hc : s.count = 0) (hh : s.head = none) (ht : s.tail = none) :
    (pop_back s = some s ∧ pop_front s = some s) ∧
      size s = 0 ∧ s.head = none ∧ s.tail = none := by
  refine ⟨⟨?_, ?_⟩, hc, hh, ht⟩
  · simp [pop_back, empty, size, hc]
  · simp [pop_front, hh]

theorem pop_empty_witness :
    pop_back (empty_list : LL Nat) = some empty_list ∧
      pop_front (empty_list : LL Nat) = some empty_list :=
  (pop_empty (empty_list : LL Nat) rfl rfl rfl).1

/-! Section: construction from a sequence of values. -/

theorem push_back_Inv (s : LL T) (cs : List (Nat × T)) (v : T) (h : Inv s cs) :
    ∃ s', push_back s v = some s' ∧ Inv s' (cs ++ [(s.mem.length, v)]) := by
  obtain ⟨s', h1, h2⟩ := insert_split s cs [] v (by simpa using h)
  refine ⟨s', ?_, h2⟩
  rw [push_back_eq_insert]
  simp only [headOr] at h1
  simp [«end», h1]

theorem foldlM_push_back (vs : List T) (s : LL T) (cs : List (Nat × T)) (h : Inv s cs) :
    ∃ s' cs', vs.foldlM push_back s = some s' ∧ Inv s' (cs ++ cs') ∧ cs'.map Prod.snd = vs := by
  induction vs generalizing s cs with
  | nil => exact ⟨s, [], rfl, by simpa using h, rfl⟩
  | cons v vs ih =>
    obtain ⟨s₁, h1, h2⟩ := push_back_Inv s cs v h
    obtain ⟨s', cs', h3, h4, h5⟩ := ih s₁ _ h2
    refine ⟨s', (s.mem.length, v) :: cs', ?_, by simpa using h4, by simp [h5]⟩
    simp [List.foldlM_cons, h1, h3]

theorem ctor_default_Inv (m : Mem T) : Inv (ctor_default m) [] := by
  simp [Inv, Chain, Seg, headOr, lastOr, ctor_default]

/-- C17: for every sequence of values `vs`, in every store, the constructor
from an initializer list runs to completion and gives a list that satisfies the
invariants with cells `cs` holding exactly `vs` in order: its element sequence
is `vs`, its size the length of `vs`, `head` the first node and `tail` the
last, both null when `vs` is empty. -/
theorem ctor_ilist_correct (m : Mem T) (vs : List T) :
    ∃ s cs, ctor_ilist m vs = some s ∧ Inv s cs ∧ cs.map Prod.snd = vs ∧
      toList s = some vs ∧ size s = vs.length ∧
      s.head = headOr cs none ∧ s.tail = lastOr cs none ∧
      (vs = [] → s.head = none ∧ s.tail = none) := by
  obtain ⟨s, cs, h1, h2, h3⟩ := foldlM_push_back vs (ctor_default m) [] (ctor_default_Inv m)
  simp only [List.nil_append] at h2
  refine ⟨s, cs, h1, h2, h3, ?_, ?_, h2.1.2.2.1, h2.2, ?_⟩
  · rw [toList_of_Chain h2.1, h3]
  · rw [size, h2.1.2.2.2, ← h3, List.length_map]
  · intro hv
    subst hv
    have : cs = [] := by simpa using h3
    subst this
    exact ⟨h2.1.2.2.1, h2.2⟩

/-! Section: the stack adapter. -/

theorem back_of_Inv (s : LL T) (l : List (Nat × T)) (c : Nat × T) (h : Inv s (l ++ [c])) :
    back s = .ok c.2 := by
  obtain ⟨⟨-, hseg, -, -⟩, htail⟩ := h
  rw [Seg_append] at hseg
  simp only [Seg, headOr] at hseg
  simp only [lastOr_append, lastOr] at htail
  simp [back, htail, deref, hseg.2.1]

theorem Stack_Built_Inv {s : Stack T} (h : Stack.Built s) : ∃ cs, Inv s cs := by
  induction h with
  | ctor => exact ⟨[], ctor_default_Inv []⟩
  | push v _ hs ih =>
    obtain ⟨cs, hcs⟩ := ih
    obtain ⟨s₁, h1, h2⟩ := push_back_Inv _ cs v hcs
    simp only [Stack.push, h1, Option.some.injEq] at hs
    exact ⟨_, hs ▸ h2⟩
  | pop _ hs ih =>
    obtain ⟨cs, hcs⟩ := ih
    by_cases hne : cs = []
    · subst hne
      have hc := hcs.1.2.2.2
      simp only [Stack.pop, pop_back, empty, size, hc, List.length_nil, beq_self_eq_true, if_true,
        Option.some.injEq] at hs
      exact ⟨[], hs ▸ hcs⟩
    · obtain ⟨s₁, h1, h2⟩ := pop_back_Inv _ cs hcs hne
      simp only [Stack.pop, h1, Option.some.injEq] at hs
      exact ⟨_, hs ▸ h2⟩

/-- C15: for every stack `s` built from an empty `Stack` by pushes and pops and
every value `v`, `push(v)` runs to completion and `top()` then returns `v`, and
a following `pop()` runs to completion and leaves the element sequence the
stack held before the push. -/
theorem Stack_push_top_pop (s : Stack T) (v : T) (h : Stack.Built s) :
    ∃ xs s₁, toList s = some xs ∧ Stack.push s v = some s₁ ∧ toList s₁ = some (xs ++ [v]) ∧
      Stack.top s₁ = .ok v ∧
      ∃ s₂, Stack.pop s₁ = some s₂ ∧ toList s₂ = some xs := by
  obtain ⟨cs, hcs⟩ := Stack_Built_Inv h
  obtain ⟨s₁, h1, h2⟩ := push_back_Inv s cs v hcs
  obtain ⟨s₂, h3, h4⟩ := pop_back_Inv s₁ _ h2 (by simp)
  refine ⟨cs.map Prod.snd, s₁, toList_of_Chain hcs.1, h1, ?_, back_of_Inv s₁ cs _ h2, s₂, h3, ?_⟩
  · rw [toList_of_Chain h2.1]
    simp
  · rw [toList_of_Chain h4.1]
    simp

theorem Stack_push_top_pop_witness :
    Stack.Built (Stack.ctor : Stack Nat) ∧
    ∃ s₁, Stack.push (Stack.ctor : Stack Nat) 3 = some s₁ ∧ Stack.top s₁ = .ok 3 ∧
      ∃ s₂, Stack.pop s₁ = some s₂ ∧ toList s₂ = some [] := by
  obtain ⟨xs, s₁, h0, h1, -, h3, s₂, h4, h5⟩ :=
    Stack_push_top_pop (Stack.ctor : Stack Nat) 3 Stack.Built.ctor
  have hx : xs = [] := by
    have : toList (Stack.ctor : Stack Nat) = some [] := rfl
    rw [this] at h0
    exact (Option.some.inj h0).symm
  subst hx
  exact ⟨Stack.Built.ctor, s₁, h1, h3, s₂, h4, h5⟩

/-- C16 (the code departs from it): `Stack::empty()` calls itself and nothing
else, so no amount of fuel lets it return a value, on any stack. -/
theorem Stack_empty_never_returns (fuel : Nat) (s : Stack T) : Stack.empty fuel s = none := by
  induction fuel with
  | zero => rfl
  | succ k ih => exact ih

/-! Section: chains read by `walk`. -/

theorem walk_cons {m : Mem T} {k : Nat} {p : Option Nat} {c : Nat × T} {l : List (Nat × T)}
    (h : walk m k p = some (c :: l)) :
    ∃ k' n, k = k' + 1 ∧ p = some c.1 ∧ load m c.1 = some n ∧ n.data = c.2 ∧
      walk m k' n.next = some l := by
  cases p with
  | none => cases k <;> simp [walk] at h
  | some a =>
    cases k with
    | zero => simp [walk] at h
    | succ k =>
      simp only [walk, Option.bind_eq_bind, Option.bind_eq_some, Option.some.injEq,
        List.cons.injEq] at h
      obtain ⟨n, hn, rest, hrest, rfl, rfl⟩ := h
      exact ⟨k, n, rfl, rfl, hn, rfl, hrest⟩

theorem walk_nil {m : Mem T} {k : Nat} {p : Option Nat} (h : walk m k p = some []) : p = none := by
  cases p with
  | none => rfl
  | some a =>
    cases k with
    | zero => simp [walk] at h
    | succ k =>
      simp only [walk, Option.bind_eq_bind, Option.bind_eq_some, Option.some.injEq] at h
      obtain ⟨n, -, rest, -, h⟩ := h
      simp at h

theorem walk_det {m : Mem T} {k k' : Nat} {p : Option Nat} {l l' : List (Nat × T)}
    (h : walk m k p = some l) (h' : walk m k' p = some l') : l = l' := by
  induction l generalizing k k' p l' with
  | nil =>
    have hp := walk_nil h
    subst hp
    cases k' <;> simp [walk] at h' <;> exact h'.symm
  | cons c l ih =>
    obtain ⟨k₁, n, rfl, rfl, hn, hd, hw⟩ := walk_cons h
    cases k' with
    | zero => simp [walk] at h'
    | succ k' =>
      simp only [walk, hn, Option.bind_eq_bind, Option.some_bind, Option.bind_eq_some,
        Option.some.injEq] at h'
      obtain ⟨rest, hrest, rfl⟩ := h'
      rw [ih hw hrest, hd]

theorem walk_suffix {m : Mem T} {k : Nat} {p : Option Nat} {l₁ l₂ : List (Nat × T)} {x : Nat × T}
    (h : walk m k p = some (l₁ ++ x :: l₂)) : ∃ k', walk m k' (some x.1) = some (x :: l₂) := by
  induction l₁ generalizing k p with
  | nil =>
    obtain ⟨k₁, n, rfl, rfl, -⟩ := walk_cons h
    exact ⟨_, h⟩
  | cons c l ih =>
    obtain ⟨k₁, n, -, -, -, -, hw⟩ := walk_cons h
    exact ih hw

theorem walk_nodup {m : Mem T} {k : Nat} {p : Option Nat} {l : List (Nat × T)}
    (h : walk m k p = some l) : (l.map Prod.fst).Nodup := by
  induction l generalizing k p with
  | nil => simp
  | cons c l ih =>
    obtain ⟨k₁, n, rfl, rfl, hn, hd, hw⟩ := walk_cons h
    refine List.nodup_cons.2 ⟨?_, ih hw⟩
    intro hmem
    obtain ⟨x, hx, hxc⟩ := List.mem_map.1 hmem
    obtain ⟨l₁, l₂, rfl⟩ := List.append_of_mem hx
    obtain ⟨k₂, hk₂⟩ := walk_suffix hw
    rw [hxc] at hk₂
    have := walk_det h hk₂
    have hlen := congrArg List.length this
    simp at hlen
    omega

theorem walk_lt {m : Mem T} {k : Nat} {p : Option Nat} {l : List (Nat × T)}
    (h : walk m k p = some l) : ∀ c ∈ l, c.1 < m.length := by
  induction l generalizing k p with
  | nil => simp
  | cons c l ih =>
    obtain ⟨k₁, n, rfl, rfl, hn, hd, hw⟩ := walk_cons h
    intro d hd
    rcases List.mem_cons.1 hd with rfl | hd
    · exact load_lt hn
    · exact ih hw d hd

theorem walk_length_le {m : Mem T} {k : Nat} {p : Option Nat} {l : List (Nat × T)}
    (h : walk m k p = some l) : l.length ≤ m.length := by
  have := length_le_of_nodup_lt (l.map Prod.fst) m.length (walk_nodup h) (by
    intro a ha
    obtain ⟨c, hc, rfl⟩ := List.mem_map.1 ha
    exact walk_lt h c hc)
  simpa using this

theorem walk_congr {m m' : Mem T} {k : Nat} {p : Option Nat} {l : List (Nat × T)}
    (hm : ∀ c ∈ l, load m' c.1 = load m c.1) (h : walk m k p = some l) :
    walk m' k p = some l := by
  induction l generalizing k p with
  | nil =>
    have hp := walk_nil h
    subst hp
    cases k <;> rfl
  | cons c l ih =>
    obtain ⟨k₁, n, rfl, rfl, hn, hd, hw⟩ := walk_cons h
    have h1 := ih (fun d hd => hm d (List.mem_cons_of_mem _ hd)) hw
    have h2 : load m' c.1 = some n := by rw [hm c (List.mem_cons_self _ _), hn]
    simp [walk, h2, h1, hd]

/-! Section: `clear`. -/

theorem clearLoop_of_walk (l : List (Nat × T)) (m : Mem T) (k k' : Nat) (p : Option Nat)
    (h : walk m k p = some l) (hk : l.length ≤ k') :
    ∃ m', clearLoop k' m p = some m' ∧ m'.length = m.length ∧
      ∀ b, load m' b = if b ∈ l.map Prod.fst then none else load m b := by
  induction l generalizing m k k' p with
  | nil =>
    have hp := walk_nil h
    subst hp
    exact ⟨m, by cases k' <;> rfl, rfl, by simp⟩
  | cons c l ih =>
    have hnd := walk_nodup h
    obtain ⟨k₁, n, rfl, rfl, hn, hd, hw⟩ := walk_cons h
    simp only [List.map_cons, List.nodup_cons] at hnd
    cases k' with
    | zero => simp at hk
    | succ k' =>
      have hclt := load_lt hn
      have hw1 : walk (m.set c.1 none) k₁ n.next = some l := by
        refine walk_congr (fun d hd => ?_) hw
        have hdc : d.1 ≠ c.1 := fun e => hnd.1 (e ▸ List.mem_map_of_mem Prod.fst hd)
        simp [load_set, hdc]
      obtain ⟨m', h1, h2, h3⟩ := ih (m.set c.1 none) k₁ k' n.next hw1 (by simpa using hk)
      refine ⟨m', ?_, by simpa using h2, fun b => ?_⟩
      · simp [clearLoop, hn, delete, h1]
      · rw [h3 b, load_set]
        by_cases hb : b = c.1
        · subst hb
          simp [hclt]
        · simp only [hb, false_and, if_false, List.map_cons, List.mem_cons, false_or]

theorem clear_of_walk (s : LL T) (k : Nat) (cs : List (Nat × T))
    (h : walk s.mem k s.head = some cs) :
    ∃ m', clear s = some (ctor_default m') ∧ m'.length = s.mem.length ∧
      ∀ b, load m' b = if b ∈ cs.map Prod.fst then none else load s.mem b := by
  obtain ⟨m', h1, h2, h3⟩ := clearLoop_of_walk cs s.mem k s.mem.length s.head h (walk_length_le h)
  exact ⟨m', by simp [clear, h1, ctor_default], h2, h3⟩

/-- C18: on every list whose chain of `next` links from `head` is finite (some
number `k` of steps reaches null, through the nodes `cs`), `clear()` runs to
completion, destroys exactly the nodes of that chain, and leaves the
default-constructed state: `count` 0, `head` and `tail` null, so that `empty()`
is true and `begin()` equals `end()`. -/
theorem clear_correct (s : LL T) (k : Nat) (cs : List (Nat × T))
    (h : walk s.mem k s.head = some cs) :
    ∃ s', clear s = some s' ∧ s' = ctor_default s'.mem ∧
      s'.count = 0 ∧ s'.head = none ∧ s'.tail = none ∧
      empty s' = true ∧ «begin» s' = «end» s' ∧
      ∀ b, load s'.mem b = if b ∈ cs.map Prod.fst then none else load s.mem b := by
  obtain ⟨m', h1, -, h3⟩ := clear_of_walk s k cs h
  exact ⟨_, h1, rfl, rfl, rfl, rfl, rfl, rfl, h3⟩

theorem clear_correct_witness :
    walk ex2.mem 2 ex2.head = some [(0, 10), (1, 20)] ∧
    ∃ s', clear ex2 = some s' ∧ s'.count = 0 ∧ s'.head = none ∧ s'.tail = none ∧
      empty s' = true := by
  obtain ⟨s', h1, -, h2, h3, h4, h5, -⟩ := clear_correct ex2 2 [(0, 10), (1, 20)] rfl
  exact ⟨rfl, s', h1, h2, h3, h4, h5⟩

/-! Section: equality of lists. -/

theorem eqLoop_of_Seg [DecidableEq T] (ml mr : Mem T) (cs ds : List (Nat × T))
    (p q : Option Nat) (k : Nat) (hl : Seg ml p cs none) (hr : Seg mr q ds none)
    (hlen : cs.length = ds.length) (hk : cs.length ≤ k) :
    eqLoop ml mr k (headOr cs none) (headOr ds none) =
      some (decide (cs.map Prod.snd = ds.map Prod.snd)) := by
  induction cs generalizing ds p q k with
  | nil =>
    have : ds = [] := List.length_eq_zero.1 hlen.symm
    subst this
    cases k <;> simp [headOr, eqLoop]
  | cons c cs ih =>
    cases ds with
    | nil => simp at hlen
    | cons d ds =>
      cases k with
      | zero => simp at hk
      | succ k =>
        have h := ih ds (some c.1) (some d.1) k hl.2 hr.2 (by simpa using hlen) (by simpa using hk)
        show eqLoop ml mr (k + 1) (some c.1) (some d.1) = _
        simp only [eqLoop, hl.1, deref, hr.1, Option.bind_eq_bind, Option.some_bind]
        by_cases hcd : c.2 = d.2
        · simp [hcd, h]
        · simp [hcd]

theorem begin_of_Chain {s : LL T} {cs : List (Nat × T)} (h : Chain s cs) :
    «begin» s = headOr cs none := by
  rw [«begin», h.2.2.1]
  cases cs <;> simp [empty, size, h.2.2.2, headOr]

theorem equal_of_Chain [DecidableEq T] (lhs rhs : LL T) (cs ds : List (Nat × T))
    (hl : Chain lhs cs) (hr : Chain rhs ds) :
    equal lhs rhs = some (decide (cs.map Prod.snd = ds.map Prod.snd)) := by
  by_cases hlen : cs.length = ds.length
  · have hk : cs.length ≤ lhs.mem.length := walk_length_le (cells_of_Chain hl)
    simp only [equal, size, hl.2.2.2, hr.2.2.2, hlen, ne_eq, not_true_eq_false, if_false,
      if_true, begin_of_Chain hl, begin_of_Chain hr]
    exact eqLoop_of_Seg lhs.mem rhs.mem cs ds none none _ hl.2.1 hr.2.1 hlen hk
  · have hne : cs.map Prod.snd ≠ ds.map Prod.snd := fun h =>
      hlen (by simpa using congrArg List.length h)
    simp [equal, size, hl.2.2.2, hr.2.2.2, hlen, hne]

/-! Section: what a call leaves untouched. -/

theorem setNext_frame {m m' : Mem T} {p x : Option Nat} (h : setNext m p x = some m') (b : Nat)
    (hb : some b ≠ p) : load m' b = load m b := by
  cases p with
  | none => simp [setNext] at h
  | some a =>
    cases hn : load m a with
    | none => simp [setNext, hn] at h
    | some n =>
      simp only [setNext, hn, Option.some.injEq] at h
      have hba : b ≠ a := fun e => hb (by rw [e])
      rw [← h, load_set]
      simp [hba]

theorem setPrev_frame {m m' : Mem T} {p x : Option Nat} (h : setPrev m p x = some m') (b : Nat)
    (hb : some b ≠ p) : load m' b = load m b := by
  cases p with
  | none => simp [setPrev] at h
  | some a =>
    cases hn : load m a with
    | none => simp [setPrev, hn] at h
    | some n =>
      simp only [setPrev, hn, Option.some.injEq] at h
      have hba : b ≠ a := fun e => hb (by rw [e])
      rw [← h, load_set]
      simp [hba]

theorem delete_frame {m m' : Mem T} {p : Option Nat} (h : delete m p = some m') (b : Nat)
    (hb : some b ≠ p) : load m' b = load m b := by
  cases p with
  | none =>
    simp only [delete, Option.some.injEq] at h
    rw [h]
  | some a =>
    cases hn : load m a with
    | none => simp [delete, hn] at h
    | some n =>
      simp only [delete, hn, Option.some.injEq] at h
      have hba : b ≠ a := fun e => hb (by rw [e])
      rw [← h, load_set]
      simp [hba]

theorem setNext_next {m m' : Mem T} {p x : Option Nat} (h : setNext m p x = some m') (c : Nat)
    (n n' : Node T) (hn : load m c = some n) (hx : x = n.next) (hn' : load m' c = some n') :
    n'.next = n.next := by
  by_cases hc : some c = p
  · subst hc
    simp only [setNext, hn, Option.some.injEq] at h
    rw [← h, load_set] at hn'
    simp only [load_lt hn, and_self, if_true, Option.some.injEq] at hn'
    rw [← hn', hx]
  · rw [setNext_frame h c hc, hn] at hn'
    rw [← Option.some.inj hn']

theorem insert_frame {s s' : LL T} {pos it : Option Nat} {v : T}
    (h : insert s pos v = some (s', it)) (b : Nat) (hlen : b ≠ s.mem.length)
    (ht : some b ≠ s.tail) (hh : some b ≠ s.head) (hp : some b ≠ pos)
    (hq : ∀ n, deref s.mem pos = some n → some b ≠ n.prev) :
    load s'.mem b = load s.mem b := by
  have h0 : load (alloc s.mem v).1 b = load s.mem b := by
    simp [alloc, load_append_single, hlen]
  have hnew : some b ≠ some s.mem.length := by simpa using hlen
  rw [← h0]
  unfold insert at h
  simp only [Option.bind_eq_bind] at h
  split_ifs at h with h1 h2 h3
  · simp only [Option.some.injEq, Prod.mk.injEq] at h
    rw [← h.1]
  · simp only [Option.bind_eq_some, Option.some.injEq, Prod.mk.injEq] at h
    obtain ⟨m1, h4, m2, h5, h6, -⟩ := h
    rw [← h6]
    simp only
    rw [setPrev_frame h5 b hnew, setNext_frame h4 b ht]
  · simp only [Option.bind_eq_some, Option.some.injEq, Prod.mk.injEq] at h
    obtain ⟨m1, h4, m2, h5, h6, -⟩ := h
    rw [← h6]
    simp only
    rw [setNext_frame h5 b hnew, setPrev_frame h4 b hh]
  · simp only [Option.bind_eq_some, Option.some.injEq, Prod.mk.injEq] at h
    obtain ⟨n, hn, m1, h4, m2, h5, m3, h6, m4, h7, h8, -⟩ := h
    rw [← h8]
    simp only
    have hnp : some b ≠ n.prev := by
      cases pos with
      | none => exact absurd rfl h2
      | some c =>
        simp only [deref, alloc, load_append_single] at hn
        split_ifs at hn with hc
        · simp only [Option.some.injEq] at hn
          rw [← hn]
          simp
        · exact hq n hn
    rw [setPrev_frame h7 b hp, setNext_frame h6 b hnp, setNext_frame h5 b hnew,
      setPrev_frame h4 b hnew]

theorem erase_frame {s s' : LL T} {pos it : Option Nat}
    (h : erase s pos = some (s', it)) (b : Nat) (hp : some b ≠ pos)
    (hq : ∀ n, deref s.mem pos = some n → some b ≠ n.prev ∧ some b ≠ n.next) :
    load s'.mem b = load s.mem b := by
  unfold erase at h
  simp only [Option.bind_eq_bind] at h
  split_ifs at h with h1 h2 h3
  · simp only [Option.some.injEq, Prod.mk.injEq] at h
    rw [← h.1]
  · simp only [Option.bind_eq_some, Option.some.injEq, Prod.mk.injEq, Prod.exists] at h
    obtain ⟨n, hn, m1, t1, h4, m2, h5, h6, -⟩ := h
    rw [← h6]
    simp only
    rw [delete_frame h5 b hp]
    rw [← h2] at hn
    split_ifs at h4 with h7
    · simp only [Option.map_eq_some', Prod.mk.injEq] at h4
      obtain ⟨m, h8, h9, -⟩ := h4
      rw [← h9]
      exact setPrev_frame h8 b (hq n hn).2
    · simp only [Option.some.injEq, Prod.mk.injEq] at h4
      rw [← h4.1]
  · simp only [Option.bind_eq_some, Option.some.injEq, Prod.mk.injEq] at h
    obtain ⟨n, hn, m1, h4, m2, h5, h6, -⟩ := h
    rw [← h6]
    simp only
    rw [← h3] at hn
    rw [delete_frame h5 b hp, setNext_frame h4 b (hq n hn).1]
  · simp only [Option.bind_eq_some, Option.some.injEq, Prod.mk.injEq] at h
    obtain ⟨n1, hn1, n2, hn2, m1, h4, n3, hn3, n4, hn4, m2, h5, n5, -, m3, h6, h7, -⟩ := h
    rw [← h7]
    simp only
    have e12 : n2 = n1 := Option.some.inj (hn2.symm.trans hn1)
    subst e12
    have hn3next : n3.next = n2.next := by
      cases pos with
      | none => simp [deref] at hn1
      | some c => exact setNext_next h4 c n2 n3 hn1 rfl hn3
    rw [delete_frame h6 b hp, setPrev_frame h5 b (by rw [hn3next]; exact (hq n2 hn1).2),
      setNext_frame h4 b (hq n2 hn1).1]

theorem push_front_frame {s s' : LL T} {v : T} (h : push_front s v = some s') (b : Nat)
    (hlen : b ≠ s.mem.length) (hh : some b ≠ s.head) : load s'.mem b = load s.mem b := by
  have h0 : load (alloc s.mem v).1 b = load s.mem b := by
    simp [alloc, load_append_single, hlen]
  have hnew : some b ≠ some s.mem.length := by simpa using hlen
  rw [← h0]
  unfold push_front at h
  simp only [Option.bind_eq_bind, Option.bind_eq_some, Option.some.injEq] at h
  obtain ⟨m1, h1, m2, h2, m3, h3, h4⟩ := h
  rw [← h4]
  simp only
  rw [← setPrev_frame h1 b hnew, ← setNext_frame h2 b hnew]
  split_ifs at h3
  · exact setPrev_frame h3 b hh
  · simp only [Option.some.injEq] at h3
    rw [h3]

theorem pop_back_frame {s s' : LL T} (h : pop_back s = some s') (b : Nat)
    (ht : some b ≠ s.tail) (hq : ∀ n, deref s.mem s.tail = some n → some b ≠ n.prev) :
    load s'.mem b = load s.mem b := by
  unfold pop_back at h
  simp only [Option.bind_eq_bind] at h
  split_ifs at h with h1 h2
  · simp only [Option.some.injEq] at h
    rw [← h]
  · simp only [Option.bind_eq_some, Option.some.injEq] at h
    obtain ⟨m1, h3, h4⟩ := h
    rw [← h4]
    exact delete_frame h3 b (by rw [h2.1]; exact ht)
  · simp only [Option.bind_eq_some, Option.some.injEq] at h
    obtain ⟨n, hn, m1, h3, m2, h4, h5⟩ := h
    rw [← h5]
    simp only
    rw [delete_frame h4 b ht, setNext_frame h3 b (hq n hn)]

/-! Section: valid calls on a list with an intact chain. -/

theorem headOr_mem (l : List (Nat × T)) (b : Nat) (h : some b = headOr l none) :
    b ∈ l.map Prod.fst := by
  cases l with
  | nil => simp [headOr] at h
  | cons c l =>
    simp only [headOr, Option.some.injEq] at h
    simp [h]

theorem lastOr_mem_none (l : List (Nat × T)) (b : Nat) (h : some b = lastOr l none) :
    b ∈ l.map Prod.fst := by
  rcases lastOr_mem l none with h1 | ⟨e, he, h1⟩
  · rw [h1] at h
    simp at h
  · rw [h1, Option.some.injEq] at h
    rw [h]
    exact List.mem_map_of_mem Prod.fst he

theorem Chain_links {s : LL T} {cs : List (Nat × T)} (h : Chain s cs) (c : Nat × T) (hc : c ∈ cs) :
    ∃ n, load s.mem c.1 = some n ∧ n.data = c.2 ∧
      (∀ b, some b = n.prev → b ∈ cs.map Prod.fst) ∧
      (∀ b, some b = n.next → b ∈ cs.map Prod.fst) := by
  obtain ⟨l₁, l₂, rfl⟩ := List.append_of_mem hc
  have hseg := h.2.1
  rw [Seg_append] at hseg
  obtain ⟨-, hl, -⟩ := hseg
  refine ⟨_, hl, rfl, fun b hb => ?_, fun b hb => ?_⟩
  · simp only at hb
    have := lastOr_mem_none l₁ b hb
    simp only [List.map_append, List.mem_append]
    exact Or.inl this
  · simp only at hb
    have := headOr_mem l₂ b hb
    simp only [List.map_append, List.map_cons, List.mem_append, List.mem_cons]
    exact Or.inr (Or.inr this)

theorem tail_mem {s : LL T} {cs : List (Nat × T)}
    (ht : s.tail = none ∨ s.tail = lastOr cs none) (b : Nat) (hb : some b = s.tail) :
    b ∈ cs.map Prod.fst := by
  rcases ht with ht | ht
  · rw [ht] at hb
    simp at hb
  · exact lastOr_mem_none cs b (ht ▸ hb)

theorem validPos_Chain {s : LL T} {cs : List (Nat × T)} (h : Chain s cs) {pos : Option Nat}
    (hv : validPos s pos) : pos = none ∨ ∃ c ∈ cs, pos = some c.1 := by
  rcases hv with hv | ⟨cs0, hcells, c, hc, hp⟩
  · exact Or.inl hv
  · rw [cells_of_Chain h] at hcells
    cases hcells
    exact Or.inr ⟨c, hc, hp⟩

theorem pos_links {s : LL T} {cs : List (Nat × T)} (h : Chain s cs) {pos : Option Nat}
    (hv : validPos s pos) (b : Nat) (hb : b ∉ cs.map Prod.fst) :
    some b ≠ pos ∧ ∀ n, deref s.mem pos = some n → some b ≠ n.prev ∧ some b ≠ n.next := by
  rcases validPos_Chain h hv with rfl | ⟨c, hc, rfl⟩
  · simp [deref]
  · obtain ⟨n, hn, -, hp, hx⟩ := Chain_links h c hc
    refine ⟨fun e => hb ?_, fun n' hn' => ?_⟩
    · rw [Option.some.inj e]
      exact List.mem_map_of_mem Prod.fst hc
    · simp only [deref, hn, Option.some.injEq] at hn'
      subst hn'
      exact ⟨fun e => hb (hp b e), fun e => hb (hx b e)⟩

theorem step_frame (s s' : LL T) (cs : List (Nat × T)) (op : Op T) (h : Chain s cs)
    (ht : s.tail = none ∨ s.tail = lastOr cs none) (hv : validOp s op)
    (hs : step s op = some s') (b : Nat) (hb : b ∉ cs.map Prod.fst) (hlen : b ≠ s.mem.length) :
    load s'.mem b = load s.mem b := by
  have hbt : some b ≠ s.tail := fun e => hb (tail_mem ht b e)
  have hbh : some b ≠ s.head := fun e => hb (headOr_mem cs b (h.2.2.1 ▸ e))
  cases op with
  | push_back v =>
    simp only [step, push_back_eq_insert, Option.map_eq_some', Prod.exists, exists_and_right,
      exists_eq_right] at hs
    obtain ⟨it, hs⟩ := hs
    exact insert_frame hs b hlen hbt hbh (by simp [«end»]) (by simp [«end», deref])
  | push_front v => exact push_front_frame hs b hlen hbh
  | pop_back =>
    refine pop_back_frame hs b hbt (fun n hn => ?_)
    have hv' : validPos s s.tail := by
      cases htl : s.tail with
      | none => exact Or.inl rfl
      | some t =>
        have := tail_mem ht t htl.symm
        obtain ⟨c, hc, hct⟩ := List.mem_map.1 this
        exact Or.inr ⟨cs, cells_of_Chain h, c, hc, by rw [hct]⟩
    exact ((pos_links h hv' b hb).2 n hn).1
  | pop_front =>
    simp only [step] at hs
    by_cases hh : s.head = none
    · simp only [pop_front, hh, if_true, Option.some.injEq] at hs
      rw [← hs]
    · rw [pop_front_eq_erase s hh] at hs
      simp only [Option.map_eq_some', Prod.exists, exists_and_right, exists_eq_right] at hs
      obtain ⟨it, hs⟩ := hs
      have hv' : validPos s s.head := by
        cases hhd : s.head with
        | none => exact absurd hhd hh
        | some t =>
          have := headOr_mem cs t (h.2.2.1 ▸ hhd.symm)
          obtain ⟨c, hc, hct⟩ := List.mem_map.1 this
          exact Or.inr ⟨cs, cells_of_Chain h, c, hc, by rw [hct]⟩
      exact erase_frame hs b hbh (pos_links h hv' b hb).2
  | insert pos v =>
    simp only [step, Option.map_eq_some', Prod.exists, exists_and_right, exists_eq_right] at hs
    obtain ⟨it, hs⟩ := hs
    have hp := pos_links h hv b hb
    exact insert_frame hs b hlen hbt hbh hp.1 (fun n hn => (hp.2 n hn).1)
  | erase pos =>
    simp only [step, Option.map_eq_some', Prod.exists, exists_and_right, exists_eq_right] at hs
    obtain ⟨it, hs⟩ := hs
    have hp := pos_links h hv b hb
    exact erase_frame hs b hp.1 hp.2
  | clear =>
    obtain ⟨m', h1, -, h3⟩ := clear_of_walk s _ cs (cells_of_Chain h)
    simp only [step, h1, Option.some.injEq] at hs
    rw [← hs]
    simp only [ctor_default]
    rw [h3 b]
    simp [hb]

theorem step_Chain_valid (s s' : LL T) (cs : List (Nat × T)) (op : Op T) (h : Chain s cs)
    (ht : s.tail = none ∨ s.tail = lastOr cs none) (hv : validOp s op)
    (hs : step s op = some s') :
    ∃ cs', Chain s' cs' ∧ (s'.tail = none ∨ s'.tail = lastOr cs' none) ∧
      (∀ x ∈ cs', x ∈ cs ∨ x.1 = s.mem.length) ∧
      (op ≠ .clear → ∀ x ∈ cs, some x.1 ≠ removed s op → x ∈ cs') := by
  have hins : ∀ pos v, validPos s pos → ∀ it, insert s pos v = some (s', it) →
      ∃ cs', Chain s' cs' ∧ (s'.tail = none ∨ s'.tail = lastOr cs' none) ∧
        (∀ x ∈ cs', x ∈ cs ∨ x.1 = s.mem.length) ∧ (∀ x ∈ cs, x ∈ cs') := by
    intro pos v hv it hs
    by_cases hnil : cs = []
    · subst hnil
      obtain ⟨s₁, h1, h2, h3⟩ := insert_empty s pos v h
      simp only [h1, Option.some.injEq, Prod.mk.injEq] at hs
      rw [← hs.1]
      exact ⟨_, h2, Or.inr (by simpa [lastOr] using h3), by simp, by simp⟩
    rcases validPos_Chain h hv with rfl | ⟨c, hc, rfl⟩
    · rcases List.eq_nil_or_concat cs with rfl | ⟨l₀, t, rfl⟩
      · exact absurd rfl hnil
      · simp only [List.concat_eq_append] at h ht ⊢
        rcases ht with ht | ht
        · rw [insert_end_no_tail s _ v h (by simp) ht] at hs
          exact absurd hs (by simp)
        · obtain ⟨s₁, h1, h2, h3⟩ :=
            insert_back s l₀ t v h (by simpa [lastOr_append, lastOr] using ht)
          simp only [h1, Option.some.injEq, Prod.mk.injEq] at hs
          rw [← hs.1]
          refine ⟨_, h2, Or.inr (by simpa [lastOr_append, lastOr] using h3), ?_, ?_⟩
          · intro x hx
            simp only [List.mem_append, List.mem_cons, List.mem_singleton, List.not_mem_nil,
              or_false] at hx ⊢
            rcases hx with hx | hx | hx
            · exact Or.inl (Or.inl hx)
            · exact Or.inl (Or.inr hx)
            · exact Or.inr (by rw [hx])
          · intro x hx
            simp only [List.mem_append, List.mem_cons, List.mem_singleton, List.not_mem_nil,
              or_false] at hx ⊢
            tauto
    · obtain ⟨l₁, l₂, rfl⟩ := List.append_of_mem hc
      rcases List.eq_nil_or_concat l₁ with rfl | ⟨l₀, q, rfl⟩
      · obtain ⟨s₁, h1, h2, h3⟩ := insert_front s l₂ c v h
        simp only [h1, Option.some.injEq, Prod.mk.injEq] at hs
        rw [← hs.1]
        refine ⟨_, h2, ?_, ?_, ?_⟩
        · rw [h3]
          simpa [lastOr] using ht
        · intro x hx
          simp only [List.nil_append, List.mem_cons] at hx ⊢
          rcases hx with hx | hx
          · exact Or.inr (by rw [hx])
          · exact Or.inl hx
        · intro x hx
          simp only [List.nil_append, List.mem_cons] at hx ⊢
          tauto
      · simp only [List.concat_eq_append, List.append_assoc, List.singleton_append] at h ht ⊢
        obtain ⟨s₁, h1, h2, h3⟩ := insert_mid s l₀ l₂ q c v h
        simp only [h1, Option.some.injEq, Prod.mk.injEq] at hs
        rw [← hs.1]
        refine ⟨_, h2, ?_, ?_, ?_⟩
        · rw [h3]
          simpa [lastOr_append, lastOr] using ht
        · intro x hx
          simp only [List.mem_append, List.mem_cons] at hx ⊢
          rcases hx with hx | hx | hx | hx
          · exact Or.inl (Or.inl hx)
          · exact Or.inl (Or.inr (Or.inl hx))
          · exact Or.inr (by rw [hx])
          · exact Or.inl (Or.inr (Or.inr hx))
        · intro x hx
          simp only [List.mem_append, List.mem_cons] at hx ⊢
          tauto
  have hera : ∀ pos, validPos s pos → ∀ it, erase s pos = some (s', it) →
      ∃ cs', Chain s' cs' ∧ (s'.tail = none ∨ s'.tail = lastOr cs' none) ∧
        (∀ x ∈ cs', x ∈ cs) ∧ (∀ x ∈ cs, some x.1 ≠ pos → x ∈ cs') := by
    intro pos hv it hs
    rcases validPos_Chain h hv with rfl | ⟨c, hc, rfl⟩
    · simp only [erase, «end», if_true, Option.some.injEq, Prod.mk.injEq] at hs
      rw [← hs.1]
      exact ⟨cs, h, ht, fun x hx => hx, fun x hx _ => hx⟩
    · obtain ⟨l₁, l₂, rfl⟩ := List.append_of_mem hc
      have hsub : ∀ x ∈ l₁ ++ l₂, x ∈ l₁ ++ c :: l₂ := by
        intro x hx
        simp only [List.mem_append, List.mem_cons] at hx ⊢
        tauto
      have hsup : ∀ x ∈ l₁ ++ c :: l₂, some x.1 ≠ some c.1 → x ∈ l₁ ++ l₂ := by
        intro x hx hne
        simp only [List.mem_append, List.mem_cons] at hx ⊢
        rcases hx with hx | hx | hx
        · exact Or.inl hx
        · exact absurd (by rw [hx]) hne
        · exact Or.inr hx
      rcases List.eq_nil_or_concat l₁ with rfl | ⟨l₀, q, rfl⟩
      · obtain ⟨s₁, h1, h2, h3⟩ := erase_head s l₂ c h
        simp only [h1, Option.some.injEq, Prod.mk.injEq] at hs
        rw [← hs.1]
        refine ⟨_, h2, ?_, hsub, hsup⟩
        rw [h3]
        cases l₂ with
        | nil => simp
        | cons d l₃ => simpa [lastOr] using ht
      · simp only [List.concat_eq_append, List.append_assoc, List.singleton_append]
          at h ht hsub hsup ⊢
        have hnd := h.1
        simp only [List.Nodup, List.pairwise_map, List.pairwise_append, List.pairwise_cons,
          List.mem_cons, forall_eq_or_imp] at hnd
        obtain ⟨-, ⟨-, hc2, -⟩, -⟩ := hnd
        cases l₂ with
        | nil =>
          by_cases htl : s.tail = some c.1
          · obtain ⟨s₁, h1, h2, h3⟩ := erase_last s l₀ q c h htl
            simp only [h1, Option.some.injEq, Prod.mk.injEq] at hs
            rw [← hs.1]
            exact ⟨_, h2, Or.inr (by simpa [lastOr_append, lastOr] using h3), hsub, hsup⟩
          · rw [erase_last_no_tail s l₀ q c h htl] at hs
            exact absurd hs (by simp)
        | cons d l₃ =>
          have htl : s.tail ≠ some c.1 := by
            rcases ht with ht | ht
            · simp [ht]
            · rw [ht]
              simp only [lastOr_append, lastOr]
              simp only [List.mem_cons, forall_eq_or_imp] at hc2
              exact lastOr_cons_ne l₃ c _ hc2.2 (by simpa using Ne.symm hc2.1)
          obtain ⟨s₁, h1, h2, h3⟩ := erase_mid s l₀ l₃ q c d h htl
          simp only [h1, Option.some.injEq, Prod.mk.injEq] at hs
          rw [← hs.1]
          refine ⟨_, h2, ?_, hsub, hsup⟩
          rw [h3]
          simpa [lastOr_append, lastOr] using ht
  cases op with
  | push_back v =>
    simp only [step, push_back_eq_insert, Option.map_eq_some', Prod.exists, exists_and_right,
      exists_eq_right] at hs
    obtain ⟨it, hs⟩ := hs
    obtain ⟨cs', h1, h2, h3, h4⟩ := hins _ v (Or.inl rfl) it hs
    exact ⟨cs', h1, h2, h3, fun _ x hx _ => h4 x hx⟩
  | push_front v =>
    simp only [step] at hs
    obtain ⟨s₁, h1, h2, h3⟩ := push_front_chain s cs v h
    simp only [h1, Option.some.injEq] at hs
    rw [← hs]
    refine ⟨_, h2, ?_, ?_, fun _ x hx _ => List.mem_cons_of_mem _ hx⟩
    · rw [h3]
      rcases ht with ht | ht
      · exact Or.inl ht
      · cases cs with
        | nil => exact Or.inl ht
        | cons c l => exact Or.inr ht
    · intro x hx
      rcases List.mem_cons.1 hx with hx | hx
      · exact Or.inr (by rw [hx])
      · exact Or.inl hx
  | pop_back =>
    simp only [step] at hs
    by_cases hne : cs = []
    · subst hne
      have hc : s.count = 0 := h.2.2.2
      simp only [pop_back, empty, size, hc, beq_self_eq_true, if_true, Option.some.injEq] at hs
      rw [← hs]
      exact ⟨[], h, ht, by simp, by simp⟩
    · rcases ht with ht | ht
      · rw [pop_back_no_tail s cs h hne ht] at hs
        exact absurd hs (by simp)
      · obtain ⟨s₁, h1, h2⟩ := pop_back_Inv s cs ⟨h, ht⟩ hne
        rw [h1, Option.some.injEq] at hs
        rw [← hs]
        refine ⟨_, h2.1, Or.inr h2.2, fun x hx => Or.inl (List.mem_of_mem_dropLast hx), ?_⟩
        intro _ x hx hrem
        rcases List.eq_nil_or_concat cs with rfl | ⟨l, c, rfl⟩
        · exact absurd rfl hne
        · simp only [List.concat_eq_append, List.dropLast_concat, lastOr_append, lastOr,
            List.mem_append, List.mem_singleton, removed] at ht hx hrem ⊢
          rcases hx with hx | hx
          · exact hx
          · exact absurd (by rw [ht, hx]) hrem
  | pop_front =>
    simp only [step] at hs
    cases cs with
    | nil =>
      have hh : s.head = none := h.2.2.1
      simp only [pop_front, hh, if_true, Option.some.injEq] at hs
      rw [← hs]
      exact ⟨[], h, ht, by simp, by simp⟩
    | cons c l₂ =>
      have hh : s.head = some c.1 := h.2.2.1
      rw [pop_front_eq_erase s (by simp [hh]), hh] at hs
      simp only [Option.map_eq_some', Prod.exists, exists_and_right, exists_eq_right] at hs
      obtain ⟨it, hs⟩ := hs
      have hv' : validPos s (some c.1) :=
        Or.inr ⟨_, cells_of_Chain h, c, List.mem_cons_self _ _, rfl⟩
      obtain ⟨cs', h1, h2, h3, h4⟩ := hera _ hv' it hs
      exact ⟨cs', h1, h2, fun x hx => Or.inl (h3 x hx), fun _ x hx hr => h4 x hx (by
        simpa [removed, hh] using hr)⟩
  | insert pos v =>
    simp only [step, Option.map_eq_some', Prod.exists, exists_and_right, exists_eq_right] at hs
    obtain ⟨it, hs⟩ := hs
    obtain ⟨cs', h1, h2, h3, h4⟩ := hins pos v hv it hs
    exact ⟨cs', h1, h2, h3, fun _ x hx _ => h4 x hx⟩
  | erase pos =>
    simp only [step, Option.map_eq_some', Prod.exists, exists_and_right, exists_eq_right] at hs
    obtain ⟨it, hs⟩ := hs
    obtain ⟨cs', h1, h2, h3, h4⟩ := hera pos hv it hs
    exact ⟨cs', h1, h2, fun x hx => Or.inl (h3 x hx), fun _ x hx hr => h4 x hx hr⟩
  | clear =>
    obtain ⟨m', h1, -, -⟩ := clear_of_walk s _ cs (cells_of_Chain h)
    simp only [step, h1, Option.some.injEq] at hs
    rw [← hs]
    exact ⟨[], (ctor_default_Inv m').1, Or.inl rfl, by simp, fun hc => absurd rfl hc⟩

/-! Section: every valid call on a well-formed list runs to completion. -/

theorem step_complete (s : LL T) (cs : List (Nat × T)) (op : Op T) (h : Inv s cs)
    (hv : validOp s op) : ∃ s', step s op = some s' := by
  cases op with
  | push_back v =>
    obtain ⟨s', h1, -⟩ := push_back_Inv s cs v h
    exact ⟨s', h1⟩
  | push_front v =>
    obtain ⟨s', h1, -⟩ := push_front_chain s cs v h.1
    exact ⟨s', h1⟩
  | pop_back =>
    by_cases hne : cs = []
    · subst hne
      have hc : s.count = 0 := h.1.2.2.2
      exact ⟨s, by simp [step, pop_back, empty, size, hc]⟩
    · obtain ⟨s', h1, -⟩ := pop_back_Inv s cs h hne
      exact ⟨s', h1⟩
  | pop_front =>
    cases cs with
    | nil =>
      have hh : s.head = none := h.1.2.2.1
      exact ⟨s, by simp [step, pop_front, hh]⟩
    | cons c l₂ =>
      have hh : s.head = some c.1 := h.1.2.2.1
      obtain ⟨s', h1, -⟩ := erase_split s [] l₂ c (by simpa using h)
      exact ⟨s', by simp [step, pop_front_eq_erase s (by simp [hh]), hh, h1]⟩
  | insert pos v =>
    rcases validPos_Chain h.1 hv with rfl | ⟨c, hc, rfl⟩
    · obtain ⟨s', h1, -⟩ := insert_split s cs [] v (by simpa using h)
      exact ⟨s', by simpa [step, headOr] using congrArg (Option.map Prod.fst) h1⟩
    · obtain ⟨l₁, l₂, rfl⟩ := List.append_of_mem hc
      obtain ⟨s', h1, -⟩ := insert_split s l₁ (c :: l₂) v h
      exact ⟨s', by simpa [step, headOr] using congrArg (Option.map Prod.fst) h1⟩
  | erase pos =>
    rcases validPos_Chain h.1 hv with rfl | ⟨c, hc, rfl⟩
    · exact ⟨s, by simp [step, erase, «end»]⟩
    · obtain ⟨l₁, l₂, rfl⟩ := List.append_of_mem hc
      obtain ⟨s', h1, -⟩ := erase_split s l₁ l₂ c h
      exact ⟨s', by simp [step, h1]⟩
  | clear =>
    obtain ⟨m', h1, -⟩ := clear_of_walk s _ cs (cells_of_Chain h.1)
    exact ⟨_, h1⟩

theorem star_of_Chain {s : LL T} {cs : List (Nat × T)} (h : Chain s cs) (c : Nat × T)
    (hc : c ∈ cs) : star s (some c.1) = some c.2 := by
  have := Seg_data h.2.1 c hc
  simpa [star, deref] using this

theorem ex3_Inv : Inv ex3 [(0, 1), (1, 2), (2, 3)] := by
  simp [Inv, Chain, Seg, headOr, lastOr, load, ex3]

/-- C14: on a list satisfying the invariants with cells `cs`, every call of
`insert`, `erase`, `push_back`, `push_front`, `pop_back` or `pop_front` with a
valid iterator argument runs to completion, and every node of the list other
than the one the call removes is a node of the list afterwards, at the same
address and with the same element: an iterator taken to it before the call
dereferences to the same element after it. -/
theorem nodes_stable (s : LL T) (cs : List (Nat × T)) (op : Op T) (hinv : Inv s cs)
    (hv : validOp s op) (hop : op ≠ .clear) :
    cells s = some cs ∧
    ∃ s' cs', step s op = some s' ∧ cells s' = some cs' ∧
      ∀ c ∈ cs, some c.1 ≠ removed s op →
        star s (some c.1) = some c.2 ∧ c ∈ cs' ∧ star s' (some c.1) = some c.2 := by
  obtain ⟨s', hs⟩ := step_complete s cs op hinv hv
  obtain ⟨cs', h1, -, -, h4⟩ := step_Chain_valid s s' cs op hinv.1 (Or.inr hinv.2) hv hs
  refine ⟨cells_of_Chain hinv.1, s', cs', hs, cells_of_Chain h1, fun c hc hr => ?_⟩
  exact ⟨star_of_Chain hinv.1 c hc, h4 hop c hc hr, star_of_Chain h1 c (h4 hop c hc hr)⟩

theorem nodes_stable_witness :
    Inv ex3 [(0, 1), (1, 2), (2, 3)] ∧ star ex3 (some 1) = some 2 ∧
    ∃ s', step ex3 (.erase («begin» ex3)) = some s' ∧ star s' (some 1) = some 2 := by
  have hv : validOp ex3 (.erase («begin» ex3)) :=
    Or.inr ⟨[(0, 1), (1, 2), (2, 3)], rfl, (0, 1), by simp, rfl⟩
  obtain ⟨-, s', cs', h1, -, h3⟩ :=
    nodes_stable ex3 [(0, 1), (1, 2), (2, 3)] (.erase («begin» ex3)) ex3_Inv hv (by simp)
  have h := h3 (1, 2) (by simp) (by simp [removed, «begin», empty, size, ex3])
  exact ⟨ex3_Inv, h.1, s', h1, h.2.2⟩

/-! Section: moving a list. -/

theorem Chain_congr {s s' : LL T} {cs : List (Nat × T)} (h : Chain s cs)
    (hm : ∀ c ∈ cs, load s'.mem c.1 = load s.mem c.1) (hh : s'.head = s.head)
    (hc : s'.count = s.count) : Chain s' cs :=
  ⟨h.1, Seg_congr hm h.2.1, by rw [hh, h.2.2.1], by rw [hc, h.2.2.2]⟩

/-- C12: for every list `source` whose chain is intact with cells `xs`: the move
constructor gives a list with the nodes and elements `xs` in order and size the
length of `xs`, and leaves `source` empty with `head` and `tail` null; and so
does the move assignment into any distinct list `target` of the same store
whose own chain is intact and shares no node with `source`. -/
theorem move_correct (source target : LL T) (xs ts : List (Nat × T)) (hs : Chain source xs)
    (ht : Chain target ts) (hmem : target.mem = source.mem)
    (hdisj : ∀ x ∈ xs, x.1 ∉ ts.map Prod.fst) :
    toList source = some (xs.map Prod.snd) ∧
    (Chain (ctor_move source).1 xs ∧ (ctor_move source).1.tail = source.tail ∧
      toList (ctor_move source).1 = some (xs.map Prod.snd) ∧
      size (ctor_move source).1 = xs.length ∧
      empty (ctor_move source).2 = true ∧ (ctor_move source).2.head = none ∧
      (ctor_move source).2.tail = none) ∧
    ∃ moved src, assign_move target source false = some (moved, src) ∧
      Chain moved xs ∧ moved.tail = source.tail ∧
      toList moved = some (xs.map Prod.snd) ∧ size moved = xs.length ∧
      empty src = true ∧ src.head = none ∧ src.tail = none := by
  have hc : Chain (ctor_move source).1 xs := hs
  refine ⟨toList_of_Chain hs, ⟨hc, rfl, toList_of_Chain hc, hs.2.2.2, rfl, rfl, rfl⟩, ?_⟩
  obtain ⟨m', h1, -, h3⟩ := clear_of_walk target _ ts (cells_of_Chain ht)
  have hm : Chain (LL.mk source.count source.head source.tail m') xs := by
    refine Chain_congr hs (fun c hc => ?_) rfl rfl
    simp only
    rw [h3 c.1, hmem]
    simp [hdisj c hc]
  refine ⟨LL.mk source.count source.head source.tail m', LL.mk 0 none none m',
    by simp [assign_move, h1, ctor_default], hm, rfl, toList_of_Chain hm, hs.2.2.2,
    rfl, rfl, rfl⟩

theorem move_correct_witness :
    Chain ex2 [(0, 10), (1, 20)] ∧ Chain ex2_target [] ∧
    ∃ moved src, assign_move ex2_target ex2 false = some (moved, src) ∧
      toList moved = some [10, 20] ∧ empty src = true := by
  have h2 : Chain ex2 [(0, 10), (1, 20)] := ex2_Inv.1
  have h0 : Chain ex2_target [] := (ctor_default_Inv ex2.mem).1
  obtain ⟨-, -, moved, src, h1, -, -, h3, -, h4, -⟩ :=
    move_correct ex2 ex2_target [(0, 10), (1, 20)] [] h2 h0 rfl (by simp)
  exact ⟨h2, h0, moved, src, h1, h3, h4⟩

/-! Section: copying a list. -/

theorem Steps_isolated (a a' b : LL T) (as bs : List (Nat × T)) (ha : Chain a as)
    (hta : a.tail = none ∨ a.tail = lastOr as none) (hb : Chain b bs) (hmem : b.mem = a.mem)
    (hdisj : ∀ x ∈ bs, x.1 ∉ as.map Prod.fst) (hst : Steps a a') :
    ∃ as', Chain a' as' ∧ (a'.tail = none ∨ a'.tail = lastOr as' none) ∧
      (∀ x ∈ bs, x.1 ∉ as'.map Prod.fst) ∧ Chain { b with mem := a'.mem } bs := by
  induction hst with
  | refl =>
    refine ⟨as, ha, hta, hdisj, ?_⟩
    rw [← hmem]
    exact hb
  | @next s₁ s₂ op _ hv hs ih =>
    obtain ⟨as₁, h1, h2, h3, h4⟩ := ih
    obtain ⟨as₂, h5, h6, h7, -⟩ := step_Chain_valid s₁ s₂ as₁ op h1 h2 hv hs
    have hlt := Seg_lt h4.2.1
    have hfr : ∀ x ∈ bs, load s₂.mem x.1 = load s₁.mem x.1 := fun x hx =>
      step_frame s₁ s₂ as₁ op h1 h2 hv hs x.1 (h3 x hx) (hlt x hx).ne
    refine ⟨as₂, h5, h6, fun x hx hmem' => ?_, Chain_congr h4 hfr rfl rfl⟩
    obtain ⟨y, hy, hyx⟩ := List.mem_map.1 hmem'
    rcases h7 y hy with hy' | hy'
    · exact h3 x hx (hyx ▸ List.mem_map_of_mem Prod.fst hy')
    · exact (hlt x hx).ne (hyx ▸ hy')

theorem disjoint_symm {as bs : List (Nat × T)} (h : ∀ x ∈ bs, x.1 ∉ as.map Prod.fst) :
    ∀ x ∈ as, x.1 ∉ bs.map Prod.fst := by
  intro x hx hmem
  obtain ⟨y, hy, hyx⟩ := List.mem_map.1 hmem
  exact h y hy (hyx ▸ List.mem_map_of_mem Prod.fst hx)

theorem step_isolated (a a' b : LL T) (as bs : List (Nat × T)) (op : Op T) (ha : Chain a as)
    (hta : a.tail = none ∨ a.tail = lastOr as none) (hb : Chain b bs) (hmem : b.mem = a.mem)
    (hdisj : ∀ x ∈ bs, x.1 ∉ as.map Prod.fst) (hv : validOp a op) (hs : step a op = some a') :
    ∃ as', Chain a' as' ∧ (a'.tail = none ∨ a'.tail = lastOr as' none) ∧
      (∀ x ∈ bs, x.1 ∉ as'.map Prod.fst) ∧ Chain { b with mem := a'.mem } bs :=
  Steps_isolated a a' b as bs ha hta hb hmem hdisj (Steps.next op Steps.refl hv hs)

theorem assign_move_isolated (a b : LL T) (as bs : List (Nat × T)) (ha : Chain a as)
    (hb : Chain b bs) (hmem : b.mem = a.mem) (hdisj : ∀ x ∈ bs, x.1 ∉ as.map Prod.fst)
    (r : LL T × LL T) (h : assign_move a b false = some r) :
    r.2.mem = r.1.mem ∧ Chain r.1 bs ∧ r.1.tail = b.tail ∧ Chain r.2 [] ∧ r.2.tail = none := by
  obtain ⟨m', h1, -, h3⟩ := clear_of_walk a _ as (cells_of_Chain ha)
  simp only [assign_move, Bool.false_eq_true, if_false, h1, ctor_default, Option.bind_eq_bind,
    Option.some_bind, Option.some.injEq] at h
  rw [← h]
  refine ⟨rfl, Chain_congr hb (fun c hc => ?_) rfl rfl, rfl, (ctor_default_Inv m').1, rfl⟩
  simp only
  rw [h3 c.1, hmem]
  simp [hdisj c hc]

theorem wstep_WInv (w w' : World T) (as bs : List (Nat × T)) (op : WOp T) (h : WInv w as bs)
    (hv : wvalid w op) (hs : wstep w op = some w') : ∃ as' bs', WInv w' as' bs' := by
  obtain ⟨hmem, ha, hta, hb, htb, hd⟩ := h
  cases op with
  | on_this op =>
    simp only [wstep, Option.map_eq_some'] at hs
    obtain ⟨s, hs, rfl⟩ := hs
    obtain ⟨as', h1, h2, h3, h4⟩ := step_isolated w.this s w.other as bs op ha hta hb hmem hd hv hs
    exact ⟨as', bs, rfl, h1, h2, h4, htb, h3⟩
  | on_other op =>
    simp only [wstep, Option.map_eq_some'] at hs
    obtain ⟨s, hs, rfl⟩ := hs
    obtain ⟨bs', h1, h2, h3, h4⟩ :=
      step_isolated w.other s w.this bs as op hb htb ha hmem.symm (disjoint_symm hd) hv hs
    exact ⟨as, bs', rfl, h4, hta, h1, h2, disjoint_symm h3⟩
  | swap =>
    simp only [wstep, swap, Option.some.injEq] at hs
    rw [← hs]
    refine ⟨bs, as, rfl, Chain_congr hb (fun c _ => ?_) rfl rfl, htb,
      Chain_congr ha (fun c _ => rfl) rfl rfl, hta, disjoint_symm hd⟩
    simp only
    rw [hmem]
  | move_assign_this =>
    simp only [wstep, Option.map_eq_some'] at hs
    obtain ⟨r, hr, rfl⟩ := hs
    obtain ⟨h1, h2, h3, h4, h5⟩ := assign_move_isolated w.this w.other as bs ha hb hmem hd r hr
    exact ⟨bs, [], h1, h2, by rw [h3]; exact htb, h4, Or.inl h5, by simp⟩
  | move_assign_other =>
    simp only [wstep, Option.map_eq_some'] at hs
    obtain ⟨r, hr, rfl⟩ := hs
    obtain ⟨h1, h2, h3, h4, h5⟩ :=
      assign_move_isolated w.other w.this bs as hb ha hmem.symm (disjoint_symm hd) r hr
    exact ⟨[], as, h1.symm, h4, Or.inl h5, h2, by rw [h3]; exact hta, by simp⟩
  | move_ctor_this =>
    simp only [wstep, ctor_move, Option.some.injEq] at hs
    rw [← hs]
    exact ⟨bs, [], rfl, hb, htb, (ctor_default_Inv _).1, Or.inl rfl, by simp⟩
  | move_ctor_other =>
    simp only [wstep, ctor_move, Option.some.injEq] at hs
    rw [← hs]
    exact ⟨[], as, rfl, (ctor_default_Inv _).1, Or.inl rfl, ha, hta, by simp⟩

theorem WReach_WInv {w : World T} (h : WReach w) : ∃ as bs, WInv w as bs := by
  induction h with
  | init =>
    exact ⟨[], [], rfl, (ctor_default_Inv []).1, Or.inl rfl, (ctor_default_Inv []).1, Or.inl rfl,
      by simp⟩
  | next op _ hv hs ih =>
    obtain ⟨as, bs, hw⟩ := ih
    exact wstep_WInv _ _ as bs op hw hv hs

theorem count_zero_iff {s : LL T} {cs : List (Nat × T)} (h : Chain s cs)
    (ht : s.tail = none ∨ s.tail = lastOr cs none) :
    s.count = 0 ↔ s.head = none ∧ s.tail = none := by
  obtain ⟨-, -, hh, hc⟩ := h
  cases cs with
  | nil =>
    simp only [headOr, lastOr, or_self] at hh ht
    simp [hh, ht, hc]
  | cons c l => simp [hh, hc, headOr]

/-- C19 (amended): in every state reached from default-constructed lists by a
finite sequence of `push_back`, `push_front`, `pop_back`, `pop_front`, `insert`,
`erase`, `clear`, `swap` and move operations (two lists, so that `swap` and the
moves have a second list to act on), each run to completion and each with an
iterator argument that is `end()` or an iterator to a node of the list the call
is made on, each list has `count == 0` exactly when its `head` and `tail` are
both null. -/
theorem count_zero_iff_empty (w : World T) (h : WReach w) :
    (w.this.count = 0 ↔ w.this.head = none ∧ w.this.tail = none) ∧
    (w.other.count = 0 ↔ w.other.head = none ∧ w.other.tail = none) := by
  obtain ⟨as, bs, -, ha, hta, hb, htb, -⟩ := WReach_WInv h
  exact ⟨count_zero_iff ha hta, count_zero_iff hb htb⟩

theorem count_zero_iff_empty_witness :
    WReach (⟨ex1, { (empty_list : LL Nat) with mem := ex1.mem }⟩ : World Nat) ∧
    (ex1.count = 0 ↔ ex1.head = none ∧ ex1.tail = none) := by
  have hr : WReach (⟨ex1, { (empty_list : LL Nat) with mem := ex1.mem }⟩ : World Nat) :=
    WReach.next (.on_this (.push_back 5)) WReach.init trivial rfl
  exact ⟨hr, (count_zero_iff_empty _ hr).1⟩

/-! Section: calls on a list whose `count` and `tail` are arbitrary. -/

theorem SymChain_Chain {s : LL T} {cs : List (Nat × T)} (h : SymChain s cs) :
    Chain { s with count := cs.length } cs :=
  ⟨h.1, h.2.1, h.2.2, rfl⟩

theorem erase_count (s : LL T) (k : Nat) (pos : Option Nat) :
    (erase { s with count := k } pos).map (fun r => (r.1.head, r.1.mem, r.2)) =
      (erase s pos).map (fun r => (r.1.head, r.1.mem, r.2)) := by
  unfold erase «end»
  simp only
  split_ifs with h1 h2 h3
  · rfl
  · cases deref s.mem s.head with
    | none => rfl
    | some n =>
      simp only [Option.bind_eq_bind, Option.some_bind]
      cases (if n.next ≠ none then (setPrev s.mem n.next none).map (fun m => (m, s.tail))
        else some (s.mem, none)) with
      | none => rfl
      | some r =>
        simp only [Option.some_bind]
        cases delete r.1 pos <;> rfl
  · cases deref s.mem s.tail with
    | none => rfl
    | some n =>
      simp only [Option.bind_eq_bind, Option.some_bind]
      cases setNext s.mem n.prev none with
      | none => rfl
      | some m1 =>
        simp only [Option.some_bind]
        cases delete m1 pos <;> rfl
  · cases deref s.mem pos with
    | none => rfl
    | some n =>
      simp only [Option.bind_eq_bind, Option.some_bind]
      cases setNext s.mem n.prev n.next with
      | none => rfl
      | some m1 =>
        simp only [Option.some_bind]
        cases deref m1 pos with
        | none => rfl
        | some n1 =>
          simp only [Option.some_bind]
          cases setPrev m1 n1.next n1.prev with
          | none => rfl
          | some m2 =>
            simp only [Option.some_bind]
            cases deref m2 pos with
            | none => rfl
            | some n2 =>
              simp only [Option.some_bind]
              cases delete m2 pos <;> rfl

theorem insert_count (s : LL T) (k : Nat) (pos : Option Nat) (v : T) (hk : k ≠ 0)
    (hc : s.count ≠ 0) :
    (insert { s with count := k } pos v).map (fun r => (r.1.head, r.1.mem, r.2)) =
      (insert s pos v).map (fun r => (r.1.head, r.1.mem, r.2)) := by
  unfold insert alloc
  simp only [empty, size, beq_iff_eq, hk, hc, if_false]
  split_ifs with h2 h3
  · cases setNext (s.mem ++ [some { data := v, prev := none, next := none }]) s.tail
        (some s.mem.length) with
    | none => rfl
    | some m1 =>
      simp only [Option.bind_eq_bind, Option.some_bind]
      cases setPrev m1 (some s.mem.length) s.tail <;> rfl
  · cases setPrev (s.mem ++ [some { data := v, prev := none, next := none }]) s.head
        (some s.mem.length) with
    | none => rfl
    | some m1 =>
      simp only [Option.bind_eq_bind, Option.some_bind]
      cases setNext m1 (some s.mem.length) s.head <;> rfl
  · cases deref (s.mem ++ [some { data := v, prev := none, next := none }]) pos with
    | none => rfl
    | some n =>
      simp only [Option.bind_eq_bind, Option.some_bind]
      cases setPrev (s.mem ++ [some { data := v, prev := none, next := none }])
          (some s.mem.length) n.prev with
      | none => rfl
      | some m1 =>
        simp only [Option.some_bind]
        cases setNext m1 (some s.mem.length) pos with
        | none => rfl
        | some m2 =>
          simp only [Option.some_bind]
          cases setNext m2 n.prev (some s.mem.length) with
          | none => rfl
          | some m3 =>
            simp only [Option.some_bind]
            cases setPrev m3 pos (some s.mem.length) <;> rfl

theorem push_front_count (s : LL T) (k : Nat) (v : T) :
    (push_front { s with count := k } v).map (fun r => (r.head, r.mem)) =
      (push_front s v).map (fun r => (r.head, r.mem)) := by
  unfold push_front alloc
  simp only [Option.bind_eq_bind]
  cases setPrev (s.mem ++ [some { data := v, prev := none, next := none }])
      (some s.mem.length) none with
  | none => rfl
  | some m1 =>
    simp only [Option.some_bind]
    cases setNext m1 (some s.mem.length) s.head with
    | none => rfl
    | some m2 =>
      simp only [Option.some_bind]
      cases (if s.head ≠ none then setPrev m2 s.head (some s.mem.length) else some m2) <;> rfl

theorem SymChain_of_Chain {s₀ s' : LL T} {cs : List (Nat × T)} (h : Chain s₀ cs)
    (hh : s'.head = s₀.head) (hm : s'.mem = s₀.mem) : SymChain s' cs :=
  ⟨h.1, hm ▸ h.2.1, by rw [hh, h.2.2.1]⟩

theorem Seg_setNext_last {m m' : Mem T} {l : List (Nat × T)} {t : Nat × T} {p q x : Option Nat}
    (hs : Seg m p (l ++ [t]) q) (hnd : ((l ++ [t]).map Prod.fst).Nodup)
    (h : setNext m (some t.1) x = some m') : Seg m' p (l ++ [t]) x := by
  rw [Seg_append] at hs ⊢
  simp only [Seg, headOr, and_true] at hs ⊢
  obtain ⟨hl, ht⟩ := hs
  simp only [setNext, ht, Option.some.injEq] at h
  simp only [List.Nodup, List.pairwise_map, List.pairwise_append, List.pairwise_cons,
    List.mem_singleton, forall_eq] at hnd
  refine ⟨Seg_congr (fun c hc => ?_) hl, ?_⟩
  · rw [← h, load_set]
    simp [hnd.2.2 c hc]
  · rw [← h, load_set]
    simp [load_lt ht]

theorem last_mem_suffix (l u w : List (Nat × T)) (a x : Nat × T) (h : l ++ [a] = u ++ x :: w) :
    a ∈ x :: w := by
  induction u generalizing l with
  | nil =>
    rw [List.nil_append] at h
    rw [← h]
    simp
  | cons y u ih =>
    cases l with
    | nil =>
      simp only [List.nil_append, List.cons_append, List.cons.injEq] at h
      have := congrArg List.length h.2
      simp at this
      omega
    | cons z l =>
      simp only [List.cons_append, List.cons.injEq] at h
      exact ih l h.2

theorem Seg_links {m : Mem T} {cs : List (Nat × T)} (hseg : Seg m none cs none)
    (hnd : (cs.map Prod.fst).Nodup) (c : Nat × T) (hc : c ∈ cs) :
    ∃ n, load m c.1 = some n ∧
      (∀ b, some b = n.prev → b ∈ cs.map Prod.fst) ∧
      (∀ b, some b = n.next → b ∈ cs.map Prod.fst) := by
  have hch : Chain (LL.mk cs.length (headOr cs none) none m) cs := ⟨hnd, hseg, rfl, rfl⟩
  obtain ⟨n, h1, -, h3, h4⟩ := Chain_links hch c hc
  exact ⟨n, h1, h3, h4⟩

theorem headOr_append_singleton (l l₂ : List (Nat × T)) (c : Nat × T) :
    headOr (l ++ [c]) none = headOr (l ++ c :: l₂) none := by
  cases l <;> rfl

theorem Seg_truncate (m m1 m2 : Mem T) (cs : List (Nat × T)) (t pp : Nat) (n : Node T)
    (hnd : (cs.map Prod.fst).Nodup) (hseg : Seg m none cs none) (hn : load m t = some n)
    (hp : n.prev = some pp) (h1 : setNext m (some pp) none = some m1)
    (h2 : delete m1 (some t) = some m2) :
    ∃ cs', (cs'.map Prod.fst).Nodup ∧ Seg m2 none cs' none ∧
      headOr cs' none = headOr cs none := by
  by_cases hpp : pp ∈ cs.map Prod.fst
  · obtain ⟨ppc, hppc, rfl⟩ := List.mem_map.1 hpp
    obtain ⟨l₁, l₂, rfl⟩ := List.append_of_mem hppc
    have hsplit : l₁ ++ ppc :: l₂ = (l₁ ++ [ppc]) ++ l₂ := by simp
    have hndA : ((l₁ ++ [ppc]).map Prod.fst).Nodup := by
      rw [hsplit, List.map_append] at hnd
      exact (List.nodup_append.1 hnd).1
    have hsegA : Seg m none (l₁ ++ [ppc]) (headOr l₂ none) := by
      rw [hsplit, Seg_append] at hseg
      exact hseg.1
    have hseg1 := Seg_setNext_last hsegA hndA h1
    have htA : t ∉ (l₁ ++ [ppc]).map Prod.fst := by
      intro hmem
      obtain ⟨x, hx, hxt⟩ := List.mem_map.1 hmem
      obtain ⟨u, w, huw⟩ := List.append_of_mem hx
      have hsegA' := hsegA
      rw [huw, Seg_append] at hsegA'
      have hx1 := hsegA'.2.1
      rw [hxt, hn, Option.some.injEq] at hx1
      have hprev : some ppc.1 = lastOr u none := by
        rw [← hp, hx1]
      have hmem_u : ppc.1 ∈ u.map Prod.fst := lastOr_mem_none u ppc.1 hprev
      have hmem_w : ppc ∈ x :: w := last_mem_suffix l₁ u w ppc x huw
      rw [huw, List.map_append] at hndA
      exact (List.nodup_append.1 hndA).2.2 hmem_u (List.mem_map_of_mem Prod.fst hmem_w)
    refine ⟨l₁ ++ [ppc], hndA, Seg_congr (fun c hc => ?_) hseg1, headOr_append_singleton l₁ l₂ ppc⟩
    refine delete_frame h2 c.1 (fun e => htA ?_)
    rw [← Option.some.inj e]
    exact List.mem_map_of_mem Prod.fst hc
  · have hseg1 : Seg m1 none cs none := by
      refine Seg_congr (fun c hc => ?_) hseg
      refine setNext_frame h1 c.1 (fun e => hpp ?_)
      rw [← Option.some.inj e]
      exact List.mem_map_of_mem Prod.fst hc
    have ht : t ∉ cs.map Prod.fst := by
      intro hmem
      obtain ⟨x, hx, hxt⟩ := List.mem_map.1 hmem
      obtain ⟨n', hn', hp', -⟩ := Seg_links hseg hnd x hx
      rw [hxt, hn, Option.some.injEq] at hn'
      subst hn'
      exact hpp (hp' pp hp.symm)
    refine ⟨cs, hnd, Seg_congr (fun c hc => ?_) hseg1, rfl⟩
    refine delete_frame h2 c.1 (fun e => ht ?_)
    rw [← Option.some.inj e]
    exact List.mem_map_of_mem Prod.fst hc

theorem Seg_append_node (m m1 m2 : Mem T) (cs : List (Nat × T)) (v : T) (tl : Option Nat)
    (hnd : (cs.map Prod.fst).Nodup) (hseg : Seg m none cs none)
    (h1 : setNext (alloc m v).1 tl (some m.length) = some m1)
    (h2 : setPrev m1 (some m.length) tl = some m2) :
    ∃ cs', (cs'.map Prod.fst).Nodup ∧ Seg m2 none cs' none ∧
      headOr cs' none = headOr cs none := by
  have hlt := Seg_lt hseg
  have hseg0 : Seg (alloc m v).1 none cs none := by
    refine Seg_congr (fun c hc => ?_) hseg
    simp [alloc, load_append_single, (hlt c hc).ne]
  cases tl with
  | none => simp [setNext] at h1
  | some t =>
    have hnew1 : load m1 m.length = some { data := v, prev := none, next := none } ∨
        t = m.length := by
      by_cases ht : t = m.length
      · exact Or.inr ht
      · left
        rw [setNext_frame h1 m.length (by simpa using Ne.symm ht)]
        simp [alloc, load_append_single]
    by_cases ht : t ∈ cs.map Prod.fst
    · obtain ⟨tc, htc, rfl⟩ := List.mem_map.1 ht
      obtain ⟨l₁, l₂, rfl⟩ := List.append_of_mem htc
      have hsplit : l₁ ++ tc :: l₂ = (l₁ ++ [tc]) ++ l₂ := by simp
      have hndA : ((l₁ ++ [tc]).map Prod.fst).Nodup := by
        rw [hsplit, List.map_append] at hnd
        exact (List.nodup_append.1 hnd).1
      have hsegA : Seg (alloc m v).1 none (l₁ ++ [tc]) (headOr l₂ none) := by
        rw [hsplit, Seg_append] at hseg0
        exact hseg0.1
      have hseg1 := Seg_setNext_last hsegA hndA h1
      have hltA : ∀ c ∈ l₁ ++ [tc], c.1 < m.length := fun c hc =>
        hlt c (by
          simp only [List.mem_append, List.mem_singleton, List.mem_cons] at hc ⊢
          tauto)
      have htlt : tc.1 < m.length := hltA tc (by simp)
      have hn1 : load m1 m.length = some { data := v, prev := none, next := none } := by
        rcases hnew1 with h | h
        · exact h
        · exact absurd h htlt.ne
      simp only [setPrev, hn1, Option.some.injEq] at h2
      refine ⟨(l₁ ++ [tc]) ++ [(m.length, v)], ?_, ?_, ?_⟩
      · rw [List.map_append, List.nodup_append]
        refine ⟨hndA, by simp, ?_⟩
        intro a ha hb
        simp only [List.map_cons, List.map_nil, List.mem_singleton] at hb
        obtain ⟨c, hc, rfl⟩ := List.mem_map.1 ha
        exact (hltA c hc).ne hb
      · rw [Seg_append]
        refine ⟨Seg_congr (fun c hc => ?_) hseg1, ?_⟩
        · rw [← h2, load_set]
          simp [(hltA c hc).ne]
        · simp only [Seg, headOr, lastOr_append, lastOr, and_true]
          rw [← h2, load_set]
          simp [load_lt hn1]
      · cases l₁ <;> rfl
    · have hseg1 : Seg m1 none cs none := by
        refine Seg_congr (fun c hc => ?_) hseg0
        refine setNext_frame h1 c.1 (fun e => ht ?_)
        rw [← Option.some.inj e]
        exact List.mem_map_of_mem Prod.fst hc
      refine ⟨cs, hnd, Seg_congr (fun c hc => ?_) hseg1, rfl⟩
      exact setPrev_frame h2 c.1 (by simpa using (hlt c hc).ne)

theorem not_head_of_mid {s : LL T} {l₀ l₂ : List (Nat × T)} {q c : Nat × T}
    (h : Chain s (l₀ ++ q :: c :: l₂)) : some c.1 ≠ s.head := by
  have hnd := h.1
  simp only [List.Nodup, List.pairwise_map, List.pairwise_append, List.pairwise_cons,
    List.mem_cons, forall_eq_or_imp] at hnd
  obtain ⟨-, ⟨⟨hqc, -⟩, -⟩, h0⟩ := hnd
  rw [h.2.2.1]
  cases l₀ with
  | nil => simpa [headOr] using Ne.symm hqc
  | cons d l => simpa [headOr] using Ne.symm (h0 d (by simp)).2.1

theorem cells_of_SymChain {s : LL T} {cs : List (Nat × T)} (h : SymChain s cs) :
    cells s = some cs :=
  @cells_of_Chain T { s with count := cs.length } cs (SymChain_Chain h)

theorem erase_SymChain (s s' : LL T) (cs : List (Nat × T)) (pos it : Option Nat)
    (h : SymChain s cs) (hv : validPos s pos) (hs : erase s pos = some (s', it)) :
    ∃ cs', SymChain s' cs' := by
  have hch := SymChain_Chain h
  have hv₀ : validPos { s with count := cs.length } pos := hv
  have hcount := erase_count s cs.length pos
  rw [hs] at hcount
  have key : ∀ (s₀' : LL T) (it₀ : Option Nat) (cs' : List (Nat × T)),
      erase { s with count := cs.length } pos = some (s₀', it₀) → Chain s₀' cs' →
      SymChain s' cs' := by
    intro s₀' it₀ cs' h1 h2
    rw [h1] at hcount
    simp only [Option.map_some', Option.some.injEq, Prod.mk.injEq] at hcount
    exact SymChain_of_Chain h2 hcount.1.symm hcount.2.1.symm
  rcases validPos_Chain hch hv₀ with rfl | ⟨c, hc, rfl⟩
  · simp only [erase, «end», if_true, Option.some.injEq, Prod.mk.injEq] at hs
    rw [← hs.1]
    exact ⟨cs, h⟩
  · obtain ⟨l₁, l₂, rfl⟩ := List.append_of_mem hc
    rcases List.eq_nil_or_concat l₁ with rfl | ⟨l₀, q, rfl⟩
    · obtain ⟨s₁, h1, h2, -⟩ := erase_head _ l₂ c hch
      exact ⟨l₂, key s₁ _ l₂ h1 h2⟩
    · simp only [List.concat_eq_append, List.append_assoc, List.singleton_append] at h hch hcount key
      by_cases ht : s.tail = some c.1
      · have hhead : some c.1 ≠ s.head :=
          @not_head_of_mid T { s with count := (l₀ ++ q :: c :: l₂).length } l₀ l₂ q c hch
        have hseg := h.2.1
        rw [Seg_append] at hseg
        simp only [Seg, headOr] at hseg
        obtain ⟨-, -, hcn, -⟩ := hseg
        simp only [erase, «end», reduceCtorEq, if_false, hhead, ht, if_true, deref, hcn,
          Option.bind_eq_bind, Option.some_bind, Option.bind_eq_some, Option.some.injEq,
          Prod.mk.injEq] at hs
        obtain ⟨m1, h4, m2, h5, h6, -⟩ := hs
        obtain ⟨cs', k1, k2, k3⟩ := Seg_truncate s.mem m1 m2 _ c.1 q.1 _ h.1 h.2.1 hcn rfl h4 h5
        refine ⟨cs', k1, ?_, ?_⟩
        · rw [← h6]
          exact k2
        · rw [← h6, k3]
          exact h.2.2
      · cases l₂ with
        | nil =>
          rw [erase_last_no_tail _ l₀ q c hch ht] at hcount
          simp at hcount
        | cons d l₃ =>
          obtain ⟨s₁, h1, h2, -⟩ := erase_mid _ l₀ l₃ q c d hch ht
          exact ⟨_, key s₁ _ _ h1 h2⟩

theorem insert_SymChain (s s' : LL T) (cs : List (Nat × T)) (pos it : Option Nat) (v : T)
    (h : SymChain s cs) (hv : validPos s pos) (hs : insert s pos v = some (s', it)) :
    ∃ cs', SymChain s' cs' := by
  by_cases hc : s.count = 0
  · simp only [insert, alloc, empty, size, hc, beq_self_eq_true, if_true, Option.some.injEq,
      Prod.mk.injEq] at hs
    rw [← hs.1]
    exact ⟨[(s.mem.length, v)], by simp [SymChain, Seg, headOr, load_append_single]⟩
  · have hch := SymChain_Chain h
    have hv₀ : validPos { s with count := cs.length } pos := hv
    rcases validPos_Chain hch hv₀ with rfl | ⟨c, hcm, rfl⟩
    · simp only [insert, empty, size, beq_iff_eq, hc, if_false, if_true, Option.bind_eq_bind,
        Option.bind_eq_some, Option.some.injEq, Prod.mk.injEq] at hs
      obtain ⟨m1, h4, m2, h5, h6, -⟩ := hs
      obtain ⟨cs', k1, k2, k3⟩ := Seg_append_node s.mem m1 m2 cs v s.tail h.1 h.2.1 h4 h5
      refine ⟨cs', k1, ?_, ?_⟩
      · rw [← h6]
        exact k2
      · rw [← h6, k3]
        exact h.2.2
    · have hlen : cs.length ≠ 0 := by
        intro h0
        rw [List.length_eq_zero.1 h0] at hcm
        simp at hcm
      have hcount := insert_count s cs.length (some c.1) v hlen hc
      rw [hs] at hcount
      have key : ∀ (s₀' : LL T) (it₀ : Option Nat) (cs' : List (Nat × T)),
          insert { s with count := cs.length } (some c.1) v = some (s₀', it₀) → Chain s₀' cs' →
          SymChain s' cs' := by
        intro s₀' it₀ cs' h1 h2
        rw [h1] at hcount
        simp only [Option.map_some', Option.some.injEq, Prod.mk.injEq] at hcount
        exact SymChain_of_Chain h2 hcount.1.symm hcount.2.1.symm
      obtain ⟨l₁, l₂, rfl⟩ := List.append_of_mem hcm
      rcases List.eq_nil_or_concat l₁ with rfl | ⟨l₀, q, rfl⟩
      · obtain ⟨s₁, h1, h2, -⟩ := insert_front _ l₂ c v hch
        exact ⟨_, key s₁ _ _ h1 h2⟩
      · simp only [List.concat_eq_append, List.append_assoc, List.singleton_append] at hch key
        obtain ⟨s₁, h1, h2, -⟩ := insert_mid _ l₀ l₂ q c v hch
        exact ⟨_, key s₁ _ _ h1 h2⟩

theorem pop_back_SymChain (s s' : LL T) (cs : List (Nat × T)) (h : SymChain s cs)
    (hs : pop_back s = some s') : ∃ cs', SymChain s' cs' := by
  unfold pop_back at hs
  simp only [Option.bind_eq_bind] at hs
  split_ifs at hs with h1 h2
  · simp only [Option.some.injEq] at hs
    rw [← hs]
    exact ⟨cs, h⟩
  · simp only [Option.bind_eq_some, Option.some.injEq] at hs
    obtain ⟨m1, -, h4⟩ := hs
    rw [← h4]
    exact ⟨[], by simp [SymChain, Seg, headOr]⟩
  · simp only [Option.bind_eq_some, Option.some.injEq] at hs
    obtain ⟨n, hn, m1, h3, m2, h4, h5⟩ := hs
    cases htl : s.tail with
    | none => simp [htl, deref] at hn
    | some t =>
      cases hp : n.prev with
      | none => simp [hp, setNext] at h3
      | some pp =>
        rw [htl] at hn h4
        rw [hp] at h3
        obtain ⟨cs', k1, k2, k3⟩ := Seg_truncate s.mem m1 m2 cs t pp n h.1 h.2.1 hn hp h3 h4
        refine ⟨cs', k1, ?_, ?_⟩
        · rw [← h5]
          exact k2
        · rw [← h5, k3]
          exact h.2.2

theorem step_SymChain (s s' : LL T) (cs : List (Nat × T)) (op : Op T) (h : SymChain s cs)
    (hv : validOp s op) (hs : step s op = some s') : ∃ cs', SymChain s' cs' := by
  cases op with
  | push_back v =>
    simp only [step, push_back_eq_insert, Option.map_eq_some', Prod.exists, exists_and_right,
      exists_eq_right] at hs
    obtain ⟨it, hs⟩ := hs
    exact insert_SymChain s s' cs _ it v h (Or.inl rfl) hs
  | push_front v =>
    simp only [step] at hs
    have hcount := push_front_count s cs.length v
    obtain ⟨s₁, h1, h2, -⟩ := push_front_chain _ cs v (SymChain_Chain h)
    rw [hs, h1] at hcount
    simp only [Option.map_some', Option.some.injEq, Prod.mk.injEq] at hcount
    exact ⟨_, SymChain_of_Chain h2 hcount.1.symm hcount.2.symm⟩
  | pop_back => exact pop_back_SymChain s s' cs h hs
  | pop_front =>
    simp only [step] at hs
    by_cases hh : s.head = none
    · simp only [pop_front, hh, if_true, Option.some.injEq] at hs
      rw [← hs]
      exact ⟨cs, h⟩
    · rw [pop_front_eq_erase s hh] at hs
      simp only [Option.map_eq_some', Prod.exists, exists_and_right, exists_eq_right] at hs
      obtain ⟨it, hs⟩ := hs
      have hv' : validPos s s.head := by
        cases hhd : s.head with
        | none => exact absurd hhd hh
        | some t =>
          have := headOr_mem cs t (h.2.2 ▸ hhd.symm)
          obtain ⟨c, hc, hct⟩ := List.mem_map.1 this
          exact Or.inr ⟨cs, cells_of_SymChain h, c, hc, by rw [hct]⟩
      exact erase_SymChain s s' cs _ it h hv' hs
  | insert pos v =>
    simp only [step, Option.map_eq_some', Prod.exists, exists_and_right, exists_eq_right] at hs
    obtain ⟨it, hs⟩ := hs
    exact insert_SymChain s s' cs pos it v h hv hs
  | erase pos =>
    simp only [step, Option.map_eq_some', Prod.exists, exists_and_right, exists_eq_right] at hs
    obtain ⟨it, hs⟩ := hs
    exact erase_SymChain s s' cs pos it h hv hs
  | clear =>
    simp only [step, clear] at hs
    cases hcl : clearLoop s.mem.length s.mem s.head with
    | none => simp [hcl] at hs
    | some m1 =>
      simp only [hcl, Option.bind_eq_bind, Option.some_bind, Option.some.injEq] at hs
      rw [← hs]
      exact ⟨[], by simp [SymChain, Seg, headOr]⟩

/-! Section: doubly-linked symmetry. -/

theorem Reachable_mem {s : LL T} {cs : List (Nat × T)} (h : SymChain s cs) {a : Nat}
    (ha : Reachable s a) : a ∈ cs.map Prod.fst := by
  induction ha with
  | head hh => exact headOr_mem cs _ (h.2.2 ▸ hh.symm)
  | next _ hn hb ih =>
    obtain ⟨c, hc, rfl⟩ := List.mem_map.1 ih
    obtain ⟨n', hn', -, hx⟩ := Seg_links h.2.1 h.1 c hc
    rw [hn, Option.some.injEq] at hn'
    subst hn'
    exact hx _ hb.symm

theorem SymChain_Symmetric {s : LL T} {cs : List (Nat × T)} (h : SymChain s cs) :
    Symmetric s := by
  refine ⟨fun a ha => ?_, fun a b n ha hn hb => ?_⟩
  · obtain ⟨hnd, hseg, hh⟩ := h
    cases cs with
    | nil => simp [headOr, ha] at hh
    | cons c l =>
      simp only [headOr, ha, Option.some.injEq] at hh
      subst hh
      exact ⟨_, hseg.1, rfl⟩
  · obtain ⟨c, hc, rfl⟩ := List.mem_map.1 (Reachable_mem h ha)
    obtain ⟨l₁, l₂, rfl⟩ := List.append_of_mem hc
    have hseg := h.2.1
    rw [Seg_append] at hseg
    obtain ⟨-, hcn, hrest⟩ := hseg
    rw [hn, Option.some.injEq] at hcn
    subst hcn
    cases l₂ with
    | nil => simp [headOr] at hb
    | cons d l₃ =>
      simp only [headOr, Option.some.injEq] at hb
      subst hb
      exact ⟨_, hrest.1, rfl⟩

theorem not_mem_of_prev_last {m : Mem T} {l : List (Nat × T)} {t : Nat × T} {q : Option Nat}
    (hseg : Seg m none (l ++ [t]) q) (hnd : ((l ++ [t]).map Prod.fst).Nodup) (b : Nat)
    (n : Node T) (hn : load m b = some n) (hp : n.prev = some t.1) :
    b ∉ (l ++ [t]).map Prod.fst := by
  intro hmem
  obtain ⟨x, hx, hxb⟩ := List.mem_map.1 hmem
  obtain ⟨u, w, huw⟩ := List.append_of_mem hx
  rw [huw, Seg_append] at hseg
  have hx1 := hseg.2.1
  rw [hxb, hn, Option.some.injEq] at hx1
  have hprev : some t.1 = lastOr u none := by
    rw [← hp, hx1]
  have hmem_u : t.1 ∈ u.map Prod.fst := lastOr_mem_none u t.1 hprev
  have hmem_w : t ∈ x :: w := last_mem_suffix l u w t x huw
  rw [huw, List.map_append] at hnd
  exact (List.nodup_append.1 hnd).2.2 hmem_u (List.mem_map_of_mem Prod.fst hmem_w)

theorem Symmetric_grow (s : LL T) (hsym : Symmetric s) (d : Nat) :
    ∀ (l : List (Nat × T)) (t : Nat × T) (q : Option Nat),
      ((l ++ [t]).map Prod.fst).Nodup → Seg s.mem none (l ++ [t]) q →
      s.head = headOr (l ++ [t]) none → (∀ c ∈ l ++ [t], Reachable s c.1) →
      s.mem.length - (l ++ [t]).length ≤ d → ∃ cs, SymChain s cs := by
  induction d with
  | zero =>
    intro l t q hnd hseg hh hr hd
    cases q with
    | none => exact ⟨l ++ [t], hnd, hseg, hh⟩
    | some b =>
      exfalso
      have hseg' := hseg
      rw [Seg_append] at hseg'
      have ht := hseg'.2.1
      obtain ⟨n', hn', hp'⟩ := hsym.2 t.1 b _ (hr t (by simp)) ht rfl
      have hb := not_mem_of_prev_last hseg hnd b n' hn' hp'
      have hnd' : ((b :: (l ++ [t]).map Prod.fst)).Nodup := List.nodup_cons.2 ⟨hb, hnd⟩
      have := length_le_of_nodup_lt _ s.mem.length hnd' (by
        intro a ha
        rcases List.mem_cons.1 ha with rfl | ha
        · exact load_lt hn'
        · obtain ⟨c, hc, rfl⟩ := List.mem_map.1 ha
          exact Seg_lt hseg c hc)
      simp only [List.length_cons, List.length_map] at this
      omega
  | succ d ih =>
    intro l t q hnd hseg hh hr hd
    cases q with
    | none => exact ⟨l ++ [t], hnd, hseg, hh⟩
    | some b =>
      have hseg' := hseg
      rw [Seg_append] at hseg'
      have ht := hseg'.2.1
      obtain ⟨n', hn', hp'⟩ := hsym.2 t.1 b _ (hr t (by simp)) ht rfl
      have hb := not_mem_of_prev_last hseg hnd b n' hn' hp'
      refine ih (l ++ [t]) (b, n'.data) n'.next ?_ ?_ ?_ ?_ ?_
      · rw [List.map_append, List.nodup_append]
        refine ⟨hnd, by simp, ?_⟩
        intro a ha hab
        simp only [List.map_cons, List.map_nil, List.mem_singleton] at hab
        exact hb (hab ▸ ha)
      · rw [Seg_append]
        refine ⟨hseg, ?_⟩
        simp only [Seg, headOr, lastOr_append, lastOr, and_true]
        rw [hn', ← hp']
      · rw [hh]
        cases l <;> rfl
      · intro c hc
        rcases List.mem_append.1 hc with hc | hc
        · exact hr c hc
        · simp only [List.mem_singleton] at hc
          subst hc
          exact Reachable.next (hr t (by simp)) ht rfl
      · simp only [List.length_append, List.length_cons, List.length_nil] at hd ⊢
        omega

theorem Symmetric_SymChain {s : LL T} (hsym : Symmetric s) : ∃ cs, SymChain s cs := by
  cases hh : s.head with
  | none => exact ⟨[], by simp [SymChain, Seg, headOr, hh]⟩
  | some a =>
    obtain ⟨n, hn, hp⟩ := hsym.1 a hh
    refine Symmetric_grow s hsym s.mem.length [] (a, n.data) n.next (by simp) ?_ (by simp [headOr, hh])
      ?_ (by omega)
    · simp only [List.nil_append, Seg, headOr, and_true]
      rw [hn, ← hp]
    · intro c hc
      simp only [List.nil_append, List.mem_singleton] at hc
      subst hc
      exact Reachable.head hh

/-- C20: if before a call of `insert`, `erase`, `push_back`, `push_front`,
`pop_back` or `pop_front` (or `clear`) with a valid iterator argument the list
is doubly-link symmetric (the head has `prev` null and `n->next->prev == n`
along the chain from `head`), whatever its `count` and `tail`, then the list the
call leaves is so again. -/
theorem symmetry_preserved (s s' : LL T) (op : Op T) (hsym : Symmetric s) (hv : validOp s op)
    (hs : step s op = some s') : Symmetric s' := by
  obtain ⟨cs, hcs⟩ := Symmetric_SymChain hsym
  obtain ⟨cs', hcs'⟩ := step_SymChain s s' cs op hcs hv hs
  exact SymChain_Symmetric hcs'

theorem symmetry_preserved_witness :
    Symmetric ex2 ∧ ∃ s', step ex2 (.push_front 5) = some s' ∧ Symmetric s' := by
  have h2 : Symmetric ex2 := SymChain_Symmetric ⟨ex2_Inv.1.1, ex2_Inv.1.2.1, ex2_Inv.1.2.2.1⟩
  exact ⟨h2, _, rfl, symmetry_preserved ex2 _ (.push_front 5) h2 trivial rfl⟩

/-! Section: safety and the invariants of every reached state. -/

theorem lastOr_getLast (cs : List (Nat × T)) (b : Nat)
    (h : lastOr cs none = some b) : ∃ l c, cs = l ++ [c] ∧ c.1 = b := by
  rcases List.eq_nil_or_concat cs with rfl | ⟨l, c, rfl⟩
  · simp [lastOr] at h
  · rw [List.concat_eq_append, lastOr_append] at h
    simp only [lastOr, Option.some.injEq] at h
    exact ⟨l, c, List.concat_eq_append _ _, h⟩

theorem CountTail_of_Chain {s : LL T} {cs : List (Nat × T)} (h : Chain s cs)
    (ht : s.tail = none ∨ s.tail = lastOr cs none) : CountTail s := by
  refine ⟨cs, cells_of_Chain h, ?_, ?_⟩
  · simp [forwardCount, cells_of_Chain h, size, h.2.2.2]
  · rcases ht with ht | ht
    · exact Or.inl ht
    · cases hl : lastOr cs none with
      | none => exact Or.inl (ht.trans hl)
      | some b =>
        obtain ⟨l, c, rfl, rfl⟩ := lastOr_getLast cs b hl
        have hseg := h.2.1
        rw [Seg_append] at hseg
        have hc := hseg.2.1
        simp only [headOr] at hc
        exact Or.inr ⟨c, _, by simp, ht.trans hl, hc, rfl⟩

/-- C21 (the code departs from it): on a default-constructed list
`push_front(v)` completes and leaves a list of size 1 whose `tail` is still
null.  Each of the next calls `push_back(w)`, `pop_back()` and
`insert(end(), w)`, none with an invalid iterator argument, then dereferences
that null `tail` (`tail->next` in `push_back` and `insert`, `tail->prev` in
`pop_back`): the call has no resulting list.  After a second `push_front(w)`
the list is `[w, v]` with `tail` still null, and `erase` of the iterator to its
last node takes the interior branch and dereferences the null `current->next`. -/
theorem push_front_then_null_dereference (v w : T) :
    ∃ s, step (empty_list : LL T) (.push_front v) = some s ∧ Steps empty_list s ∧
      size s = 1 ∧ s.tail = none ∧ deref s.mem s.tail = none ∧
      validOp s (.push_back w) ∧ step s (.push_back w) = none ∧
      validOp s .pop_back ∧ step s .pop_back = none ∧
      validOp s (.insert («end» s) w) ∧ step s (.insert («end» s) w) = none ∧
      ∃ s₂, step s (.push_front w) = some s₂ ∧ cells s₂ = some [(1, w), (0, v)] ∧
        validOp s₂ (.erase (some 0)) ∧ step s₂ (.erase (some 0)) = none := by
  refine ⟨_, rfl, Steps.next (.push_front v) Steps.refl trivial rfl, rfl, rfl, rfl,
    trivial, rfl, trivial, rfl, Or.inl rfl, rfl, _, rfl, rfl, ?_, rfl⟩
  exact Or.inr ⟨[(1, w), (0, v)], rfl, (0, v), by simp, rfl⟩

theorem WReach_CountTail (w : World T) (h : WReach w) :
    CountTail w.this ∧ CountTail w.other := by
  obtain ⟨as, bs, -, ha, hta, hb, htb, -⟩ := WReach_WInv h
  exact ⟨CountTail_of_Chain ha hta, CountTail_of_Chain hb htb⟩

/-! Section: calls handed an iterator to a node of another list. -/

theorem not_validPos_of_cells (s : LL T) (cs : List (Nat × T)) (a : Nat)
    (h : cells s = some cs) (ha : a ∉ cs.map Prod.fst) : ¬ validPos s (some a) := by
  rintro (h0 | ⟨cs0, hcs, c, hc, hp⟩)
  · cases h0
  · rw [h] at hcs
    cases hcs
    cases hp
    exact ha (List.mem_map.2 ⟨c, hc, rfl⟩)

theorem front_of_Chain {s : LL T} {cs : List (Nat × T)} (hch : Chain s cs) :
    (front s = .error .out_of_range ↔ empty s = true) ∧
    (empty s = false →
      ∃ v xs, front s = .ok v ∧ star s («begin» s) = some v ∧ toList s = some (v :: xs)) := by
  have hl := toList_of_Chain hch
  obtain ⟨-, hseg, hhead, hcount⟩ := hch
  cases cs with
  | nil =>
    simp only [headOr] at hhead
    simp [front, empty, size, hhead, hcount]
  | cons c l =>
    simp only [headOr, Seg] at hhead hseg
    have he : empty s = false := by simp [empty, size, hcount]
    refine ⟨by simp [front, hhead, deref, hseg.1, he], fun _ => ⟨c.2, l.map Prod.snd, ?_, ?_, ?_⟩⟩
    · simp [front, hhead, deref, hseg.1]
    · simp [star, «begin», he, hhead, deref, hseg.1]
    · simpa using hl

theorem WReach_Chain {w : World T} (h : WReach w) (s : LL T) (hs : s = w.this ∨ s = w.other) :
    ∃ cs, Chain s cs ∧ (s.tail = none ∨ s.tail = lastOr cs none) := by
  obtain ⟨as, bs, -, ha, hta, hb, htb, -⟩ := WReach_WInv h
  rcases hs with rfl | rfl
  · exact ⟨as, ha, hta⟩
  · exact ⟨bs, hb, htb⟩

theorem ex1_WReach :
    WReach (⟨ex1, { (empty_list : LL Nat) with mem := ex1.mem }⟩ : World Nat) :=
  WReach.next (.on_this (.push_back 5)) WReach.init trivial rfl

/-- C8 (counterexample to the claim as worded): lists `a` and `b` of one
program, `b = [1, 2, 3]` and `a = [5]`.  The call `a.erase(it)` with `it` the
iterator to the node of `b` holding 2, a live node that is not a node of `a`,
runs to completion through the interior branch and decrements `a.count` to 0
while `a.head` still references the node holding 5: `empty()` is true and
`front()` returns 5 instead of failing. -/
theorem front_foreign_erase :
    ∃ w₀ w, wrun (⟨empty_list, empty_list⟩ : World Nat) foreign_setup = some w₀ ∧
      toList w₀.this = some [5] ∧ toList w₀.other = some [1, 2, 3] ∧
      star w₀.this (some 1) = some 2 ∧ ¬ validOp w₀.this (.erase (some 1)) ∧
      wstep w₀ (.on_this (.erase (some 1))) = some w ∧
      empty w.this = true ∧ front w.this = .ok 5 := by
  exact ⟨_, _, rfl, rfl, rfl, rfl, not_validPos_of_cells _ [(3, 5)] 1 rfl (by decide),
    rfl, rfl, rfl⟩

/-- C8 (amended): on each of two lists of one program, reached from two
default-constructed lists by completed calls of the mutators (and `swap` and
moves) whose iterator argument is `end()` or an iterator to a node of the list
the call is made on, `front()` throws the empty-container error exactly when
`empty()` is true, and on a non-empty list it returns the element `*begin()`
refers to, which is the first of the element sequence. -/
theorem front_correct (w : World T) (h : WReach w) (s : LL T) (hs : s = w.this ∨ s = w.other) :
    (front s = .error .out_of_range ↔ empty s = true) ∧
    (empty s = false →
      ∃ v xs, front s = .ok v ∧ star s («begin» s) = some v ∧ toList s = some (v :: xs)) := by
  obtain ⟨cs, hch, -⟩ := WReach_Chain h s hs
  exact front_of_Chain hch

theorem front_correct_witness :
    WReach (⟨ex1, { (empty_list : LL Nat) with mem := ex1.mem }⟩ : World Nat) ∧
    empty ex1 = false ∧
      ∃ v xs, front ex1 = .ok v ∧ star ex1 («begin» ex1) = some v ∧ toList ex1 = some (v :: xs) :=
  ⟨ex1_WReach, rfl, (front_correct _ ex1_WReach ex1 (Or.inl rfl)).2 rfl⟩

/-- C13 (counterexample to the claim as worded): lists `a` and `b` of one
program, `b = [1, 2, 3]` and `a = [1, 3, 99, 0]`.  The call `a.erase(it)` with
`it` the iterator to the node of `b` holding 2 runs to completion, unlinks that
node from `b` and decrements `a.count`: afterwards `b` is `[1, 3]` with
`size()` 3 and `a` is `[1, 3, 99, 0]` with `size()` 3, and `b == a` returns
true although the sequences differ. -/
theorem equal_foreign_erase :
    ∃ w₀ w, wrun (⟨empty_list, empty_list⟩ : World Nat) foreign_setup_equal = some w₀ ∧
      toList w₀.this = some [1, 3, 99, 0] ∧ toList w₀.other = some [1, 2, 3] ∧
      star w₀.this (some 1) = some 2 ∧ ¬ validOp w₀.this (.erase (some 1)) ∧
      wstep w₀ (.on_this (.erase (some 1))) = some w ∧
      toList w.other = some [1, 3] ∧ toList w.this = some [1, 3, 99, 0] ∧
      size w.other = 3 ∧ size w.this = 3 ∧
      equal w.other w.this = some true ∧ not_equal w.other w.this = some false := by
  exact ⟨_, _, rfl, rfl, rfl, rfl,
    not_validPos_of_cells _ [(3, 1), (4, 3), (5, 99), (6, 0)] 1 rfl (by decide),
    rfl, rfl, rfl, rfl, rfl, rfl, rfl⟩

/-- C13 (amended): for `lhs` and `rhs` each one of the two lists of a program,
reached from two default-constructed lists by completed public operations
whose iterator argument is `end()` or an iterator to a node of the list the
call is made on, with element sequences `xs` and `ys`: `operator==` returns
true exactly when `xs = ys`, that is when they have the same length and are
element-wise equal in iteration order, and `operator!=` returns the negation;
two empty lists are equal, and lists of different lengths, a list and a proper
prefix of it among them, are not. -/
theorem equal_correct [DecidableEq T] (w : World T) (h : WReach w) (lhs rhs : LL T)
    (hl : lhs = w.this ∨ lhs = w.other) (hr : rhs = w.this ∨ rhs = w.other) :
    ∃ xs ys, toList lhs = some xs ∧ toList rhs = some ys ∧
      equal lhs rhs = some (decide (xs = ys)) ∧
      not_equal lhs rhs = some (!decide (xs = ys)) ∧
      (xs = [] → ys = [] → equal lhs rhs = some true) ∧
      (xs.length ≠ ys.length → equal lhs rhs = some false) := by
  obtain ⟨cs, hcs, -⟩ := WReach_Chain h lhs hl
  obtain ⟨ds, hds, -⟩ := WReach_Chain h rhs hr
  have heq := equal_of_Chain lhs rhs cs ds hcs hds
  refine ⟨cs.map Prod.snd, ds.map Prod.snd, toList_of_Chain hcs, toList_of_Chain hds, heq,
    by simp [not_equal, heq], ?_, ?_⟩
  · intro h1 h2
    simpa [h1, h2] using heq
  · intro hlen
    have hne : cs.map Prod.snd ≠ ds.map Prod.snd := fun h => hlen (congrArg List.length h)
    simpa [hne] using heq

theorem equal_correct_witness :
    WReach (⟨ex1, { (empty_list : LL Nat) with mem := ex1.mem }⟩ : World Nat) ∧
    ∃ xs ys, toList ex1 = some xs ∧
      toList { (empty_list : LL Nat) with mem := ex1.mem } = some ys ∧
      equal ex1 { (empty_list : LL Nat) with mem := ex1.mem } = some (decide (xs = ys)) ∧
      not_equal ex1 { (empty_list : LL Nat) with mem := ex1.mem } = some (!decide (xs = ys)) ∧
      (xs = [] → ys = [] → equal ex1 { (empty_list : LL Nat) with mem := ex1.mem } = some true) ∧
      (xs.length ≠ ys.length →
        equal ex1 { (empty_list : LL Nat) with mem := ex1.mem } = some false) :=
  ⟨ex1_WReach, equal_correct _ ex1_WReach ex1 _ (Or.inl rfl) (Or.inr rfl)⟩

/-- C19 (counterexample to the claim as worded): lists `a` and `b` of one
program, `b = [1, 2, 3]` and `a = [5]`.  The call `a.erase(it)` with `it` the
iterator to the node of `b` holding 2 runs to completion and leaves `a` with
`count == 0` while `head` and `tail` still reference the node holding 5. -/
theorem count_zero_foreign_erase :
    ∃ w₀ w, wrun (⟨empty_list, empty_list⟩ : World Nat) foreign_setup = some w₀ ∧
      toList w₀.this = some [5] ∧ toList w₀.other = some [1, 2, 3] ∧
      star w₀.this (some 1) = some 2 ∧ ¬ validOp w₀.this (.erase (some 1)) ∧
      wstep w₀ (.on_this (.erase (some 1))) = some w ∧
      w.this.count = 0 ∧ w.this.head = some 3 ∧ w.this.tail = some 3 := by
  exact ⟨_, _, rfl, rfl, rfl, rfl, not_validPos_of_cells _ [(3, 5)] 1 rfl (by decide),
    rfl, rfl, rfl, rfl⟩

/-- C22 (counterexample to the claim as worded): lists `a` and `b` of one
program, `b = [1, 2, 3]` and `a = [5]`.  The call `a.erase(it)` with `it` the
iterator to the node of `b` holding 2 dereferences no null pointer (`it`, its
`prev` and its `next` are live nodes) and leaves `a` with one node reached from
`head` but `size()` 0, and `b` with two nodes reached from `head` but
`size()` 3. -/
theorem count_tail_foreign_erase :
    ∃ w₀ w, wrun (⟨empty_list, empty_list⟩ : World Nat) foreign_setup = some w₀ ∧
      toList w₀.this = some [5] ∧ toList w₀.other = some [1, 2, 3] ∧
      star w₀.this (some 1) = some 2 ∧ ¬ validOp w₀.this (.erase (some 1)) ∧
      wstep w₀ (.on_this (.erase (some 1))) = some w ∧
      forwardCount w.this = some 1 ∧ size w.this = 0 ∧
      forwardCount w.other = some 2 ∧ size w.other = 3 := by
  exact ⟨_, _, rfl, rfl, rfl, rfl, not_validPos_of_cells _ [(3, 5)] 1 rfl (by decide),
    rfl, rfl, rfl, rfl, rfl⟩

/-- C22 (amended): in every state of each of two lists of one program, reached
from two default-constructed lists by a finite sequence of completed public
operations (none dereferenced a null or dangling pointer) whose iterator
argument is `end()` or an iterator to a node of the list the call is made on,
following `next` from `head` ends after exactly `size()` nodes, and `tail` is
null or references the last node of that chain, whose `next` is null. -/
theorem reach_count_tail (w : World T) (h : WReach w) (s : LL T)
    (hs : s = w.this ∨ s = w.other) :
    ∃ cs, cells s = some cs ∧ forwardCount s = some (size s) ∧
      (s.tail = none ∨
        ∃ c n, cs.getLast? = some c ∧ s.tail = some c.1 ∧
          load s.mem c.1 = some n ∧ n.next = none) := by
  obtain ⟨cs, hch, ht⟩ := WReach_Chain h s hs
  exact CountTail_of_Chain hch ht

theorem reach_count_tail_witness :
    WReach (⟨ex1, { (empty_list : LL Nat) with mem := ex1.mem }⟩ : World Nat) ∧
    ∃ cs, cells ex1 = some cs ∧ forwardCount ex1 = some (size ex1) ∧
      (ex1.tail = none ∨
        ∃ c n, cs.getLast? = some c ∧ ex1.tail = some c.1 ∧
          load ex1.mem c.1 = some n ∧ n.next = none) :=
  ⟨ex1_WReach, reach_count_tail _ ex1_WReach ex1 (Or.inl rfl)⟩

end DLL
